import Mathlib

/-!
Array of memory blocks with managed data (`src/libsoq/aommngd.c`).

A shallow embedding of the owning dynamic array `AoM_Managed` and of its
operations.  Pointers to block data are addresses (`0` is the null pointer),
`size_t` values are natural numbers reduced modulo `2 ^ 64` wherever the C code
computes with them, the storage `blk_arr` is the list of its slots (`none` is
the null pointer), and everything outside the array (the two callbacks and the
C allocator) acts on an explicit world state and is recorded in a trace.
The handle `aom` is always a valid pointer: the structure is passed by value,
and a function that changes it returns the new value.

The primality tests of `src/primes/isprime.c` come first, in the namespace
`Primes`: `unsigned` values are natural numbers reduced modulo `2 ^ 32` wherever
the C code computes with them, and a loop is run on a bounded number of
iterations.  Their theorems are at the end of the file.
-/

/-! ## Primality tests (`src/primes/isprime.c`) -/

namespace Primes

/-- Number of values of `unsigned` (32 bits: `UINT_MAX + 1`). -/
def UINT_MOD : Nat := 2 ^ 32

/-- Wrapping `unsigned` addition. -/
def uadd (a b : Nat) : Nat := (a + b) % UINT_MOD

/-- Wrapping `unsigned` subtraction. -/
def usub (a b : Nat) : Nat := (a + UINT_MOD - b % UINT_MOD) % UINT_MOD

/-- Wrapping `unsigned` multiplication. -/
def umul (a b : Nat) : Nat := (a * b) % UINT_MOD

/-- The conversion `unsigned max = sqrt(number)`: the square root is taken as the exact
integer floor square root. -/
def usqrt (number : Nat) : Nat := Nat.sqrt number

/-- A bound on the iterations of the loops below: each is driven by one `unsigned` counter,
which takes `2 ^ 32` values. -/
def FUEL : Nat := 2 ^ 32

/-- The loop `for (i = start; cond(i); i += step) { if (hit(i)) return 0; }` followed by
`return 1;`, run for at most `fuel` iterations from the counter value `i`; `none` when the
iterations run out.  Division by zero is not modelled: a remainder by `0` is the number
itself, so a counter that wrapped to `0` would count as no divisor. -/
def trial_loop (cond hit : Nat → Bool) (step : Nat) : Nat → Nat → Option Nat
  | 0, _ => none
  | fuel + 1, i =>
    if cond i then
      if hit i then some 0 else trial_loop cond hit step fuel (uadd i step)
    else some 1

/-- The function `IsPrime0` (lines 31-40). -/
def IsPrime0 (number : Nat) : Option Nat :=
  trial_loop (fun i => decide (i < number)) (fun i => decide (number % i = 0)) 1 FUEL 2

/-- The function `IsPrime1` (lines 43-54). -/
def IsPrime1 (number : Nat) : Option Nat :=
  if number ≤ 1 then some 0
  else trial_loop (fun i => decide (umul i i ≤ number)) (fun i => decide (number % i = 0)) 1 FUEL 2

/-- The function `IsPrime2` (lines 57-71). -/
def IsPrime2 (number : Nat) : Option Nat :=
  if number ≤ 1 then some 0
  else if number = 2 ∨ number = 3 then some 1
  else if number % 2 = 0 ∨ number % 3 = 0 then some 0
  else trial_loop (fun i => decide (umul i i ≤ number)) (fun i => decide (number % i = 0)) 2 FUEL 5

/-- The function `IsPrime3` (lines 74-89). -/
def IsPrime3 (number : Nat) : Option Nat :=
  if number ≤ 1 then some 0
  else if number = 2 ∨ number = 3 then some 1
  else if number % 2 = 0 ∨ number % 3 = 0 then some 0
  else
    let max := usqrt number
    trial_loop (fun i => decide (i ≤ max)) (fun i => decide (number % i = 0)) 2 FUEL 5

/-- The function `isprime1` (lines 92-107). -/
def isprime1 (number : Nat) : Option Nat :=
  if number ≤ 1 then some 0
  else if number = 2 ∨ number = 3 then some 1
  else if number % 2 = 0 ∨ number % 3 = 0 then some 0
  else
    let max := uadd (usqrt number) 1
    trial_loop (fun i => decide (i ≤ max))
      (fun i => decide (number % usub i 1 = 0 ∨ number % uadd i 1 = 0)) 6 FUEL 6

/-- The function `isprime2` (lines 110-124). -/
def isprime2 (number : Nat) : Option Nat :=
  if number ≤ 1 then some 0
  else if number = 2 ∨ number = 3 then some 1
  else if number % 2 = 0 ∨ number % 3 = 0 then some 0
  else
    trial_loop (fun i => decide (umul (usub i 1) (usub i 1) ≤ number))
      (fun i => decide (number % usub i 1 = 0 ∨ number % uadd i 1 = 0)) 6 FUEL 6

/-- The array `small_primes` of `isprime3` and `isprime5`. -/
def small_primes : List Nat :=
  [5, 7, 11, 13, 17, 19, 23, 29, 31, 37, 41, 43, 47,
   53, 59, 61, 67, 71, 73, 79, 83, 87, 89, 91, 97]

/-- The loop over `small_primes` of `isprime3` and `isprime5`:
`if (number == small_primes[i]) return 1; if (number % small_primes[i] == 0) return 0;`.
The result is `none` when the loop ends without returning. -/
def small_loop (number : Nat) : List Nat → Option Nat
  | [] => none
  | p :: ps =>
    if number = p then some 1
    else if number % p = 0 then some 0
    else small_loop number ps

/-- The function `isprime3` (lines 127-154). -/
def isprime3 (number : Nat) : Option Nat :=
  if number ≤ 1 then some 0
  else if number = 2 ∨ number = 3 then some 1
  else if number % 2 = 0 ∨ number % 3 = 0 then some 0
  else
    match small_loop number small_primes with
    | some r => some r
    | none =>
      trial_loop (fun i => decide (umul (usub i 1) (usub i 1) ≤ number))
        (fun i => decide (number % usub i 1 = 0 ∨ number % uadd i 1 = 0)) 6 FUEL 102

/-- The function `isprime4` (lines 161-175). -/
def isprime4 (number : Nat) : Option Nat :=
  if number ≤ 1 then some 0
  else if number = 2 ∨ number = 3 then some 1
  else if number % 2 = 0 ∨ number % 3 = 0 then some 0
  else
    trial_loop (fun x => decide (umul x x ≤ number))
      (fun x => decide (number % x = 0 ∨ number % uadd x 2 = 0)) 6 FUEL 5

/-- The function `isprime5` (lines 178-205). -/
def isprime5 (number : Nat) : Option Nat :=
  if number ≤ 1 then some 0
  else if number = 2 ∨ number = 3 then some 1
  else if number % 2 = 0 ∨ number % 3 = 0 then some 0
  else
    match small_loop number small_primes with
    | some r => some r
    | none =>
      trial_loop (fun i => decide (umul i i ≤ number))
        (fun i => decide (number % i = 0 ∨ number % uadd i 2 = 0)) 6 FUEL 101

/-- The function `check_number` (lines 227-247), without its printing: `1` when the eight
results differ, `0` when they agree. -/
def check_number (v : Nat) : Option Nat :=
  match IsPrime1 v, IsPrime2 v, IsPrime3 v, isprime1 v, isprime2 v, isprime3 v, isprime4 v,
    isprime5 v with
  | some p1, some p2, some p3, some p4, some p5, some p6, some p7, some p8 =>
    if p1 ≠ p2 ∨ p1 ≠ p3 ∨ p1 ≠ p4 ∨ p1 ≠ p5 ∨ p1 ≠ p6 ∨ p1 ≠ p7 ∨ p1 ≠ p8 then some 1
    else some 0
  | _, _, _, _, _, _, _, _ => none

/-- The result a primality test should give: `1` for a prime and `0` otherwise. -/
def prime_flag (n : Nat) : Nat := if Nat.Prime n then 1 else 0

/-- Trial division by the odd numbers `3, 5, ..., 2 * k + 1`, largest first: whether none of
them divides `n`.  Not part of the program: the checker behind the primality of the one large
prime the development needs. -/
def no_odd_divisor (n : Nat) : Nat → Bool
  | 0 => true
  | k + 1 => if n % (2 * k + 3) = 0 then false else no_odd_divisor n k

end Primes

namespace Aomm

/-! ## Platform -/

/-- Number of values of `size_t` (an LP64 platform: `SIZE_MAX + 1`). -/
def SIZE_MOD : Nat := 2 ^ 64

/-- Wrapping `size_t` addition. -/
def size_add (a b : Nat) : Nat := (a + b) % SIZE_MOD

/-- Wrapping `size_t` subtraction. -/
def size_sub (a b : Nat) : Nat := (a + SIZE_MOD - b % SIZE_MOD) % SIZE_MOD

/-- Wrapping `size_t` multiplication. -/
def size_mul (a b : Nat) : Nat := (a * b) % SIZE_MOD

/-- Modelled from the spec: the block type `AoM_Block` is declared in the header
`aommngd.h`, which is not part of the sources; the spec describes it as the
pair (`size`, `pointer-to-data`), and the code uses the two fields `blk_size`
and `blk_data`.  A data pointer is an address, `0` being the null pointer. -/
structure AoM_Block where
  blk_size : Nat
  blk_data : Nat
deriving DecidableEq, Repr

/-- The empty sentinel `(AoM_Block){ .blk_data = 0, .blk_size = 0 }`. -/
def AoM_Block.empty : AoM_Block := { blk_size := 0, blk_data := 0 }

/-- The value of `sizeof(AoM_Block)`: a `size_t` and a pointer, 8 bytes each. -/
def sizeof_AoM_Block : Nat := 16

/-- The value of `sizeof(struct AoM_Managed)`: five 8-byte members. -/
def sizeof_AoM_Managed : Nat := 40

/-- The constant `AOM_MIN_ALLOCATION` (and the enumerator `MIN_ALLOCATION`). -/
def MIN_ALLOCATION : Nat := 4

/-! ## The world outside the array -/

/-- One call that leaves the array's own code: a callback or the allocator. -/
inductive Call where
  | blk_cpy (blk_size blk_data : Nat) (result : AoM_Block)
  | blk_rel (blk_size blk_data : Nat)
  | malloc (size : Nat) (ok : Bool)
  | calloc (nmemb size : Nat) (ok : Bool)
  | realloc (size : Nat) (ok : Bool)
  | free
deriving DecidableEq, Repr

/-- The state of everything outside the array (`st`, of a type the callbacks
choose) and the calls made so far, oldest first. -/
structure World (σ : Type) where
  st : σ
  trace : List Call

/-- The type `AoM_BlkCopy`: `AoM_Block (*)(size_t blk_size, const void *blk_data)`.
The result may depend on, and the call may change, the outside state. -/
abbrev AoM_BlkCopy (σ : Type) := Nat → Nat → σ → AoM_Block × σ

/-- The type `AoM_BlkFree`: `void (*)(size_t blk_size, void *blk_data)`. -/
abbrev AoM_BlkFree (σ : Type) := Nat → Nat → σ → σ

/-- The C allocator.  `malloc` and `calloc` answer whether the allocation
succeeds; `realloc` answers `none` when it fails (the old object is then
untouched) and otherwise the indeterminate values found in the slots of the new
object that lie beyond the old one. -/
structure Libc (σ : Type) where
  malloc : Nat → σ → Bool × σ
  calloc : Nat → Nat → σ → Bool × σ
  realloc : Nat → σ → Option (Nat → AoM_Block) × σ
  free : σ → σ

/-- The struct `AoM_Managed`. -/
structure AoM_Managed (σ : Type) where
  num_blk : Nat
  max_blk : Nat
  blk_arr : Option (List AoM_Block)
  blk_cpy : AoM_BlkCopy σ
  blk_rel : AoM_BlkFree σ

/-- How a call of one of the array's functions ends. -/
inductive Outcome (σ α : Type) where
  /-- Normal return with a value, in a world. -/
  | ret (val : α) (w : World σ)
  /-- One of the `assert`s failed, in a world. -/
  | abort (w : World σ)
  /-- Undefined behaviour: a slot outside the storage, or of null storage, was accessed. -/
  | undefined

variable {σ : Type}

/-- The call `(*blk_cpy)(blk_size, blk_data)`, recorded. -/
def call_cpy (cpy : AoM_BlkCopy σ) (blk_size blk_data : Nat) (w : World σ) :
    AoM_Block × World σ :=
  let r := cpy blk_size blk_data w.st
  (r.1, { st := r.2, trace := w.trace ++ [Call.blk_cpy blk_size blk_data r.1] })

/-- The call `(*blk_rel)(blk_size, blk_data)`, recorded. -/
def call_rel (rel : AoM_BlkFree σ) (blk_size blk_data : Nat) (w : World σ) : World σ :=
  { st := rel blk_size blk_data w.st, trace := w.trace ++ [Call.blk_rel blk_size blk_data] }

/-- The call `malloc(size)`, recorded. -/
def call_malloc (L : Libc σ) (size : Nat) (w : World σ) : Bool × World σ :=
  let r := L.malloc size w.st
  (r.1, { st := r.2, trace := w.trace ++ [Call.malloc size r.1] })

/-- The call `calloc(nmemb, size)`, recorded. -/
def call_calloc (L : Libc σ) (nmemb size : Nat) (w : World σ) : Bool × World σ :=
  let r := L.calloc nmemb size w.st
  (r.1, { st := r.2, trace := w.trace ++ [Call.calloc nmemb size r.1] })

/-- The call `realloc(ptr, size)`, recorded. -/
def call_realloc (L : Libc σ) (size : Nat) (w : World σ) :
    Option (Nat → AoM_Block) × World σ :=
  let r := L.realloc size w.st
  (r.1, { st := r.2, trace := w.trace ++ [Call.realloc size r.1.isSome] })

/-- The call `free(ptr)`, recorded. -/
def call_free (L : Libc σ) (w : World σ) : World σ :=
  { st := L.free w.st, trace := w.trace ++ [Call.free] }

/-- The object a successful `realloc(old, size)` returns, as slots: as many
whole slots as `size` bytes hold, the old values where the old object had them
(none when `old` is the null pointer) and indeterminate values `fresh` beyond. -/
def realloc_space (old : Option (List AoM_Block)) (size : Nat) (fresh : Nat → AoM_Block) :
    List AoM_Block :=
  (List.range (size / sizeof_AoM_Block)).map (fun i => ((old.getD [])[i]?).getD (fresh i))

/-! ## The operations -/

/-- The function `aomm_create` (lines 46-64).  A null callback is `none`; the
result is `none` for the null pointer. -/
def aomm_create (L : Libc σ) (num_ptrs : Nat) (copier : Option (AoM_BlkCopy σ))
    (release : Option (AoM_BlkFree σ)) (w : World σ) : Outcome σ (Option (AoM_Managed σ)) :=
  match copier, release with
  | some cpy, some rel =>
    match call_malloc L sizeof_AoM_Managed w with
    | (false, w1) => .ret none w1
    | (true, w1) =>
      let max_blk := if num_ptrs < MIN_ALLOCATION then MIN_ALLOCATION else num_ptrs
      match call_calloc L max_blk sizeof_AoM_Block w1 with
      | (false, w2) => .ret none (call_free L w2)
      | (true, w2) =>
        .ret (some { num_blk := 0, max_blk := max_blk,
                     blk_arr := some (List.replicate max_blk AoM_Block.empty),
                     blk_cpy := cpy, blk_rel := rel }) w2
  | _, _ => .abort w

/-- The loop of `aomm_destroy` (lines 71-72), `count` iterations from index `i`:
`(*aom->blk_rel)(aom->blk_arr[i].blk_size, aom->blk_arr[i].blk_data)`.
The result is `none` when a slot outside the storage is read. -/
def release_loop (rel : AoM_BlkFree σ) (arr : List AoM_Block) :
    Nat → Nat → World σ → Option (World σ)
  | 0, _, w => some w
  | count + 1, i, w =>
    match arr[i]? with
    | none => none
    | some b => release_loop rel arr count (i + 1) (call_rel rel b.blk_size b.blk_data w)

/-- The function `aomm_destroy` (lines 66-83).  The array is gone afterwards, so
only the world is returned. -/
def aomm_destroy (L : Libc σ) (aom : AoM_Managed σ) (w : World σ) : Outcome σ Unit :=
  match aom.blk_arr with
  | some arr =>
    match release_loop aom.blk_rel arr (aom.num_blk - 0) 0 w with
    | none => .undefined
    | some w1 => .ret () (call_free L (call_free L w1))
  | none => .ret () (call_free L w)

/-- The loop of `aomm_add` (lines 98-99), `count` iterations from index `i`:
`aom->blk_arr[i] = (AoM_Block){ .blk_data = 0, .blk_size = 0 }`.
The result is `none` when a slot outside the storage is written. -/
def fill_loop : Nat → Nat → List AoM_Block → Option (List AoM_Block)
  | 0, _, arr => some arr
  | count + 1, i, arr =>
    if i < arr.length then fill_loop count (i + 1) (arr.set i AoM_Block.empty) else none

/-- Lines 101-105 of `aomm_add`: store what the copier returns in slot
`num_blk`, and count it when its data pointer is not null. -/
def aomm_add_store (aom : AoM_Managed σ) (blk_size blk_data : Nat) (w : World σ) :
    Outcome σ (Bool × AoM_Managed σ) :=
  match aom.blk_arr with
  | none => .undefined
  | some arr =>
    if aom.num_blk < arr.length then
      let r := call_cpy aom.blk_cpy blk_size blk_data w
      let aom1 := { aom with blk_arr := some (arr.set aom.num_blk r.1) }
      if r.1.blk_data = 0 then .ret (false, aom1) r.2
      else .ret (true, { aom1 with num_blk := size_add aom1.num_blk 1 }) r.2
    else .undefined

/-- The function `aomm_add` (lines 85-106). -/
def aomm_add (L : Libc σ) (aom : AoM_Managed σ) (blk_size blk_data : Nat) (w : World σ) :
    Outcome σ (Bool × AoM_Managed σ) :=
  if ¬ (blk_data ≠ 0 ∧ blk_size ≠ 0) then .abort w
  else if ¬ (aom.num_blk ≤ size_sub aom.max_blk 1) then .abort w
  else if aom.num_blk = size_sub aom.max_blk 1 then
    let new_size := size_mul (size_add aom.max_blk 2) 2
    let bytes := size_mul new_size sizeof_AoM_Block
    match call_realloc L bytes w with
    | (none, w1) => .ret (false, aom) w1
    | (some fresh, w1) =>
      match fill_loop (new_size - aom.num_blk) aom.num_blk
          (realloc_space aom.blk_arr bytes fresh) with
      | none => .undefined
      | some arr =>
        aomm_add_store { aom with max_blk := new_size, blk_arr := some arr } blk_size blk_data w1
  else aomm_add_store aom blk_size blk_data w

/-- The function `aomm_set` (lines 108-121). -/
def aomm_set (aom : AoM_Managed σ) (index blk_size blk_data : Nat) (w : World σ) :
    Outcome σ (Bool × AoM_Managed σ) :=
  if ¬ (blk_data ≠ 0 ∧ blk_size ≠ 0) then .abort w
  else if ¬ (aom.num_blk ≤ size_sub aom.max_blk 1) then .abort w
  else if index ≥ aom.num_blk then .ret (false, aom) w
  else
    let r := call_cpy aom.blk_cpy blk_size blk_data w
    if r.1.blk_data = 0 then .ret (false, aom) r.2
    else
      match aom.blk_arr with
      | none => .undefined
      | some arr =>
        match arr[index]? with
        | none => .undefined
        | some old =>
          .ret (true, { aom with blk_arr := some (arr.set index r.1) })
            (call_rel aom.blk_rel old.blk_size old.blk_data r.2)

/-- The function `aomm_length` (lines 129-133). -/
def aomm_length (aom : AoM_Managed σ) : Nat := aom.num_blk

/-- The function `aomm_item_copy` (lines 135-143). -/
def aomm_item_copy (aom : AoM_Managed σ) (index : Nat) (w : World σ) :
    Outcome σ (AoM_Block × AoM_Managed σ) :=
  if index ≥ aom.num_blk then .ret (AoM_Block.empty, aom) w
  else
    match aom.blk_arr with
    | none => .undefined
    | some arr =>
      match arr[index]? with
      | none => .undefined
      | some s =>
        let r := call_cpy aom.blk_cpy s.blk_size s.blk_data w
        .ret (r.1, aom) r.2

/-- The function `aomm_item` (lines 145-151). -/
def aomm_item (aom : AoM_Managed σ) (index : Nat) (w : World σ) :
    Outcome σ (AoM_Block × AoM_Managed σ) :=
  if index ≥ aom.num_blk then .ret (AoM_Block.empty, aom) w
  else
    match aom.blk_arr with
    | none => .undefined
    | some arr =>
      match arr[index]? with
      | none => .undefined
      | some s => .ret (s, aom) w

/-! ## Well-formed arrays -/

/-- The representation invariant of an array whose storage is `arr`: the
storage pointer is not null and addresses `max_blk` slots, `max_blk` is a
`size_t`, and one slot is free (the `assert(aom->num_blk <= aom->max_blk - 1)`
of `aomm_add` and `aomm_set`). -/
structure Valid (aom : AoM_Managed σ) (arr : List AoM_Block) : Prop where
  storage : aom.blk_arr = some arr
  slots : arr.length = aom.max_blk
  room : aom.num_blk + 1 ≤ aom.max_blk
  size_t : aom.max_blk < SIZE_MOD

/-- The event recorded when `release` is called on block `b`. -/
def rel_event (b : AoM_Block) : Call := Call.blk_rel b.blk_size b.blk_data

/-- Whether an event is a call of one of the two callbacks. -/
def Call.is_callback : Call → Bool
  | .blk_cpy _ _ _ => true
  | .blk_rel _ _ => true
  | _ => false

/-- Whether an event is a call of `release`. -/
def Call.is_rel : Call → Bool
  | .blk_rel _ _ => true
  | _ => false

instance (aom : AoM_Managed σ) (arr : List AoM_Block) : Decidable (Valid aom arr) :=
  decidable_of_iff
    (aom.blk_arr = some arr ∧ arr.length = aom.max_blk ∧ aom.num_blk + 1 ≤ aom.max_blk ∧
      aom.max_blk < SIZE_MOD)
    ⟨fun ⟨a, b, c, d⟩ => ⟨a, b, c, d⟩, fun ⟨a, b, c, d⟩ => ⟨a, b, c, d⟩⟩

/-! ## Sequences of calls -/

/-- One mutating call on an array: `aomm_add(aom, blk_size, blk_data)` or
`aomm_set(aom, index, blk_size, blk_data)`. -/
inductive Op where
  | add (blk_size blk_data : Nat)
  | set (index blk_size blk_data : Nat)
deriving DecidableEq, Repr

/-- The call passes `assert(blk_data != 0 && blk_size != 0)`. -/
def Op.args_ok : Op → Prop
  | .add blk_size blk_data => blk_size ≠ 0 ∧ blk_data ≠ 0
  | .set _ blk_size blk_data => blk_size ≠ 0 ∧ blk_data ≠ 0

instance (op : Op) : Decidable op.args_ok := by
  cases op <;> unfold Op.args_ok <;> infer_instance

/-- Whether the call is an `aomm_add`. -/
def Op.is_add : Op → Bool
  | .add _ _ => true
  | .set _ _ _ => false

/-- What one call of a sequence did: the value it returned and the outside
calls it made, oldest first. -/
structure Step where
  op : Op
  ok : Bool
  calls : List Call
deriving DecidableEq, Repr

/-- The block the copier returned during a call (each call runs it at most once). -/
def Step.dup_result (s : Step) : Option AoM_Block :=
  s.calls.findSome? fun c =>
    match c with
    | .blk_cpy _ _ b => some b
    | _ => none

/-- Whether the call is an `aomm_add` that returned `true`. -/
def Step.added (s : Step) : Bool := s.ok && s.op.is_add

/-- Run one call. -/
def run_op (L : Libc σ) (aom : AoM_Managed σ) :
    Op → World σ → Outcome σ (Bool × AoM_Managed σ)
  | .add blk_size blk_data, w => aomm_add L aom blk_size blk_data w
  | .set index blk_size blk_data, w => aomm_set aom index blk_size blk_data w

/-- Run a sequence of calls on an array, one after the other, stopping at the
first that does not return; the result lists what each call did. -/
def run_ops (L : Libc σ) : List Op → AoM_Managed σ → World σ →
    Outcome σ (List Step × AoM_Managed σ)
  | [], aom, w => .ret ([], aom) w
  | op :: ops, aom, w =>
    match run_op L aom op w with
    | .ret (r, aom1) w1 =>
      match run_ops L ops aom1 w1 with
      | .ret (steps, aom2) w2 =>
        .ret ({ op := op, ok := r, calls := w1.trace.drop w.trace.length } :: steps, aom2) w2
      | .abort w2 => .abort w2
      | .undefined => .undefined
    | .abort w1 => .abort w1
    | .undefined => .undefined

/-- The blocks passed to `release` in a trace, in order. -/
def released (t : List Call) : List AoM_Block :=
  t.filterMap fun c =>
    match c with
    | .blk_rel blk_size blk_data => some { blk_size := blk_size, blk_data := blk_data }
    | _ => none

/-- The blocks with non-null data that the copier returned in a trace, in order. -/
def duplicated (t : List Call) : List AoM_Block :=
  t.filterMap fun c =>
    match c with
    | .blk_cpy _ _ b => if b.blk_data = 0 then none else some b
    | _ => none

/-! ## Iteration -/

/-- Modelled from the spec: the visitor type `AoM_SimpleApply` is declared in the header
`aommngd.h`, which is not part of the sources; the spec gives it as `(blockView) -> ()` and
the code calls it as `(*function)(&aom->blk_arr[i])`.  The pointer `&aom->blk_arr[i]` is the
slot index `i` together with the block found in that slot; the visitor acts on the outside
state. -/
abbrev AoM_SimpleApply (σ : Type) := Nat → AoM_Block → σ → σ

/-- Modelled from the spec: the visitor type `AoM_ContextApply` is declared in the header
`aommngd.h`, which is not part of the sources; the spec gives it as
`(blockView, context) -> ()` and the code calls it as `(*function)(&aom->blk_arr[i], ctxt)`.
The context pointer is a value of a type `κ` the caller chooses; what it points to lives in the
outside state. -/
abbrev AoM_ContextApply (σ κ : Type) := Nat → AoM_Block → κ → σ → σ

/-- The loop of `aomm_apply` (lines 161-162), `count` iterations from index `i`:
`(*function)(&aom->blk_arr[i])`.  The result is `none` when a slot outside the storage is
visited. -/
def apply_loop (function : AoM_SimpleApply σ) (arr : List AoM_Block) :
    Nat → Nat → σ → Option σ
  | 0, _, s => some s
  | count + 1, i, s =>
    match arr[i]? with
    | none => none
    | some b => apply_loop function arr count (i + 1) (function i b s)

/-- The function `aomm_apply` (lines 153-163). -/
def aomm_apply (aom : AoM_Managed σ) (bos eos : Nat) (function : AoM_SimpleApply σ)
    (w : World σ) : Outcome σ (AoM_Managed σ) :=
  let eos1 := if eos = 0 then aom.num_blk else eos
  if ¬ (bos ≤ eos1 ∧ eos1 ≤ aom.num_blk) then .abort w
  else
    let eos2 := if eos1 > aom.num_blk then 0 else eos1
    match apply_loop function (aom.blk_arr.getD []) (eos2 - bos) bos w.st with
    | none => .undefined
    | some s => .ret aom { st := s, trace := w.trace }

/-- The loop of `aomm_apply_ctxt` (lines 173-174), `count` iterations from index `i`:
`(*function)(&aom->blk_arr[i], ctxt)`. -/
def apply_ctxt_loop {κ : Type} (function : AoM_ContextApply σ κ) (ctxt : κ)
    (arr : List AoM_Block) : Nat → Nat → σ → Option σ
  | 0, _, s => some s
  | count + 1, i, s =>
    match arr[i]? with
    | none => none
    | some b => apply_ctxt_loop function ctxt arr count (i + 1) (function i b ctxt s)

/-- The function `aomm_apply_ctxt` (lines 165-175). -/
def aomm_apply_ctxt {κ : Type} (aom : AoM_Managed σ) (bos eos : Nat)
    (function : AoM_ContextApply σ κ) (ctxt : κ) (w : World σ) : Outcome σ (AoM_Managed σ) :=
  let eos1 := if eos = 0 then aom.num_blk else eos
  if ¬ (bos ≤ eos1 ∧ eos1 ≤ aom.num_blk) then .abort w
  else
    let eos2 := if eos1 > aom.num_blk then 0 else eos1
    match apply_ctxt_loop function ctxt (aom.blk_arr.getD []) (eos2 - bos) bos w.st with
    | none => .undefined
    | some s => .ret aom { st := s, trace := w.trace }

/-- The function `aomm_base` (lines 123-127): the storage itself, which the caller may then
read and rearrange. -/
def aomm_base (aom : AoM_Managed σ) : Option (List AoM_Block) := aom.blk_arr

/-- The slots `bos .. e - 1` of a storage, each with its index, in ascending order. -/
def slots_between (arr : List AoM_Block) (bos e : Nat) : List (Nat × AoM_Block) :=
  ((arr.take e).drop bos).enumFrom bos

/-- The end of the range `aomm_apply` works on: the length when `eos` is `0`. -/
def range_end (aom : AoM_Managed σ) (eos : Nat) : Nat := if eos = 0 then aom.num_blk else eos

/-- A visitor that counts its calls in the outside state. -/
def count_visit : AoM_SimpleApply Nat := fun _ _ n => n + 1

/-- A visitor that writes down the slots it is called on. -/
def record_visit : AoM_SimpleApply (List (Nat × AoM_Block)) := fun i b log => log ++ [(i, b)]

/-- A context visitor that writes down the slots it is called on and the context it gets. -/
def record_visit_ctxt {κ : Type} : AoM_ContextApply (List (Nat × AoM_Block × κ)) κ :=
  fun i b c log => log ++ [(i, b, c)]

/-- A context visitor that increments the counter its context names: the outside state holds
one counter per context value. -/
def count_visit_ctxt : AoM_ContextApply (Nat → Nat) Nat :=
  fun _ _ c m => Function.update m c (m c + 1)

/-! ## Reachable arrays -/

/-- The arrays reachable from `aomm_create(num_ptrs, copier, release)`, in any world, by calls
of `aomm_add` and `aomm_set`, each made in any world, that returned (`true` or `false`). -/
inductive Reachable (L : Libc σ) (num_ptrs : Nat) : AoM_Managed σ → Prop
  | create (cpy : AoM_BlkCopy σ) (rel : AoM_BlkFree σ) (w w1 : World σ) (aom : AoM_Managed σ) :
      aomm_create L num_ptrs (some cpy) (some rel) w = .ret (some aom) w1 →
      Reachable L num_ptrs aom
  | call (aom aom1 : AoM_Managed σ) (op : Op) (w w1 : World σ) (r : Bool) :
      Reachable L num_ptrs aom → run_op L aom op w = .ret (r, aom1) w1 →
      Reachable L num_ptrs aom1

/-! ## Fixtures: concrete callbacks and allocators over a counter -/

/-- A copier that always succeeds: the `s`-th allocation lives at address `100 + s`. -/
def ok_cpy : AoM_BlkCopy Nat := fun blk_size _ s =>
  ({ blk_size := blk_size, blk_data := 100 + s }, s + 1)

/-- A copier that always fails, returning the empty sentinel. -/
def bad_cpy : AoM_BlkCopy Nat := fun _ _ s => (AoM_Block.empty, s + 1)

/-- A copier whose every third call fails. -/
def flaky_cpy : AoM_BlkCopy Nat := fun blk_size _ s =>
  (if s % 3 = 2 then AoM_Block.empty else { blk_size := blk_size, blk_data := 100 + s }, s + 1)

/-- A release that only counts. -/
def ok_rel : AoM_BlkFree Nat := fun _ _ s => s + 1

/-- An allocator that always succeeds; fresh memory holds the garbage block `(7, 7)`. -/
def ok_libc : Libc Nat where
  malloc := fun _ s => (true, s)
  calloc := fun _ _ s => (true, s)
  realloc := fun _ s => (some (fun _ => { blk_size := 7, blk_data := 7 }), s)
  free := fun s => s

/-- An allocator whose `realloc` always fails. -/
def no_realloc_libc : Libc Nat where
  malloc := fun _ s => (true, s)
  calloc := fun _ _ s => (true, s)
  realloc := fun _ s => (none, s)
  free := fun s => s

/-- The initial world of the fixtures. -/
def w0 : World Nat := { st := 0, trace := [] }

/-- Storage of four slots, the first two live. -/
def two_slots : List AoM_Block := [⟨5, 50⟩, ⟨6, 60⟩, AoM_Block.empty, AoM_Block.empty]

/-- Storage of four slots, the first three live. -/
def three_slots : List AoM_Block := [⟨5, 50⟩, ⟨6, 60⟩, ⟨7, 70⟩, AoM_Block.empty]

/-- An array of capacity 4 holding two blocks. -/
def two_blocks (cpy : AoM_BlkCopy Nat) : AoM_Managed Nat :=
  { num_blk := 2, max_blk := 4, blk_arr := some two_slots, blk_cpy := cpy, blk_rel := ok_rel }

/-- An array of capacity 4 holding three blocks: the next `aomm_add` grows it. -/
def three_blocks (cpy : AoM_BlkCopy Nat) : AoM_Managed Nat :=
  { num_blk := 3, max_blk := 4, blk_arr := some three_slots, blk_cpy := cpy, blk_rel := ok_rel }

/-- The array `aomm_create(0, flaky_cpy, ok_rel)` returns. -/
def created : AoM_Managed Nat :=
  { num_blk := 0, max_blk := 4, blk_arr := some (List.replicate 4 AoM_Block.empty),
    blk_cpy := flaky_cpy, blk_rel := ok_rel }

/-- The world after that `aomm_create`. -/
def w_created : World Nat :=
  { st := 0, trace := [Call.malloc 40 true, Call.calloc 4 16 true] }

example : aomm_set (two_blocks ok_cpy) 1 8 80 w0 =
    .ret (true,
      ⟨2, 4, some [⟨5, 50⟩, ⟨8, 100⟩, AoM_Block.empty, AoM_Block.empty], ok_cpy, ok_rel⟩)
      { st := 2, trace := [Call.blk_cpy 8 80 ⟨8, 100⟩, Call.blk_rel 6 60] } := by rfl

example : aomm_set (two_blocks bad_cpy) 1 8 80 w0 =
    .ret (false, two_blocks bad_cpy) { st := 1, trace := [Call.blk_cpy 8 80 ⟨0, 0⟩] } := by rfl

example : aomm_set (two_blocks ok_cpy) 2 8 80 w0 = .ret (false, two_blocks ok_cpy) w0 := by rfl

example : aomm_add ok_libc (three_blocks ok_cpy) 8 80 w0 =
    .ret (true, ⟨4, 12, some ([⟨5, 50⟩, ⟨6, 60⟩, ⟨7, 70⟩, ⟨8, 100⟩] ++
        List.replicate 8 AoM_Block.empty), ok_cpy, ok_rel⟩)
      { st := 1, trace := [Call.realloc 192 true, Call.blk_cpy 8 80 ⟨8, 100⟩] } := by rfl

example : aomm_add no_realloc_libc (three_blocks ok_cpy) 8 80 w0 =
    .ret (false, three_blocks ok_cpy) { st := 0, trace := [Call.realloc 192 false] } := by rfl

example : aomm_create ok_libc 0 (some flaky_cpy) (some ok_rel) w0 =
    .ret (some created) w_created := by rfl

example : aomm_destroy ok_libc (three_blocks ok_cpy) w0 =
    .ret () { st := 3, trace := [Call.blk_rel 5 50, Call.blk_rel 6 60, Call.blk_rel 7 70,
      Call.free, Call.free] } := by rfl

/-- The array after `k` calls `aomm_add(aom, 8, 80)`, `k <= 3`, on the array
`aomm_create(4, ok_cpy, ok_rel)` returns, the call number `i` made in the world whose counter
is `i`. -/
def added (k : Nat) : AoM_Managed Nat where
  num_blk := k
  max_blk := 4
  blk_arr := some (((List.range k).map fun i => (⟨8, 100 + i⟩ : AoM_Block)) ++
    List.replicate (4 - k) AoM_Block.empty)
  blk_cpy := ok_cpy
  blk_rel := ok_rel

/-- The array after a fourth such call: the storage has grown to twelve slots. -/
def added4 : AoM_Managed Nat where
  num_blk := 4
  max_blk := 12
  blk_arr := some (((List.range 4).map fun i => (⟨8, 100 + i⟩ : AoM_Block)) ++
    List.replicate 8 AoM_Block.empty)
  blk_cpy := ok_cpy
  blk_rel := ok_rel

/-- An array of capacity 4 holding three blocks, over one counter per context value; its
callbacks do nothing. -/
def three_counted : AoM_Managed (Nat → Nat) where
  num_blk := 3
  max_blk := 4
  blk_arr := some three_slots
  blk_cpy := fun _ _ s => (AoM_Block.empty, s)
  blk_rel := fun _ _ s => s

/-! ## The test program of `aommngd.c` (lines 180-363)

The callbacks, the comparator and the data of `main`, over a memory that holds the records of
type `struct NoneSuch` by address.  The allocator hands out increasing addresses; which
allocations fail is fixed by a list of answers. -/

/-- The struct `NoneSuch` of the test program (lines 186-191).  The members `name` and `value`
point to strings that are owned by the record, so they are held here by value. -/
structure NoneSuch where
  number : Int
  name : String
  value : String
deriving DecidableEq, Repr

/-- The value of `sizeof(struct NoneSuch)`: an `int`, padding, and two pointers. -/
def sizeof_NoneSuch : Nat := 24

/-- The memory of the test program: the `struct NoneSuch` objects by address, the address the
next successful allocation returns, the answers of the coming allocations (`true`: a null
pointer; once the list is used up every allocation succeeds), the arguments of the calls of
`printf` made so far, and whether a callback failed its assertion or read through a pointer
that does not point to a record. -/
structure TestMem where
  recs : List (Nat × NoneSuch)
  brk : Nat
  deny : List Bool
  out : List NoneSuch
  failed : Bool
deriving DecidableEq, Repr

/-- One allocation of `size` bytes. -/
def TestMem.alloc (m : TestMem) (size : Nat) : Option Nat × TestMem :=
  match m.deny with
  | true :: rest => (none, { m with deny := rest })
  | false :: rest => (some m.brk, { m with deny := rest, brk := m.brk + size })
  | [] => (some m.brk, { m with brk := m.brk + size })

/-- The callback `aomm_blk_copy` of the test program (lines 200-224). -/
def aomm_blk_copy : AoM_BlkCopy TestMem := fun blk_size blk_data m =>
  if blk_size ≠ sizeof_NoneSuch then (AoM_Block.empty, { m with failed := true })
  else
    match m.recs.lookup blk_data with
    | none => (AoM_Block.empty, { m with failed := true })
    | some op =>
      match m.alloc sizeof_NoneSuch with
      | (none, m1) => (AoM_Block.empty, m1)
      | (some np, m1) =>
        match m1.alloc (op.name.length + 1) with
        | (name, m2) =>
          match m2.alloc (op.value.length + 1) with
          | (value, m3) =>
            if name.isNone ∨ value.isNone then (AoM_Block.empty, m3)
            else
              ({ blk_size := blk_size, blk_data := np }, { m3 with recs := (np, op) :: m3.recs })

/-- The callback `aomm_blk_free` of the test program (lines 226-236). -/
def aomm_blk_free : AoM_BlkFree TestMem := fun blk_size blk_data m =>
  if blk_size ≠ sizeof_NoneSuch then { m with failed := true }
  else if blk_data = 0 then m
  else
    match m.recs.lookup blk_data with
    | none => { m with failed := true }
    | some _ => { m with recs := m.recs.filter fun p => p.1 ≠ blk_data }

/-- The visitor `aomm_applicator` of the test program (lines 238-242): one call of `printf`
with the three members of the record the block points to. -/
def aomm_applicator : AoM_SimpleApply TestMem := fun _ ptr m =>
  match m.recs.lookup ptr.blk_data with
  | none => { m with failed := true }
  | some np => { m with out := m.out ++ [np] }

/-- The C library function `strcmp` on the bytes of two strings before their terminating
null bytes: the difference of the first two bytes that differ, the terminating null byte
included; `0` for equal strings.  (C fixes the sign of the result only.) -/
def strcmp_bytes : List Nat → List Nat → Int
  | [], [] => 0
  | [], b :: _ => 0 - (b : Int)
  | a :: _, [] => (a : Int)
  | a :: s1, b :: s2 => if a = b then strcmp_bytes s1 s2 else (a : Int) - (b : Int)

/-- The C library function `strcmp` on strings. -/
def strcmp (s1 s2 : String) : Int :=
  strcmp_bytes (s1.toList.map Char.toNat) (s2.toList.map Char.toNat)

/-- The comparator `aomm_cmp` of the test program (lines 254-269), on two slots of the storage;
`none` when a block does not point to a record. -/
def aomm_cmp (m : TestMem) (p1 p2 : AoM_Block) : Option Int :=
  match m.recs.lookup p1.blk_data, m.recs.lookup p2.blk_data with
  | some b1, some b2 =>
    let rc := strcmp b1.name b2.name
    if rc ≠ 0 then some rc
    else
      let rc := strcmp b1.value b2.value
      if rc ≠ 0 then some rc
      else
        some ((if b1.number > b2.number then 1 else 0) - (if b1.number < b2.number then 1 else 0))
  | _, _ => none

/-- The allocator of the test program; memory that `realloc` adds holds the garbage block
`(7, 7)`. -/
def test_libc : Libc TestMem where
  malloc := fun size m => ((m.alloc size).1.isSome, (m.alloc size).2)
  calloc := fun nmemb size m => ((m.alloc (nmemb * size)).1.isSome, (m.alloc (nmemb * size)).2)
  realloc := fun size m =>
    ((m.alloc size).1.map fun _ _ => { blk_size := 7, blk_data := 7 }, (m.alloc size).2)
  free := fun m => m

/-- The array `names` of `main` (lines 306-318), with the strings of `strings`
(lines 292-304). -/
def names : List NoneSuch :=
  [⟨1, "H", "Hydrogen"⟩, ⟨2, "He", "Helium"⟩, ⟨3, "Li", "Lithium"⟩, ⟨4, "Be", "Beryllium"⟩,
   ⟨5, "B", "Boron"⟩, ⟨6, "C", "Carbon"⟩, ⟨7, "N", "Nitrogen"⟩, ⟨8, "O", "Oxygen"⟩,
   ⟨9, "Fl", "Fluorine"⟩, ⟨10, "Ne", "Neon"⟩]

/-- The address `&names[i]`. -/
def names_addr (i : Nat) : Nat := 4096 + sizeof_NoneSuch * i

/-- The memory when `main` starts: the array `names`, an empty heap. -/
def test_mem (deny : List Bool) : TestMem where
  recs := names.enum.map fun p => (names_addr p.1, p.2)
  brk := 65536
  deny := deny
  out := []
  failed := false

/-- The calls `aomm_add(aom, sizeof(names[i]), &names[i])` of the loop of `main`
(lines 323-324). -/
def add_names : List Op :=
  (List.range names.length).map fun i => Op.add sizeof_NoneSuch (names_addr i)

/-- The storage after the ten calls of `aomm_add`, every allocation having succeeded. -/
def element_slots : List AoM_Block :=
  [⟨24, 65640⟩, ⟨24, 65675⟩, ⟨24, 65709⟩, ⟨24, 65936⟩, ⟨24, 65973⟩, ⟨24, 66005⟩, ⟨24, 66038⟩,
   ⟨24, 66073⟩, ⟨24, 66106⟩, ⟨24, 66142⟩, AoM_Block.empty, AoM_Block.empty]

/-- The array after the ten calls of `aomm_add`. -/
def elements : AoM_Managed TestMem where
  num_blk := 10
  max_blk := 12
  blk_arr := some element_slots
  blk_cpy := aomm_blk_copy
  blk_rel := aomm_blk_free

/-- The memory after the ten calls of `aomm_add`, every allocation having succeeded: the
copies, newest first, before the array `names`. -/
def elements_mem : TestMem where
  recs :=
    [(66142, ⟨10, "Ne", "Neon"⟩), (66106, ⟨9, "Fl", "Fluorine"⟩), (66073, ⟨8, "O", "Oxygen"⟩),
     (66038, ⟨7, "N", "Nitrogen"⟩), (66005, ⟨6, "C", "Carbon"⟩), (65973, ⟨5, "B", "Boron"⟩),
     (65936, ⟨4, "Be", "Beryllium"⟩), (65709, ⟨3, "Li", "Lithium"⟩),
     (65675, ⟨2, "He", "Helium"⟩), (65640, ⟨1, "H", "Hydrogen"⟩)] ++ (test_mem []).recs
  brk := 66174
  deny := []
  out := []
  failed := false

/-- The live slots of `element_slots` in the order of `aomm_cmp`: B, Be, C, Fl, H, He, Li, N,
Ne, O. -/
def sorted_slots : List AoM_Block :=
  [⟨24, 65973⟩, ⟨24, 65936⟩, ⟨24, 66005⟩, ⟨24, 66106⟩, ⟨24, 65640⟩, ⟨24, 65675⟩, ⟨24, 65709⟩,
   ⟨24, 66038⟩, ⟨24, 66142⟩, ⟨24, 66073⟩]

/-- Whether `aomm_cmp` returns a value `<= 0` on two slots: the first may stand before the
second in an array sorted by `aomm_cmp`. -/
def cmp_le (m : TestMem) (p1 p2 : AoM_Block) : Bool :=
  match aomm_cmp m p1 p2 with
  | some rc => decide (rc ≤ 0)
  | none => false

/-- The array `elements` after its caller has rearranged the storage, which it reaches through
`aomm_base`, into `arr`. -/
def rearranged (arr : List AoM_Block) : AoM_Managed TestMem :=
  { elements with blk_arr := some arr }

/-- What a run of calls shows when it returns: the values returned, the length, the capacity
and the storage of the array, and the memory. -/
structure RunView where
  oks : List Bool
  num_blk : Nat
  max_blk : Nat
  blk_arr : Option (List AoM_Block)
  mem : TestMem
deriving DecidableEq

/-- The view of a run of calls; `none` when the run does not return. -/
def run_view (o : Outcome TestMem (List Step × AoM_Managed TestMem)) : Option RunView :=
  match o with
  | .ret (steps, aom) w => some ⟨steps.map Step.ok, aom.num_blk, aom.max_blk, aom.blk_arr, w.st⟩
  | _ => none

/-- Whether a string of the model stands for a C string: none of its characters is the null
character, which ends a C string. -/
def c_string (s : String) : Prop := ∀ ch ∈ s.toList, ch.toNat ≠ 0

instance (s : String) : Decidable (c_string s) := by
  unfold c_string
  infer_instance

/-- Byte-wise order of two strings, given by their bytes: the first is before the second
when, at the first position where the two differ, the first has the smaller byte; past its
end a string has the null byte. -/
def bytes_lt (s1 s2 : List Nat) : Prop :=
  ∃ i, i < s2.length ∧ (∀ j, j < i → s1.getD j 0 = s2.getD j 0) ∧ s1.getD i 0 < s2.getD i 0

instance (s1 s2 : List Nat) : Decidable (bytes_lt s1 s2) := by
  unfold bytes_lt
  infer_instance

/-- The sign the lexicographic order on `(name, value, number)` gives two records: that of
the byte-wise comparison of the names, or when neither name is before the other of the
values, or else of the comparison of the numbers. -/
def lexicographic_sign (a b : NoneSuch) : Int :=
  if bytes_lt (a.name.toList.map Char.toNat) (b.name.toList.map Char.toNat) then -1
  else if bytes_lt (b.name.toList.map Char.toNat) (a.name.toList.map Char.toNat) then 1
  else if bytes_lt (a.value.toList.map Char.toNat) (b.value.toList.map Char.toNat) then -1
  else if bytes_lt (b.value.toList.map Char.toNat) (a.value.toList.map Char.toNat) then 1
  else if a.number < b.number then -1
  else if b.number < a.number then 1
  else 0

/-- Lines 260-268 of `aomm_cmp`: the comparison of the two records the blocks point to. -/
def compare_records (b1 b2 : NoneSuch) : Int :=
  let rc := strcmp b1.name b2.name
  if rc ≠ 0 then rc
  else
    let rc := strcmp b1.value b2.value
    if rc ≠ 0 then rc
    else (if b1.number > b2.number then 1 else 0) - (if b1.number < b2.number then 1 else 0)

/-! ## Lemmas on the operations -/

/-- Subtracting one from a non-zero `size_t` does not wrap. -/
theorem size_sub_one {m : Nat} (h1 : 1 ≤ m) (h2 : m < SIZE_MOD) : size_sub m 1 = m - 1 := by
  unfold size_sub SIZE_MOD at *
  omega

/-- When the fill loop ends normally it stayed inside the storage, kept its length, and
emptied exactly the slots `i .. i + count - 1`. -/
theorem fill_loop_inv (count : Nat) : ∀ (i : Nat) (arr arr' : List AoM_Block),
    fill_loop count i arr = some arr' →
      (count = 0 ∨ i + count ≤ arr.length) ∧ arr'.length = arr.length ∧
      ∀ j, arr'[j]? = if i ≤ j ∧ j < i + count then some AoM_Block.empty else arr[j]? := by
  induction count with
  | zero =>
    intro i arr arr' h
    simp only [fill_loop, Option.some.injEq] at h
    subst h
    refine ⟨Or.inl rfl, rfl, fun j => ?_⟩
    rw [if_neg (by omega)]
  | succ n ih =>
    intro i arr arr' h
    simp only [fill_loop] at h
    split_ifs at h with hi
    obtain ⟨h1, h2, h3⟩ := ih (i + 1) _ arr' h
    rw [List.length_set] at h1 h2
    refine ⟨Or.inr (by omega), h2, fun j => ?_⟩
    rw [h3 j, List.getElem?_set]
    by_cases hj : i = j
    · subst hj
      simp [hi]
    · by_cases hj2 : i + 1 ≤ j ∧ j < i + 1 + n
      · rw [if_pos hj2, if_pos (by omega)]
      · rw [if_neg hj2, if_neg hj, if_neg (by omega)]

/-- The fill loop ends normally when its range lies inside the storage. -/
theorem fill_loop_total (count : Nat) : ∀ (i : Nat) (arr : List AoM_Block),
    i + count ≤ arr.length → ∃ arr', fill_loop count i arr = some arr' := by
  induction count with
  | zero => intro i arr _; exact ⟨arr, rfl⟩
  | succ n ih =>
    intro i arr h
    simp only [fill_loop]
    rw [if_pos (by omega)]
    exact ih (i + 1) _ (by rw [List.length_set]; omega)

/-- A reallocated object holds as many slots as its byte size allows. -/
theorem realloc_space_length (old : Option (List AoM_Block)) (size : Nat)
    (fresh : Nat → AoM_Block) :
    (realloc_space old size fresh).length = size / sizeof_AoM_Block := by
  simp [realloc_space]

/-- The slots of a reallocated object: the old values, then indeterminate ones. -/
theorem realloc_space_getElem? (arr : List AoM_Block) (size : Nat) (fresh : Nat → AoM_Block)
    (j : Nat) :
    (realloc_space (some arr) size fresh)[j]? =
      if j < size / sizeof_AoM_Block then some ((arr[j]?).getD (fresh j)) else none := by
  unfold realloc_space
  rw [List.getElem?_map]
  by_cases hj : j < size / sizeof_AoM_Block
  · rw [if_pos hj, List.getElem?_eq_getElem (by simpa using hj)]
    simp
  · rw [if_neg hj, List.getElem?_eq_none (by simpa using hj)]
    rfl

/-- The storage after a growth that fits: the live blocks, then empty slots. -/
theorem grown_storage (arr arr1 : List AoM_Block) (n m : Nat) (fresh : Nat → AoM_Block)
    (hn : n ≤ arr.length) (hm : n ≤ m)
    (h : fill_loop (m - n) n (realloc_space (some arr) (m * sizeof_AoM_Block) fresh) = some arr1) :
    arr1 = arr.take n ++ List.replicate (m - n) AoM_Block.empty := by
  obtain ⟨_, h2, h3⟩ := fill_loop_inv _ _ _ _ h
  have hdiv : m * sizeof_AoM_Block / sizeof_AoM_Block = m := by simp [sizeof_AoM_Block]
  apply List.ext_getElem?
  intro j
  rw [h3 j, realloc_space_getElem?, hdiv]
  by_cases hj : j < n
  · rw [if_neg (by omega), if_pos (by omega), List.getElem?_append_left (by simp; omega),
      List.getElem?_take_of_lt hj, List.getElem?_eq_getElem (by omega)]
    simp
  · rw [List.getElem?_append_right (by simp; omega)]
    simp only [List.length_take, List.getElem?_replicate]
    by_cases hj2 : j < m
    · rw [if_pos (by omega), if_pos (by omega)]
    · rw [if_neg (by omega), if_neg (by omega), if_neg (by omega)]

/-- Lines 101-105 of `aomm_add` when slot `num_blk` lies inside the storage. -/
theorem aomm_add_store_eq (a : AoM_Managed σ) (arr1 : List AoM_Block) (blk_size blk_data : Nat)
    (v : World σ) (hs : a.blk_arr = some arr1) (hn : a.num_blk < arr1.length) :
    aomm_add_store a blk_size blk_data v =
      .ret (decide ((a.blk_cpy blk_size blk_data v.st).1.blk_data ≠ 0),
        { num_blk := if (a.blk_cpy blk_size blk_data v.st).1.blk_data = 0 then a.num_blk
            else size_add a.num_blk 1,
          max_blk := a.max_blk,
          blk_arr := some (arr1.set a.num_blk (a.blk_cpy blk_size blk_data v.st).1),
          blk_cpy := a.blk_cpy, blk_rel := a.blk_rel })
        (call_cpy a.blk_cpy blk_size blk_data v).2 := by
  unfold aomm_add_store
  simp only [hs, hn, if_true]
  by_cases hb : (a.blk_cpy blk_size blk_data v.st).1.blk_data = 0
  · have hb' : (call_cpy a.blk_cpy blk_size blk_data v).1.blk_data = 0 := hb
    simp only [hb', hb, if_true]
    simp [call_cpy]
  · have hb' : ¬ (call_cpy a.blk_cpy blk_size blk_data v).1.blk_data = 0 := hb
    simp only [hb', hb, if_false]
    simp [call_cpy, hb]

/-- Lines 101-105 of `aomm_add` when slot `num_blk` lies outside the storage. -/
theorem aomm_add_store_undefined (a : AoM_Managed σ) (arr1 : List AoM_Block)
    (blk_size blk_data : Nat) (v : World σ) (hs : a.blk_arr = some arr1)
    (hn : ¬ a.num_blk < arr1.length) :
    aomm_add_store a blk_size blk_data v = .undefined := by
  unfold aomm_add_store
  simp only [hs, hn, if_false]

/-- What `aomm_add` does on a well-formed array, as one equation. -/
theorem aomm_add_eq (L : Libc σ) (aom : AoM_Managed σ) (arr : List AoM_Block)
    (blk_size blk_data : Nat) (w : World σ) (hv : Valid aom arr)
    (hsize : blk_size ≠ 0) (hdata : blk_data ≠ 0) :
    aomm_add L aom blk_size blk_data w =
      if aom.num_blk + 1 < aom.max_blk then aomm_add_store aom blk_size blk_data w
      else
        match call_realloc L
          (size_mul (size_mul (size_add aom.max_blk 2) 2) sizeof_AoM_Block) w with
        | (none, w1) => .ret (false, aom) w1
        | (some _, w1) =>
          if (aom.max_blk + 2) * 2 * sizeof_AoM_Block < SIZE_MOD then
            aomm_add_store
              { aom with
                max_blk := (aom.max_blk + 2) * 2
                blk_arr := some (arr.take aom.num_blk ++
                  List.replicate ((aom.max_blk + 2) * 2 - aom.num_blk) AoM_Block.empty) }
              blk_size blk_data w1
          else .undefined := by
  obtain ⟨hs, hl, hr, hm⟩ := hv
  have hsub : size_sub aom.max_blk 1 = aom.max_blk - 1 := size_sub_one (by omega) hm
  unfold aomm_add
  rw [if_neg (by simp [hsize, hdata]), if_neg (by rw [hsub]; omega), hsub]
  by_cases hg : aom.num_blk + 1 < aom.max_blk
  · rw [if_neg (by omega), if_pos hg]
  · have hfull : aom.num_blk = aom.max_blk - 1 := by omega
    rw [if_pos hfull, if_neg hg]
    dsimp only
    split
    · rfl
    · rename_i fresh w1 heq
      by_cases hf : (aom.max_blk + 2) * 2 * sizeof_AoM_Block < SIZE_MOD
      · rw [if_pos hf]
        have e1 : size_mul (size_add aom.max_blk 2) 2 = (aom.max_blk + 2) * 2 := by
          unfold size_mul size_add SIZE_MOD sizeof_AoM_Block at *
          omega
        have e2 : size_mul ((aom.max_blk + 2) * 2) sizeof_AoM_Block =
            (aom.max_blk + 2) * 2 * sizeof_AoM_Block := by
          unfold size_mul SIZE_MOD sizeof_AoM_Block at *
          omega
        rw [e1, e2, hs]
        obtain ⟨arr1, h1⟩ := fill_loop_total ((aom.max_blk + 2) * 2 - aom.num_blk) aom.num_blk
          (realloc_space (some arr) ((aom.max_blk + 2) * 2 * sizeof_AoM_Block) fresh)
          (by rw [realloc_space_length]; simp [sizeof_AoM_Block]; omega)
        rw [h1]
        dsimp only
        rw [grown_storage arr arr1 aom.num_blk _ fresh (by omega) (by omega) h1]
      · rw [if_neg hf]
        split
        · rfl
        · rename_i arr1 h1
          obtain ⟨h2, h3, _⟩ := fill_loop_inv _ _ _ _ h1
          rw [realloc_space_length] at h2 h3
          apply aomm_add_store_undefined _ arr1 _ _ _ rfl
          dsimp only
          rw [h3]
          unfold size_mul size_add SIZE_MOD sizeof_AoM_Block at *
          omega

/-- The release loop inside the storage calls `release` on each slot of its range, in order. -/
theorem release_loop_spec (rel : AoM_BlkFree σ) (arr : List AoM_Block) (count : Nat) :
    ∀ (i : Nat) (w : World σ), i + count ≤ arr.length →
      ∃ w', release_loop rel arr count i w = some w' ∧
        w'.trace = w.trace ++ ((arr.drop i).take count).map rel_event := by
  induction count with
  | zero => intro i w _; exact ⟨w, rfl, by simp⟩
  | succ n ih =>
    intro i w h
    have hlt : i < arr.length := by omega
    obtain ⟨w', h1, h2⟩ := ih (i + 1) (call_rel rel arr[i].blk_size arr[i].blk_data w) (by omega)
    refine ⟨w', ?_, ?_⟩
    · simp only [release_loop, List.getElem?_eq_getElem hlt]
      exact h1
    · have e : (arr.drop i).take (n + 1) = arr[i] :: (arr.drop (i + 1)).take n := by
        rw [List.drop_eq_getElem_cons hlt, List.take_succ_cons]
      rw [h2, e]
      simp [call_rel, rel_event]

/-- The function `aomm_item` below the length. -/
theorem aomm_item_lt (aom : AoM_Managed σ) (arr : List AoM_Block) (index : Nat) (s : AoM_Block)
    (w : World σ) (hs : aom.blk_arr = some arr) (hi : index < aom.num_blk)
    (hg : arr[index]? = some s) : aomm_item aom index w = .ret (s, aom) w := by
  unfold aomm_item
  rw [if_neg (by omega)]
  simp only [hs, hg]

/-- The function `aomm_item` from the length on. -/
theorem aomm_item_ge (aom : AoM_Managed σ) (index : Nat) (w : World σ)
    (hi : aom.num_blk ≤ index) : aomm_item aom index w = .ret (AoM_Block.empty, aom) w := by
  unfold aomm_item
  rw [if_pos hi]

/-- The asserted preconditions hold whenever `aomm_add` returns. -/
theorem aomm_add_ret_args (L : Libc σ) (aom aom' : AoM_Managed σ) (blk_size blk_data : Nat)
    (w w' : World σ) (r : Bool) (h : aomm_add L aom blk_size blk_data w = .ret (r, aom') w') :
    blk_size ≠ 0 ∧ blk_data ≠ 0 := by
  by_cases hc : blk_data ≠ 0 ∧ blk_size ≠ 0
  · exact ⟨hc.2, hc.1⟩
  · unfold aomm_add at h
    rw [if_pos hc] at h
    cases h

/-- A call of `realloc` adds one event to the trace. -/
theorem call_realloc_trace (L : Libc σ) (bytes : Nat) (w w1 : World σ)
    (x : Option (Nat → AoM_Block)) (h : call_realloc L bytes w = (x, w1)) :
    w1.trace = w.trace ++ [Call.realloc bytes x.isSome] := by
  have h1 := congrArg (fun p => p.2.trace) h
  have h2 := congrArg (fun p => p.1) h
  simp only [call_realloc] at h1 h2
  rw [← h1, h2]

/-- What a returning `aomm_add` has done to a well-formed array. -/
theorem aomm_add_ret (L : Libc σ) (aom aom' : AoM_Managed σ) (arr : List AoM_Block)
    (blk_size blk_data : Nat) (w w' : World σ) (r : Bool) (hv : Valid aom arr)
    (h : aomm_add L aom blk_size blk_data w = .ret (r, aom') w') :
    (r = false ∧ aom' = aom ∧ aom.num_blk + 1 = aom.max_blk ∧
      ∃ bytes, w'.trace = w.trace ++ [Call.realloc bytes false]) ∨
    (∃ b arr' t, Valid aom' arr' ∧ aom'.blk_cpy = aom.blk_cpy ∧ aom'.blk_rel = aom.blk_rel ∧
      (aom'.max_blk = aom.max_blk ∨
        (aom.num_blk + 1 = aom.max_blk ∧ aom'.max_blk = (aom.max_blk + 2) * 2)) ∧
      w'.trace = w.trace ++ t ++ [Call.blk_cpy blk_size blk_data b] ∧
      (t = [] ∨ ∃ bytes, t = [Call.realloc bytes true]) ∧
      (∀ i, i < aom.num_blk → arr'[i]? = arr[i]?) ∧
      arr'[aom.num_blk]? = some b ∧
      (∀ i, aom.num_blk < i → i < arr'.length →
        arr'[i]? = arr[i]? ∨ arr'[i]? = some AoM_Block.empty) ∧
      r = decide (b.blk_data ≠ 0) ∧
      aom'.num_blk = if b.blk_data = 0 then aom.num_blk else aom.num_blk + 1) := by
  obtain ⟨hsize, hdata⟩ := aomm_add_ret_args L aom aom' blk_size blk_data w w' r h
  rw [aomm_add_eq L aom arr blk_size blk_data w hv hsize hdata] at h
  obtain ⟨hs, hl, hr, hm⟩ := hv
  have hone : ∀ k, k + 1 < 18446744073709551616 → size_add k 1 = k + 1 := by
    intro k hk
    unfold size_add SIZE_MOD
    omega
  have hm' : aom.max_blk < 18446744073709551616 := hm
  by_cases hg : aom.num_blk + 1 < aom.max_blk
  · -- no growth
    rw [if_pos hg] at h
    rw [aomm_add_store_eq aom arr blk_size blk_data w hs (by omega)] at h
    simp only [Outcome.ret.injEq, Prod.mk.injEq] at h
    obtain ⟨⟨hr', ha⟩, hw⟩ := h
    subst ha hw
    refine Or.inr ⟨(aom.blk_cpy blk_size blk_data w.st).1,
      arr.set aom.num_blk (aom.blk_cpy blk_size blk_data w.st).1, [], ⟨rfl, ?_, ?_, hm⟩, rfl, rfl,
      Or.inl rfl, ?_, Or.inl rfl, ?_, ?_, ?_, hr'.symm, ?_⟩
    · simpa using hl
    · dsimp only
      split_ifs
      · omega
      · rw [hone _ (by omega)]; omega
    · simp [call_cpy]
    · intro i hi
      rw [List.getElem?_set_ne (by omega)]
    · rw [List.getElem?_set_self (by omega)]
    · intro i hi _
      left
      rw [List.getElem?_set_ne (by omega)]
    · dsimp only
      split_ifs
      · rfl
      · exact hone _ (by omega)
  · -- growth
    rw [if_neg hg] at h
    split at h
    · rename_i w1 heq
      simp only [Outcome.ret.injEq, Prod.mk.injEq] at h
      obtain ⟨⟨hr', ha⟩, hw⟩ := h
      subst ha hw
      exact Or.inl ⟨hr'.symm, rfl, by omega, _, call_realloc_trace L _ w _ _ heq⟩
    · rename_i fresh w1 heq
      by_cases hf : (aom.max_blk + 2) * 2 * sizeof_AoM_Block < SIZE_MOD
      swap
      · rw [if_neg hf] at h
        cases h
      rw [if_pos hf] at h
      rw [aomm_add_store_eq _ _ blk_size blk_data w1 rfl
        (by simp; unfold sizeof_AoM_Block SIZE_MOD at hf; omega)] at h
      simp only [Outcome.ret.injEq, Prod.mk.injEq] at h
      obtain ⟨⟨hr', ha⟩, hw⟩ := h
      subst ha hw
      have hw1 := call_realloc_trace L _ w _ _ heq
      have hfit : (aom.max_blk + 2) * 2 * 16 < 18446744073709551616 := by
        unfold sizeof_AoM_Block SIZE_MOD at hf; exact hf
      refine Or.inr ⟨(aom.blk_cpy blk_size blk_data w1.st).1, _,
        [Call.realloc (size_mul (size_mul (size_add aom.max_blk 2) 2) sizeof_AoM_Block) true],
        ⟨rfl, ?_, ?_, ?_⟩, rfl, rfl,
        Or.inr ⟨by omega, rfl⟩, ?_, Or.inr ⟨_, rfl⟩, ?_, ?_, ?_, hr'.symm, ?_⟩
      · simp; omega
      · dsimp only
        split_ifs
        · omega
        · rw [hone _ (by omega)]; omega
      · unfold SIZE_MOD; dsimp only; omega
      · simp [call_cpy, hw1]
      · intro i hi
        rw [List.getElem?_set_ne (by omega), List.getElem?_append_left (by simp; omega),
          List.getElem?_take_of_lt hi]
      · rw [List.getElem?_set_self (by simp; omega)]
      · intro i hi hlen
        right
        simp only [List.length_set, List.length_append, List.length_take, List.length_replicate]
          at hlen
        rw [List.getElem?_set_ne (by omega), List.getElem?_append_right (by simp; omega)]
        simp only [List.length_take, List.getElem?_replicate]
        rw [if_pos (by omega)]
      · dsimp only
        split_ifs
        · rfl
        · exact hone _ (by omega)

/-- On a well-formed array whose growth, if one is due, fits `size_t`, `aomm_add` returns. -/
theorem aomm_add_total (L : Libc σ) (aom : AoM_Managed σ) (arr : List AoM_Block)
    (blk_size blk_data : Nat) (w : World σ) (hv : Valid aom arr)
    (hsize : blk_size ≠ 0) (hdata : blk_data ≠ 0)
    (hfit : aom.num_blk + 1 = aom.max_blk →
      (aom.max_blk + 2) * 2 * sizeof_AoM_Block < SIZE_MOD) :
    ∃ r aom' w', aomm_add L aom blk_size blk_data w = .ret (r, aom') w' := by
  rw [aomm_add_eq L aom arr blk_size blk_data w hv hsize hdata]
  obtain ⟨hs, hl, hr, hm⟩ := hv
  by_cases hg : aom.num_blk + 1 < aom.max_blk
  · rw [if_pos hg, aomm_add_store_eq aom arr blk_size blk_data w hs (by omega)]
    exact ⟨_, _, _, rfl⟩
  · rw [if_neg hg]
    have hf := hfit (by omega)
    split
    · exact ⟨_, _, _, rfl⟩
    · rename_i fresh w1 heq
      rw [if_pos hf, aomm_add_store_eq _ _ blk_size blk_data w1 rfl (by simp; omega)]
      exact ⟨_, _, _, rfl⟩

/-- What `aomm_set` does on a well-formed array, as one equation. -/
theorem aomm_set_eq (aom : AoM_Managed σ) (arr : List AoM_Block) (index blk_size blk_data : Nat)
    (w : World σ) (hv : Valid aom arr) (hsize : blk_size ≠ 0) (hdata : blk_data ≠ 0) :
    aomm_set aom index blk_size blk_data w =
      if aom.num_blk ≤ index then .ret (false, aom) w
      else if (aom.blk_cpy blk_size blk_data w.st).1.blk_data = 0 then
        .ret (false, aom) (call_cpy aom.blk_cpy blk_size blk_data w).2
      else
        .ret (true, { aom with
            blk_arr := some (arr.set index (aom.blk_cpy blk_size blk_data w.st).1) })
          (call_rel aom.blk_rel (arr[index]?.getD AoM_Block.empty).blk_size
            (arr[index]?.getD AoM_Block.empty).blk_data
            (call_cpy aom.blk_cpy blk_size blk_data w).2) := by
  obtain ⟨hs, hl, hr, hm⟩ := hv
  have hsub : size_sub aom.max_blk 1 = aom.max_blk - 1 := size_sub_one (by omega) hm
  unfold aomm_set
  rw [if_neg (by simp [hsize, hdata]), if_neg (by rw [hsub]; omega)]
  by_cases hi : aom.num_blk ≤ index
  · rw [if_pos hi, if_pos hi]
  · rw [if_neg hi, if_neg hi]
    dsimp only
    by_cases hb : (aom.blk_cpy blk_size blk_data w.st).1.blk_data = 0
    · have hb' : (call_cpy aom.blk_cpy blk_size blk_data w).1.blk_data = 0 := hb
      rw [if_pos hb', if_pos hb]
    · have hb' : ¬ (call_cpy aom.blk_cpy blk_size blk_data w).1.blk_data = 0 := hb
      have hlt : index < arr.length := by omega
      rw [if_neg hb', if_neg hb]
      simp only [hs, List.getElem?_eq_getElem hlt, Option.getD_some]
      rfl

/-- Replacing an element and keeping the old one aside is a rearrangement of adding the new
one. -/
theorem set_cons_perm (b old : AoM_Block) : ∀ (l : List AoM_Block) (i : Nat),
    l[i]? = some old → (old :: l.set i b).Perm (b :: l) := by
  intro l
  induction l with
  | nil => intro i h; simp at h
  | cons x xs ih =>
    intro i h
    cases i with
    | zero =>
      simp only [List.getElem?_cons_zero, Option.some.injEq] at h
      subst h
      simp only [List.set_cons_zero]
      exact List.Perm.swap _ _ _
    | succ k =>
      simp only [List.getElem?_cons_succ] at h
      simp only [List.set_cons_succ]
      exact (List.Perm.swap _ _ _).trans (((ih k h).cons x).trans (List.Perm.swap _ _ _))

/-- Storages that agree below `n` have the same first `n` slots. -/
theorem take_eq_of_getElem? (arr arr1 : List AoM_Block) (n : Nat)
    (h : ∀ i, i < n → arr1[i]? = arr[i]?) :
    arr1.take n = arr.take n := by
  apply List.ext_getElem?
  intro j
  by_cases hj : j < n
  · rw [List.getElem?_take_of_lt hj, List.getElem?_take_of_lt hj, h j hj]
  · rw [List.getElem?_eq_none (by simp; omega), List.getElem?_eq_none (by simp; omega)]

/-- Storages that agree below `n`, the second holding `b` in slot `n`. -/
theorem take_succ_of_getElem? (arr arr1 : List AoM_Block) (n : Nat) (b : AoM_Block)
    (h : ∀ i, i < n → arr1[i]? = arr[i]?)
    (hb : arr1[n]? = some b) : arr1.take (n + 1) = arr.take n ++ [b] := by
  rw [List.take_succ, hb, take_eq_of_getElem? arr arr1 n h]
  rfl

/-- The array `aomm_create` returns is empty and well-formed. -/
theorem aomm_create_ret (L : Libc σ) (num_ptrs : Nat) (cpy : AoM_BlkCopy σ)
    (rel : AoM_BlkFree σ) (w w1 : World σ) (aom : AoM_Managed σ) (hn : num_ptrs < SIZE_MOD)
    (h : aomm_create L num_ptrs (some cpy) (some rel) w = .ret (some aom) w1) :
    Valid aom (List.replicate aom.max_blk AoM_Block.empty) ∧ aom.num_blk = 0 ∧
      aom.max_blk = (if num_ptrs < MIN_ALLOCATION then MIN_ALLOCATION else num_ptrs) ∧
      aom.blk_cpy = cpy ∧ aom.blk_rel = rel := by
  unfold aomm_create at h
  dsimp only at h
  split at h
  · cases h
  · split at h
    · cases h
    · simp only [Outcome.ret.injEq, Option.some.injEq] at h
      obtain ⟨ha, _⟩ := h
      subst ha
      refine ⟨⟨rfl, by simp, ?_, ?_⟩, rfl, rfl, rfl, rfl⟩
      · dsimp only
        unfold MIN_ALLOCATION
        split_ifs <;> omega
      · dsimp only
        unfold MIN_ALLOCATION SIZE_MOD at *
        split_ifs <;> omega

/-- What `aomm_destroy` does on an array whose live blocks lie in its storage. -/
theorem aomm_destroy_ret (L : Libc σ) (aom : AoM_Managed σ) (arr : List AoM_Block)
    (w : World σ) (hs : aom.blk_arr = some arr) (hn : aom.num_blk ≤ arr.length) :
    ∃ w', aomm_destroy L aom w = .ret () w' ∧
      w'.trace = w.trace ++ (arr.take aom.num_blk).map rel_event ++ [Call.free, Call.free] := by
  obtain ⟨w1, h1, h2⟩ := release_loop_spec aom.blk_rel arr aom.num_blk 0 w (by omega)
  refine ⟨call_free L (call_free L w1), ?_, ?_⟩
  · unfold aomm_destroy
    simp only [hs, Nat.sub_zero, h1]
  · simp [call_free, h2]

/-- The released blocks of two traces in a row. -/
theorem released_append (s t : List Call) : released (s ++ t) = released s ++ released t := by
  simp [released, List.filterMap_append]

/-- The duplicated blocks of two traces in a row. -/
theorem duplicated_append (s t : List Call) :
    duplicated (s ++ t) = duplicated s ++ duplicated t := by
  simp [duplicated, List.filterMap_append]

/-- The released blocks of a run of `release` calls are the blocks released. -/
theorem released_rel_events (l : List AoM_Block) : released (l.map rel_event) = l := by
  induction l with
  | nil => rfl
  | cons x xs ih =>
    simp only [List.map_cons, released, rel_event, List.filterMap_cons] at ih ⊢
    rw [ih]

/-- A run of `release` calls duplicates nothing. -/
theorem duplicated_rel_events (l : List AoM_Block) : duplicated (l.map rel_event) = [] := by
  induction l with
  | nil => rfl
  | cons x xs ih =>
    simp only [List.map_cons, duplicated, rel_event, List.filterMap_cons] at ih ⊢
    rw [ih]

/-- What one call of a sequence does to a well-formed array. -/
theorem run_op_spec (L : Libc σ) (aom : AoM_Managed σ) (arr : List AoM_Block) (op : Op)
    (w : World σ) (hv : Valid aom arr) (hargs : op.args_ok)
    (hfit : aom.num_blk + 1 = aom.max_blk →
      (aom.max_blk + 2) * 2 * sizeof_AoM_Block < SIZE_MOD) :
    ∃ r aom1 arr1 w1 t1, run_op L aom op w = .ret (r, aom1) w1 ∧ Valid aom1 arr1 ∧
      aom1.blk_cpy = aom.blk_cpy ∧ aom1.blk_rel = aom.blk_rel ∧
      w1.trace = w.trace ++ t1 ∧
      aom1.num_blk = aom.num_blk + (if (r && op.is_add) = true then 1 else 0) ∧
      (arr1.take aom1.num_blk ++ released t1).Perm (arr.take aom.num_blk ++ duplicated t1) ∧
      (op.is_add = true →
        (r = false ∧ arr1.take aom1.num_blk = arr.take aom.num_blk) ∨
        (r = true ∧ ∃ b, arr1.take aom1.num_blk = arr.take aom.num_blk ++ [b] ∧
          Step.dup_result { op := op, ok := r, calls := t1 } = some b)) := by
  cases op with
  | add blk_size blk_data =>
    obtain ⟨hsize, hdata⟩ := hargs
    obtain ⟨r, aom1, w1, h1⟩ := aomm_add_total L aom arr blk_size blk_data w hv hsize hdata hfit
    rcases aomm_add_ret L aom aom1 arr blk_size blk_data w w1 r hv h1 with
      ⟨hr, ha, _, bytes, htr⟩ | ⟨b, arr1, t, hv1, hc, hrl, _, htr, ht, hlow, hnew, _, hr, hnum⟩
    · subst ha hr
      refine ⟨false, aom1, arr, w1, _, h1, hv, rfl, rfl, htr, by simp, ?_, fun _ => Or.inl ⟨rfl, rfl⟩⟩
      simp [released, duplicated]
    · have hrel : released (t ++ [Call.blk_cpy blk_size blk_data b]) = [] := by
        rcases ht with rfl | ⟨bytes, rfl⟩ <;> simp [released]
      refine ⟨r, aom1, arr1, w1, t ++ [Call.blk_cpy blk_size blk_data b], h1, hv1, hc, hrl,
        by rw [htr, List.append_assoc], ?_, ?_, ?_⟩
      · rw [hnum, hr]
        by_cases hb : b.blk_data = 0 <;> simp [hb, Op.is_add]
      · rw [hrel, hnum]
        by_cases hb : b.blk_data = 0
        · have hdup : duplicated (t ++ [Call.blk_cpy blk_size blk_data b]) = [] := by
            rcases ht with rfl | ⟨bytes, rfl⟩ <;> simp [duplicated, hb]
          rw [hdup, if_pos hb, take_eq_of_getElem? arr arr1 _ hlow]
        · have hdup : duplicated (t ++ [Call.blk_cpy blk_size blk_data b]) = [b] := by
            rcases ht with rfl | ⟨bytes, rfl⟩ <;> simp [duplicated, hb]
          rw [hdup, if_neg hb, take_succ_of_getElem? arr arr1 _ b hlow hnew]
          simp
      · intro _
        rw [hnum, hr]
        by_cases hb : b.blk_data = 0
        · left
          rw [if_pos hb, take_eq_of_getElem? arr arr1 _ hlow]
          simp [hb]
        · right
          rw [if_neg hb, take_succ_of_getElem? arr arr1 _ b hlow hnew]
          refine ⟨by simp [hb], b, rfl, ?_⟩
          rcases ht with rfl | ⟨bytes, rfl⟩ <;> simp [Step.dup_result]
  | set index blk_size blk_data =>
    obtain ⟨hsize, hdata⟩ := hargs
    have he := aomm_set_eq aom arr index blk_size blk_data w hv hsize hdata
    by_cases hi : aom.num_blk ≤ index
    · rw [if_pos hi] at he
      refine ⟨false, aom, arr, w, [], he, hv, rfl, rfl, by simp, by simp, ?_, ?_⟩
      · simp [released, duplicated]
      · intro h; simp [Op.is_add] at h
    · rw [if_neg hi] at he
      by_cases hb : (aom.blk_cpy blk_size blk_data w.st).1.blk_data = 0
      · rw [if_pos hb] at he
        refine ⟨false, aom, arr, _, [Call.blk_cpy blk_size blk_data
          (aom.blk_cpy blk_size blk_data w.st).1], he, hv, rfl, rfl, by simp [call_cpy],
          by simp, ?_, ?_⟩
        · simp [released, duplicated, hb]
        · intro h; simp [Op.is_add] at h
      · rw [if_neg hb] at he
        obtain ⟨hs, hl, hroom, hm⟩ := hv
        have hlt : index < arr.length := by omega
        refine ⟨true, _, arr.set index (aom.blk_cpy blk_size blk_data w.st).1, _,
          [Call.blk_cpy blk_size blk_data (aom.blk_cpy blk_size blk_data w.st).1,
            Call.blk_rel arr[index].blk_size arr[index].blk_data], he,
          ⟨rfl, by simpa using hl, hroom, hm⟩, rfl, rfl, ?_, by simp [Op.is_add], ?_, ?_⟩
        · simp [call_rel, call_cpy, List.getElem?_eq_getElem hlt]
        · have h1 : released [Call.blk_cpy blk_size blk_data
              (aom.blk_cpy blk_size blk_data w.st).1,
              Call.blk_rel arr[index].blk_size arr[index].blk_data] = [arr[index]] := by
            simp [released]
          have h2 : duplicated [Call.blk_cpy blk_size blk_data
              (aom.blk_cpy blk_size blk_data w.st).1,
              Call.blk_rel arr[index].blk_size arr[index].blk_data] =
              [(aom.blk_cpy blk_size blk_data w.st).1] := by
            simp [duplicated, hb]
          rw [h1, h2]
          dsimp only
          rw [List.set_take]
          have hp := set_cons_perm (aom.blk_cpy blk_size blk_data w.st).1 arr[index]
            (arr.take aom.num_blk) index
            (by rw [List.getElem?_take_of_lt (by omega), List.getElem?_eq_getElem hlt])
          exact (List.perm_append_comm.trans hp).trans List.perm_append_comm.symm
        · intro h; simp [Op.is_add] at h

/-- What a sequence of calls does to a well-formed array. -/
theorem run_ops_spec (L : Libc σ) : ∀ (ops : List Op) (aom : AoM_Managed σ)
    (arr : List AoM_Block) (w : World σ), Valid aom arr → (∀ op ∈ ops, op.args_ok) →
    (aom.num_blk + ops.length + 2) * 2 * sizeof_AoM_Block < SIZE_MOD →
    ∃ steps aomN arrN wN t, run_ops L ops aom w = .ret (steps, aomN) wN ∧ Valid aomN arrN ∧
      aomN.blk_cpy = aom.blk_cpy ∧ aomN.blk_rel = aom.blk_rel ∧
      wN.trace = w.trace ++ t ∧ steps.map Step.op = ops ∧
      aomN.num_blk = aom.num_blk + (steps.filter Step.added).length ∧
      (arrN.take aomN.num_blk ++ released t).Perm (arr.take aom.num_blk ++ duplicated t) ∧
      ((∀ op ∈ ops, op.is_add = true) →
        ∃ new, arrN.take aomN.num_blk = arr.take aom.num_blk ++ new ∧
          (steps.filter Step.ok).map Step.dup_result = new.map some) := by
  intro ops
  induction ops with
  | nil =>
    intro aom arr w hv _ _
    exact ⟨[], aom, arr, w, [], rfl, hv, rfl, rfl, by simp, rfl, by simp,
      by simp [released, duplicated], fun _ => ⟨[], by simp, rfl⟩⟩
  | cons op ops ih =>
    intro aom arr w hv hargs hfit
    have hlen : (op :: ops).length = ops.length + 1 := rfl
    rw [hlen] at hfit
    unfold sizeof_AoM_Block SIZE_MOD at hfit
    obtain ⟨r, aom1, arr1, w1, t1, h1, hv1, hc1, hr1, htr1, hnum1, hp1, hadd1⟩ :=
      run_op_spec L aom arr op w hv (hargs op (List.mem_cons_self _ _))
        (by intro hfull; unfold sizeof_AoM_Block SIZE_MOD; omega)
    have hle : aom1.num_blk ≤ aom.num_blk + 1 := by
      rw [hnum1]; split_ifs <;> omega
    obtain ⟨steps, aomN, arrN, wN, t, h2, hvN, hcN, hrN, htrN, hops, hnumN, hpN, haddN⟩ :=
      ih aom1 arr1 w1 hv1 (fun o ho => hargs o (List.mem_cons_of_mem _ ho))
        (by unfold sizeof_AoM_Block SIZE_MOD; omega)
    have hcalls : w1.trace.drop w.trace.length = t1 := by
      rw [htr1, List.drop_left]
    refine ⟨{ op := op, ok := r, calls := t1 } :: steps, aomN, arrN, wN, t1 ++ t, ?_, hvN,
      hcN.trans hc1, hrN.trans hr1, by rw [htrN, htr1, List.append_assoc], ?_, ?_, ?_, ?_⟩
    · simp only [run_ops, h1, h2, hcalls]
    · simp [hops]
    · rw [hnumN, hnum1, List.filter_cons]
      by_cases hra : (r && op.is_add) = true
      · have : Step.added { op := op, ok := r, calls := t1 } = true := hra
        rw [if_pos hra, if_pos this, List.length_cons]
        omega
      · have : ¬ Step.added { op := op, ok := r, calls := t1 } = true := hra
        rw [if_neg hra, if_neg this]
        omega
    · rw [released_append, duplicated_append]
      rw [List.perm_iff_count] at hp1 hpN ⊢
      intro a
      have e1 := hp1 a
      have e2 := hpN a
      simp only [List.count_append] at e1 e2 ⊢
      omega
    · intro hall
      obtain ⟨new, hn1, hn2⟩ := haddN (fun o ho => hall o (List.mem_cons_of_mem _ ho))
      rcases hadd1 (hall op (List.mem_cons_self _ _)) with ⟨hrf, htk⟩ | ⟨hrt, b, htk, hdup⟩
      · subst hrf
        refine ⟨new, by rw [hn1, htk], ?_⟩
        rw [List.filter_cons]
        simpa using hn2
      · subst hrt
        refine ⟨b :: new, by rw [hn1, htk]; simp, ?_⟩
        rw [List.filter_cons]
        simp only [if_true, List.map_cons, hdup, hn2]

/-! ## The claims -/

/-- C1: a failed `aomm_set` is atomic.  Whenever `aomm_set` returns `false`, the array is
exactly as before the call (length, capacity, every slot and both callbacks); either the index
was out of range and nothing outside the array was called at all, or the index was in range,
the copier returned a block with null data and that call of the copier is the only call made;
in both cases `release` has not been called. -/
theorem aomm_set_failure_atomic (aom aom' : AoM_Managed σ) (index blk_size blk_data : Nat)
    (w w' : World σ)
    (h : aomm_set aom index blk_size blk_data w = .ret (false, aom') w') :
    aom' = aom ∧
    ((aom.num_blk ≤ index ∧ w' = w) ∨
      (index < aom.num_blk ∧ (aom.blk_cpy blk_size blk_data w.st).1.blk_data = 0 ∧
        w' = (call_cpy aom.blk_cpy blk_size blk_data w).2)) ∧
    ∃ t, w'.trace = w.trace ++ t ∧ ∀ c ∈ t, c.is_rel = false := by
  unfold aomm_set at h
  dsimp only at h
  split_ifs at h with h1 h2 h3 h4
  · simp only [Outcome.ret.injEq, Prod.mk.injEq, true_and] at h
    obtain ⟨rfl, rfl⟩ := h
    exact ⟨rfl, Or.inl ⟨h3, rfl⟩, [], by simp, by simp⟩
  · simp only [Outcome.ret.injEq, Prod.mk.injEq, true_and] at h
    obtain ⟨rfl, rfl⟩ := h
    refine ⟨rfl, Or.inr ⟨by omega, h4, rfl⟩, _, rfl, ?_⟩
    simp [Call.is_rel]
  · split at h
    · simp at h
    · split at h <;> simp at h

/-- A concrete instance of the theorem for C1. -/
theorem aomm_set_failure_atomic_witness :
    aomm_set (two_blocks bad_cpy) 1 8 80 w0 =
      .ret (false, two_blocks bad_cpy) (call_cpy bad_cpy 8 80 w0).2 ∧
    ∃ t, (call_cpy bad_cpy 8 80 w0).2.trace = w0.trace ++ t ∧ ∀ c ∈ t, c.is_rel = false :=
  ⟨rfl, (aomm_set_failure_atomic (two_blocks bad_cpy) (two_blocks bad_cpy) 1 8 80 w0
    (call_cpy bad_cpy 8 80 w0).2 rfl).2.2⟩

/-- C2: a successful `aomm_set` replaces exactly one slot, cloning before dropping.  On a
well-formed array, for an index below the length and arguments passing the assertion, when the
copier returns a block `b` with non-null data, `aomm_set` returns `true`, slot `index` becomes
`b`, every other slot, the length, the capacity and the callbacks are unchanged, and the calls
made are exactly `duplicate(blk_size, blk_data)` and then `release(old.blk_size, old.blk_data)`,
where `old` is the block previously in slot `index`. -/
theorem aomm_set_success (aom : AoM_Managed σ) (arr : List AoM_Block)
    (index blk_size blk_data : Nat) (w : World σ)
    (hv : Valid aom arr) (hsize : blk_size ≠ 0) (hdata : blk_data ≠ 0)
    (hidx : index < aom.num_blk)
    (hb : (aom.blk_cpy blk_size blk_data w.st).1.blk_data ≠ 0) :
    ∃ old aom' w' arr',
      arr[index]? = some old ∧
      aomm_set aom index blk_size blk_data w = .ret (true, aom') w' ∧
      aom'.blk_arr = some arr' ∧ arr'.length = arr.length ∧
      arr'[index]? = some (aom.blk_cpy blk_size blk_data w.st).1 ∧
      (∀ j, j ≠ index → arr'[j]? = arr[j]?) ∧
      aom'.num_blk = aom.num_blk ∧ aom'.max_blk = aom.max_blk ∧
      aom'.blk_cpy = aom.blk_cpy ∧ aom'.blk_rel = aom.blk_rel ∧
      w'.trace = w.trace ++ [Call.blk_cpy blk_size blk_data (aom.blk_cpy blk_size blk_data w.st).1,
        Call.blk_rel old.blk_size old.blk_data] := by
  obtain ⟨hs, hl, hr, hm⟩ := hv
  have hlt : index < arr.length := by omega
  have hsub : size_sub aom.max_blk 1 = aom.max_blk - 1 := size_sub_one (by omega) hm
  refine ⟨arr[index],
    { aom with blk_arr := some (arr.set index (call_cpy aom.blk_cpy blk_size blk_data w).1) },
    call_rel aom.blk_rel arr[index].blk_size arr[index].blk_data
      (call_cpy aom.blk_cpy blk_size blk_data w).2,
    arr.set index (aom.blk_cpy blk_size blk_data w.st).1,
    List.getElem?_eq_getElem hlt, ?_, rfl, by simp, ?_, ?_, rfl, rfl, rfl, rfl, ?_⟩
  · unfold aomm_set
    have hb' : ¬ (call_cpy aom.blk_cpy blk_size blk_data w).1.blk_data = 0 := hb
    rw [if_neg (by simp [hsize, hdata]), if_neg (by rw [hsub]; omega), if_neg (by omega)]
    dsimp only
    rw [if_neg hb']
    simp only [hs, List.getElem?_eq_getElem hlt]
  · simp [hlt]
  · intro j hj
    simp [List.getElem?_set, Ne.symm hj]
  · simp [call_rel, call_cpy]

/-- A concrete instance of the theorem for C2. -/
theorem aomm_set_success_witness :
    Valid (two_blocks ok_cpy) two_slots ∧
    ∃ old aom' w' arr',
      two_slots[1]? = some old ∧
      aomm_set (two_blocks ok_cpy) 1 8 80 w0 = .ret (true, aom') w' ∧
      aom'.blk_arr = some arr' ∧ arr'.length = two_slots.length ∧
      arr'[1]? = some (ok_cpy 8 80 w0.st).1 ∧
      (∀ j, j ≠ 1 → arr'[j]? = two_slots[j]?) ∧
      aom'.num_blk = (two_blocks ok_cpy).num_blk ∧ aom'.max_blk = (two_blocks ok_cpy).max_blk ∧
      aom'.blk_cpy = (two_blocks ok_cpy).blk_cpy ∧ aom'.blk_rel = (two_blocks ok_cpy).blk_rel ∧
      w'.trace = w0.trace ++ [Call.blk_cpy 8 80 (ok_cpy 8 80 w0.st).1,
        Call.blk_rel old.blk_size old.blk_data] :=
  ⟨⟨rfl, rfl, by decide, by decide⟩,
    aomm_set_success (two_blocks ok_cpy) two_slots 1 8 80 w0 ⟨rfl, rfl, by decide, by decide⟩
      (by decide) (by decide) (by decide) (by decide)⟩

/-- C3: on an array returned by `aomm_create`, a finite sequence of `aomm_add` calls (each with
a non-zero size and non-null data, the allocator and the copier free to succeed or fail in each
call) returns in every call; afterwards `aomm_length` is the number of calls that returned
`true`, and `aomm_item(i)` is the block the copier returned in the `i`-th successful call. -/
theorem aomm_add_sequence (L : Libc σ) (num_ptrs : Nat) (cpy : AoM_BlkCopy σ)
    (rel : AoM_BlkFree σ) (adds : List (Nat × Nat)) (w w1 : World σ) (aom : AoM_Managed σ)
    (hn : num_ptrs < SIZE_MOD) (hargs : ∀ p ∈ adds, p.1 ≠ 0 ∧ p.2 ≠ 0)
    (hfit : (adds.length + 2) * 2 * sizeof_AoM_Block < SIZE_MOD)
    (hc : aomm_create L num_ptrs (some cpy) (some rel) w = .ret (some aom) w1) :
    ∃ steps aomN wN,
      run_ops L (adds.map fun p => Op.add p.1 p.2) aom w1 = .ret (steps, aomN) wN ∧
      steps.length = adds.length ∧
      aomm_length aomN = (steps.filter Step.ok).length ∧
      ∀ i st, (steps.filter Step.ok)[i]? = some st →
        ∃ b, st.dup_result = some b ∧
          ∀ v : World σ, aomm_item aomN i v = .ret (b, aomN) v := by
  obtain ⟨hv, hnum, _, _, _⟩ := aomm_create_ret L num_ptrs cpy rel w w1 aom hn hc
  obtain ⟨steps, aomN, arrN, wN, t, hrun, hvN, _, _, _, hops, _, _, hadd⟩ :=
    run_ops_spec L (adds.map fun p => Op.add p.1 p.2) aom _ w1 hv
      (by
        intro op hop
        obtain ⟨p, hp, rfl⟩ := List.mem_map.mp hop
        exact hargs p hp)
      (by rw [hnum, List.length_map, Nat.zero_add]; exact hfit)
  obtain ⟨new, hnew, hmap⟩ := hadd (by
    intro op hop
    obtain ⟨p, _, rfl⟩ := List.mem_map.mp hop
    rfl)
  rw [hnum, List.take_zero, List.nil_append] at hnew
  have hlen : (steps.filter Step.ok).length = new.length := by
    have := congrArg List.length hmap
    simpa using this
  have hN : aomN.num_blk ≤ arrN.length := by
    have := hvN.room
    have := hvN.slots
    omega
  have hnl : new.length = aomN.num_blk := by
    rw [← hnew, List.length_take]
    omega
  refine ⟨steps, aomN, wN, hrun, ?_, ?_, ?_⟩
  · have := congrArg List.length hops
    simpa using this
  · unfold aomm_length
    omega
  · intro i st hst
    have hi : i < (steps.filter Step.ok).length := by
      by_contra hcon
      rw [List.getElem?_eq_none (by omega)] at hst
      cases hst
    have h1 : ((steps.filter Step.ok).map Step.dup_result)[i]? = some st.dup_result := by
      rw [List.getElem?_map, hst]
      rfl
    rw [hmap, List.getElem?_map, List.getElem?_eq_getElem (by omega)] at h1
    simp only [Option.map_some', Option.some.injEq] at h1
    have hi' : i < new.length := by omega
    refine ⟨new[i], h1.symm, fun v => ?_⟩
    apply aomm_item_lt aomN arrN i _ v hvN.storage (by omega)
    rw [← List.getElem?_take_of_lt (show i < aomN.num_blk by omega), hnew,
      List.getElem?_eq_getElem (by omega)]

/-- A concrete instance of the theorem for C3. -/
theorem aomm_add_sequence_witness :
    aomm_create ok_libc 0 (some flaky_cpy) (some ok_rel) w0 = .ret (some created) w_created ∧
    ∃ steps aomN wN,
      run_ops ok_libc ([(1, 10), (2, 20), (3, 30), (4, 40), (5, 50)].map fun p => Op.add p.1 p.2)
        created w_created = .ret (steps, aomN) wN ∧
      steps.length = [(1, 10), (2, 20), (3, 30), (4, 40), (5, 50)].length ∧
      aomm_length aomN = (steps.filter Step.ok).length ∧
      ∀ i st, (steps.filter Step.ok)[i]? = some st →
        ∃ b, st.dup_result = some b ∧
          ∀ v : World Nat, aomm_item aomN i v = .ret (b, aomN) v :=
  ⟨rfl, aomm_add_sequence ok_libc 0 flaky_cpy ok_rel [(1, 10), (2, 20), (3, 30), (4, 40), (5, 50)]
    w0 w_created created (by decide) (by decide) (by decide) rfl⟩

/-- C4: a successful `aomm_add` does not disturb what is stored, also when it grows the
storage.  Whenever `aomm_add` returns `true` on a well-formed array of length `n`, the length
becomes `n + 1`, `aomm_item(i)` returns the same block as before for every `i < n`, and
`aomm_item(n)` returns the block `b` that the one call of the copier, the last call made,
returned; the calls before it (at most a `realloc`) are not callbacks. -/
theorem aomm_add_success_frame (L : Libc σ) (aom aom' : AoM_Managed σ) (arr : List AoM_Block)
    (blk_size blk_data : Nat) (w w' : World σ) (hv : Valid aom arr)
    (h : aomm_add L aom blk_size blk_data w = .ret (true, aom') w') :
    aomm_length aom' = aomm_length aom + 1 ∧
    (∀ i, i < aomm_length aom → ∀ v : World σ,
      ∃ s, aomm_item aom i v = .ret (s, aom) v ∧ aomm_item aom' i v = .ret (s, aom') v) ∧
    ∃ b t, w'.trace = w.trace ++ t ++ [Call.blk_cpy blk_size blk_data b] ∧
      (∀ c ∈ t, c.is_callback = false) ∧
      ∀ v : World σ, aomm_item aom' (aomm_length aom) v = .ret (b, aom') v := by
  rcases aomm_add_ret L aom aom' arr blk_size blk_data w w' true hv h with
    ⟨hr, _⟩ | ⟨b, arr', t, hv', _, _, _, htr, ht, hlow, hnew, _, hr, hnum⟩
  · cases hr
  · have hb : b.blk_data ≠ 0 := by simpa using hr.symm
    rw [if_neg hb] at hnum
    obtain ⟨hs, hl, hroom, _⟩ := hv
    refine ⟨hnum, ?_, b, t, htr, ?_, ?_⟩
    · intro i hi v
      have hlt : i < arr.length := by unfold aomm_length at hi; omega
      refine ⟨arr[i], aomm_item_lt aom arr i _ v hs hi (List.getElem?_eq_getElem hlt), ?_⟩
      refine aomm_item_lt aom' arr' i _ v hv'.storage ?_ ?_
      · unfold aomm_length at hi; omega
      · rw [hlow i hi, List.getElem?_eq_getElem hlt]
    · rcases ht with rfl | ⟨bytes, rfl⟩
      · simp
      · simp [Call.is_callback]
    · intro v
      exact aomm_item_lt aom' arr' _ b v hv'.storage (by unfold aomm_length; omega) hnew

/-- A concrete instance of the theorem for C4. -/
theorem aomm_add_success_frame_witness :
    Valid (three_blocks ok_cpy) three_slots ∧
    aomm_add ok_libc (three_blocks ok_cpy) 8 80 w0 =
      .ret (true, ⟨4, 12, some ([⟨5, 50⟩, ⟨6, 60⟩, ⟨7, 70⟩, ⟨8, 100⟩] ++
        List.replicate 8 AoM_Block.empty), ok_cpy, ok_rel⟩)
        ⟨1, [Call.realloc 192 true, Call.blk_cpy 8 80 ⟨8, 100⟩]⟩ ∧
    aomm_length (⟨4, 12, some ([⟨5, 50⟩, ⟨6, 60⟩, ⟨7, 70⟩, ⟨8, 100⟩] ++
        List.replicate 8 AoM_Block.empty), ok_cpy, ok_rel⟩ : AoM_Managed Nat) =
      aomm_length (three_blocks ok_cpy) + 1 :=
  ⟨⟨rfl, rfl, by decide, by decide⟩, rfl,
    (aomm_add_success_frame ok_libc (three_blocks ok_cpy) _ three_slots 8 80 w0 _
      ⟨rfl, rfl, by decide, by decide⟩ rfl).1⟩

/-- C5: growth failure in `aomm_add` is all-or-nothing.  When the arguments pass the
assertion, the array needs to grow (`num_blk == max_blk - 1`) and `realloc` fails, `aomm_add`
returns `false`, the array is exactly as before, and the failed `realloc` is the only call
made, so the copier is not called. -/
theorem aomm_add_growth_failure (L : Libc σ) (aom : AoM_Managed σ) (blk_size blk_data : Nat)
    (w : World σ) (hsize : blk_size ≠ 0) (hdata : blk_data ≠ 0)
    (hfull : aom.num_blk = size_sub aom.max_blk 1)
    (hfail : (L.realloc (size_mul (size_mul (size_add aom.max_blk 2) 2) sizeof_AoM_Block)
      w.st).1 = none) :
    ∃ w', aomm_add L aom blk_size blk_data w = .ret (false, aom) w' ∧
      w'.trace = w.trace ++
        [Call.realloc (size_mul (size_mul (size_add aom.max_blk 2) 2) sizeof_AoM_Block) false] := by
  refine ⟨(call_realloc L (size_mul (size_mul (size_add aom.max_blk 2) 2) sizeof_AoM_Block) w).2,
    ?_, ?_⟩
  · unfold aomm_add
    have hc : (call_realloc L (size_mul (size_mul (size_add aom.max_blk 2) 2) sizeof_AoM_Block)
        w).1 = none := hfail
    rw [if_neg (by simp [hsize, hdata]), if_neg (by simp [hfull]), if_pos hfull]
    dsimp only
    split
    · rename_i w1 heq
      rw [heq]
    · rename_i fresh w1 heq
      rw [heq] at hc
      simp at hc
  · simp [call_realloc, hfail]

/-- A concrete instance of the theorem for C5. -/
theorem aomm_add_growth_failure_witness :
    (three_blocks ok_cpy).num_blk = size_sub (three_blocks ok_cpy).max_blk 1 ∧
    (no_realloc_libc.realloc
      (size_mul (size_mul (size_add (three_blocks ok_cpy).max_blk 2) 2) sizeof_AoM_Block)
      w0.st).1 = none ∧
    ∃ w', aomm_add no_realloc_libc (three_blocks ok_cpy) 8 80 w0 =
        .ret (false, three_blocks ok_cpy) w' ∧
      w'.trace = w0.trace ++ [Call.realloc
        (size_mul (size_mul (size_add (three_blocks ok_cpy).max_blk 2) 2) sizeof_AoM_Block)
        false] :=
  ⟨by decide, rfl,
    aomm_add_growth_failure no_realloc_libc (three_blocks ok_cpy) 8 80 w0 (by decide) (by decide)
      (by decide) rfl⟩

/-- C6: a failing copier in `aomm_add` leaves the live content intact.  On a well-formed
array of length `n` (the byte size of a due growth fitting `size_t`), `aomm_add` returns and
never calls `release`; if in this call the copier returned a block with null data (such as the
empty sentinel), then `aomm_add` returns `false`, the length is still `n`, `aomm_item(i)`
returns the same block as before for every `i < n`, and the capacity has not shrunk. -/
theorem aomm_add_dup_failure (L : Libc σ) (aom : AoM_Managed σ) (arr : List AoM_Block)
    (blk_size blk_data : Nat) (w : World σ) (hv : Valid aom arr)
    (hsize : blk_size ≠ 0) (hdata : blk_data ≠ 0)
    (hfit : aom.num_blk + 1 = aom.max_blk →
      (aom.max_blk + 2) * 2 * sizeof_AoM_Block < SIZE_MOD) :
    ∃ r aom' w' t, aomm_add L aom blk_size blk_data w = .ret (r, aom') w' ∧
      w'.trace = w.trace ++ t ∧ (∀ c ∈ t, c.is_rel = false) ∧
      (∀ b, Call.blk_cpy blk_size blk_data b ∈ t → b.blk_data = 0 →
        r = false ∧ aomm_length aom' = aomm_length aom ∧ aom.max_blk ≤ aom'.max_blk ∧
        ∀ i, i < aomm_length aom → ∀ v : World σ,
          ∃ s, aomm_item aom i v = .ret (s, aom) v ∧ aomm_item aom' i v = .ret (s, aom') v) := by
  obtain ⟨r, aom', w', h⟩ := aomm_add_total L aom arr blk_size blk_data w hv hsize hdata hfit
  rcases aomm_add_ret L aom aom' arr blk_size blk_data w w' r hv h with
    ⟨hr, ha, _, bytes, htr⟩ | ⟨b, arr', t, hv', _, _, hmax, htr, ht, hlow, _, _, hr, hnum⟩
  · refine ⟨r, aom', w', _, h, htr, by simp [Call.is_rel], ?_⟩
    intro b hb
    simp at hb
  · refine ⟨r, aom', w', t ++ [Call.blk_cpy blk_size blk_data b], h, by rw [htr, List.append_assoc],
      ?_, ?_⟩
    · rcases ht with rfl | ⟨bytes, rfl⟩ <;> simp [Call.is_rel]
    · intro b' hb' hz
      have hbb : b' = b := by
        rcases ht with rfl | ⟨bytes, rfl⟩ <;> simpa using hb'
      subst hbb
      rw [if_pos hz] at hnum
      obtain ⟨hs, hl, hroom, _⟩ := hv
      refine ⟨by simpa [hz] using hr, hnum, ?_, ?_⟩
      · rcases hmax with h1 | ⟨_, h1⟩ <;> omega
      · intro i hi v
        have hlt : i < arr.length := by unfold aomm_length at hi; omega
        refine ⟨arr[i], aomm_item_lt aom arr i _ v hs hi (List.getElem?_eq_getElem hlt), ?_⟩
        refine aomm_item_lt aom' arr' i _ v hv'.storage ?_ ?_
        · unfold aomm_length at hi; omega
        · rw [hlow i hi, List.getElem?_eq_getElem hlt]

/-- A concrete instance of the theorem for C6. -/
theorem aomm_add_dup_failure_witness :
    Valid (three_blocks bad_cpy) three_slots ∧
    ∃ r aom' w' t, aomm_add ok_libc (three_blocks bad_cpy) 8 80 w0 = .ret (r, aom') w' ∧
      w'.trace = w0.trace ++ t ∧ (∀ c ∈ t, c.is_rel = false) ∧
      (∀ b, Call.blk_cpy 8 80 b ∈ t → b.blk_data = 0 →
        r = false ∧ aomm_length aom' = aomm_length (three_blocks bad_cpy) ∧
        (three_blocks bad_cpy).max_blk ≤ aom'.max_blk ∧
        ∀ i, i < aomm_length (three_blocks bad_cpy) → ∀ v : World Nat,
          ∃ s, aomm_item (three_blocks bad_cpy) i v = .ret (s, three_blocks bad_cpy) v ∧
            aomm_item aom' i v = .ret (s, aom') v) :=
  ⟨⟨rfl, rfl, by decide, by decide⟩,
    aomm_add_dup_failure ok_libc (three_blocks bad_cpy) three_slots 8 80 w0
      ⟨rfl, rfl, by decide, by decide⟩ (by decide) (by decide) (fun _ => by decide)⟩

/-- C7: `aomm_destroy` on an array of length `n` whose live slots lie in its storage calls
`release` exactly `n` times, on slot `0`, `1`, ..., `n - 1` in this order with that slot's
`(blk_size, blk_data)`, then `free` twice, and makes no other call (none of the copier). -/
theorem aomm_destroy_releases (L : Libc σ) (aom : AoM_Managed σ) (arr : List AoM_Block)
    (w : World σ) (hs : aom.blk_arr = some arr) (hn : aom.num_blk ≤ arr.length) :
    ∃ w', aomm_destroy L aom w = .ret () w' ∧
      w'.trace = w.trace ++
        (arr.take aom.num_blk).map (fun b => Call.blk_rel b.blk_size b.blk_data) ++
        [Call.free, Call.free] ∧
      (arr.take aom.num_blk).length = aom.num_blk := by
  obtain ⟨w1, h1, h2⟩ := release_loop_spec aom.blk_rel arr aom.num_blk 0 w (by omega)
  refine ⟨call_free L (call_free L w1), ?_, ?_, by simp [hn]⟩
  · unfold aomm_destroy
    simp only [hs, Nat.sub_zero, h1]
  · simp [call_free, h2]
    rfl

/-- A concrete instance of the theorem for C7. -/
theorem aomm_destroy_releases_witness :
    (three_blocks ok_cpy).blk_arr = some three_slots ∧
    (three_blocks ok_cpy).num_blk ≤ three_slots.length ∧
    ∃ w', aomm_destroy ok_libc (three_blocks ok_cpy) w0 = .ret () w' ∧
      w'.trace = w0.trace ++
        (three_slots.take (three_blocks ok_cpy).num_blk).map
          (fun b => Call.blk_rel b.blk_size b.blk_data) ++
        [Call.free, Call.free] ∧
      (three_slots.take (three_blocks ok_cpy).num_blk).length = (three_blocks ok_cpy).num_blk :=
  ⟨rfl, by decide,
    aomm_destroy_releases ok_libc (three_blocks ok_cpy) three_slots w0 rfl (by decide)⟩

/-- C8: over a whole lifetime (an array returned by `aomm_create`, any sequence of `aomm_add`
and `aomm_set` calls with the allocator and the copier free to fail in each, then
`aomm_destroy`), every call returns, the blocks passed to `release` are, counted with
multiplicity, exactly the blocks with non-null data that the copier returned, and
`aomm_destroy` makes as many `release` calls as there were successful `aomm_add` calls. -/
theorem aomm_lifecycle_balance (L : Libc σ) (num_ptrs : Nat) (cpy : AoM_BlkCopy σ)
    (rel : AoM_BlkFree σ) (ops : List Op) (w w1 : World σ) (aom : AoM_Managed σ)
    (hn : num_ptrs < SIZE_MOD) (hargs : ∀ op ∈ ops, op.args_ok)
    (hfit : (ops.length + 2) * 2 * sizeof_AoM_Block < SIZE_MOD)
    (hc : aomm_create L num_ptrs (some cpy) (some rel) w = .ret (some aom) w1) :
    ∃ steps aomN wN wD t tD,
      run_ops L ops aom w1 = .ret (steps, aomN) wN ∧ aomm_destroy L aomN wN = .ret () wD ∧
      wN.trace = w1.trace ++ t ∧ wD.trace = wN.trace ++ tD ∧
      (released (t ++ tD)).Perm (duplicated (t ++ tD)) ∧
      duplicated tD = [] ∧
      (released tD).length = (steps.filter Step.added).length := by
  obtain ⟨hv, hnum, _, _, _⟩ := aomm_create_ret L num_ptrs cpy rel w w1 aom hn hc
  obtain ⟨steps, aomN, arrN, wN, t, hrun, hvN, _, _, htr, _, hcount, hperm, _⟩ :=
    run_ops_spec L ops aom _ w1 hv hargs (by rw [hnum, Nat.zero_add]; exact hfit)
  have hN : aomN.num_blk ≤ arrN.length := by
    have := hvN.room
    have := hvN.slots
    omega
  obtain ⟨wD, hd, htrD⟩ := aomm_destroy_ret L aomN arrN wN hvN.storage hN
  have hrelD : released ((arrN.take aomN.num_blk).map rel_event ++ [Call.free, Call.free]) =
      arrN.take aomN.num_blk := by
    rw [released_append, released_rel_events]
    simp [released]
  have hdupD : duplicated ((arrN.take aomN.num_blk).map rel_event ++ [Call.free, Call.free]) =
      [] := by
    rw [duplicated_append, duplicated_rel_events]
    simp [duplicated]
  refine ⟨steps, aomN, wN, wD, t, _, hrun, hd, htr, by rw [htrD, List.append_assoc], ?_, hdupD,
    ?_⟩
  · rw [released_append, duplicated_append, hrelD, hdupD, List.append_nil]
    rw [hnum, List.take_zero, List.nil_append] at hperm
    exact List.perm_append_comm.trans hperm
  · rw [hrelD, List.length_take, hcount, hnum]
    omega

/-- A concrete instance of the theorem for C8. -/
theorem aomm_lifecycle_balance_witness :
    aomm_create ok_libc 0 (some flaky_cpy) (some ok_rel) w0 = .ret (some created) w_created ∧
    ∃ steps aomN wN wD t tD,
      run_ops ok_libc [Op.add 1 10, Op.add 2 20, Op.add 3 30, Op.set 0 9 90, Op.add 4 40,
        Op.add 5 50, Op.set 7 6 60, Op.set 1 7 70] created w_created = .ret (steps, aomN) wN ∧
      aomm_destroy ok_libc aomN wN = .ret () wD ∧
      wN.trace = w_created.trace ++ t ∧ wD.trace = wN.trace ++ tD ∧
      (released (t ++ tD)).Perm (duplicated (t ++ tD)) ∧
      duplicated tD = [] ∧
      (released tD).length = (steps.filter Step.added).length :=
  ⟨rfl, aomm_lifecycle_balance ok_libc 0 flaky_cpy ok_rel [Op.add 1 10, Op.add 2 20, Op.add 3 30,
    Op.set 0 9 90, Op.add 4 40, Op.add 5 50, Op.set 7 6 60, Op.set 1 7 70] w0 w_created created
    (by decide) (by decide) (by decide) rfl⟩

/-- C9: `aomm_item` returns the stored block (same size and data pointer) when the index is
below the length and the empty sentinel otherwise; it calls nothing outside the array (the
world is the same afterwards) and leaves the array unchanged. -/
theorem aomm_item_spec (aom : AoM_Managed σ) (arr : List AoM_Block) (index : Nat) (w : World σ)
    (hs : aom.blk_arr = some arr) (hn : aom.num_blk ≤ arr.length) :
    (index < aom.num_blk →
      ∃ s, arr[index]? = some s ∧ aomm_item aom index w = .ret (s, aom) w) ∧
    (aom.num_blk ≤ index → aomm_item aom index w = .ret (AoM_Block.empty, aom) w) := by
  constructor
  · intro hi
    have hlt : index < arr.length := by omega
    refine ⟨arr[index], List.getElem?_eq_getElem hlt, ?_⟩
    unfold aomm_item
    simp [hs, hlt, Nat.not_le.mpr hi]
  · intro hi
    unfold aomm_item
    simp [hi]

/-- A concrete instance of the theorem for C9. -/
theorem aomm_item_spec_witness :
    (two_blocks ok_cpy).blk_arr = some two_slots ∧
    (two_blocks ok_cpy).num_blk ≤ two_slots.length ∧
    (1 < (two_blocks ok_cpy).num_blk →
      ∃ s, two_slots[1]? = some s ∧
        aomm_item (two_blocks ok_cpy) 1 w0 = .ret (s, two_blocks ok_cpy) w0) ∧
    ((two_blocks ok_cpy).num_blk ≤ 1 →
      aomm_item (two_blocks ok_cpy) 1 w0 = .ret (AoM_Block.empty, two_blocks ok_cpy) w0) :=
  ⟨rfl, by decide, aomm_item_spec (two_blocks ok_cpy) two_slots 1 w0 rfl (by decide)⟩

/-- C10: `aomm_item_copy` returns what `duplicate(s.blk_size, s.blk_data)` returns for the
stored block `s` when the index is below the length, that call being the only one made, and
the empty sentinel with no call at all when the index is not below the length; in both cases
the array is unchanged and `release` is not called. -/
theorem aomm_item_copy_spec (aom : AoM_Managed σ) (arr : List AoM_Block) (index : Nat)
    (w : World σ) (hs : aom.blk_arr = some arr) (hn : aom.num_blk ≤ arr.length) :
    (index < aom.num_blk →
      ∃ s, arr[index]? = some s ∧
        aomm_item_copy aom index w =
          .ret ((aom.blk_cpy s.blk_size s.blk_data w.st).1, aom)
            { st := (aom.blk_cpy s.blk_size s.blk_data w.st).2,
              trace := w.trace ++
                [Call.blk_cpy s.blk_size s.blk_data (aom.blk_cpy s.blk_size s.blk_data w.st).1] }) ∧
    (aom.num_blk ≤ index → aomm_item_copy aom index w = .ret (AoM_Block.empty, aom) w) := by
  constructor
  · intro hi
    have hlt : index < arr.length := by omega
    refine ⟨arr[index], List.getElem?_eq_getElem hlt, ?_⟩
    unfold aomm_item_copy
    simp [hs, hlt, Nat.not_le.mpr hi, call_cpy]
  · intro hi
    unfold aomm_item_copy
    simp [hi]

/-- A concrete instance of the theorem for C10. -/
theorem aomm_item_copy_spec_witness :
    (two_blocks ok_cpy).blk_arr = some two_slots ∧
    (two_blocks ok_cpy).num_blk ≤ two_slots.length ∧
    aomm_item_copy (two_blocks ok_cpy) 1 w0 =
      .ret (⟨6, 100⟩, two_blocks ok_cpy) ⟨1, [Call.blk_cpy 6 60 ⟨6, 100⟩]⟩ ∧
    ((two_blocks ok_cpy).num_blk ≤ 2 →
      aomm_item_copy (two_blocks ok_cpy) 2 w0 =
        .ret (AoM_Block.empty, two_blocks ok_cpy) w0) :=
  ⟨rfl, by decide, rfl,
    (aomm_item_copy_spec (two_blocks ok_cpy) two_slots 2 w0 rfl (by decide)).2⟩

/-- The visiting loop inside the storage runs the visitor on each slot of its range, in order. -/
theorem apply_loop_spec (f : AoM_SimpleApply σ) (arr : List AoM_Block) (count : Nat) :
    ∀ (i : Nat) (s : σ), i + count ≤ arr.length →
      apply_loop f arr count i s =
        some ((((arr.drop i).take count).enumFrom i).foldl (fun s p => f p.1 p.2 s) s) := by
  induction count with
  | zero => intro i s _; simp [apply_loop]
  | succ n ih =>
    intro i s h
    have hlt : i < arr.length := by omega
    have e : (arr.drop i).take (n + 1) = arr[i] :: (arr.drop (i + 1)).take n := by
      rw [List.drop_eq_getElem_cons hlt, List.take_succ_cons]
    simp only [apply_loop, List.getElem?_eq_getElem hlt]
    rw [ih (i + 1) _ (by omega), e]
    rfl

/-- The context loop is the plain loop run with the visitor that is handed the context. -/
theorem apply_ctxt_loop_eq {κ : Type} (g : AoM_ContextApply σ κ) (c : κ) (arr : List AoM_Block)
    (count : Nat) : ∀ (i : Nat) (s : σ),
      apply_ctxt_loop g c arr count i s = apply_loop (fun j b t => g j b c t) arr count i s := by
  induction count with
  | zero => intro i s; rfl
  | succ n ih =>
    intro i s
    simp only [apply_ctxt_loop, apply_loop]
    cases arr[i]? with
    | none => rfl
    | some b => exact ih (i + 1) _

/-- The function `aomm_apply_ctxt` is `aomm_apply` run with the visitor that is handed the
context. -/
theorem aomm_apply_ctxt_eq {κ : Type} (aom : AoM_Managed σ) (bos eos : Nat)
    (g : AoM_ContextApply σ κ) (c : κ) (w : World σ) :
    aomm_apply_ctxt aom bos eos g c w = aomm_apply aom bos eos (fun j b t => g j b c t) w := by
  unfold aomm_apply_ctxt aomm_apply
  simp only [apply_ctxt_loop_eq]

/-- The function `aomm_apply` on a range the assertion accepts. -/
theorem aomm_apply_eq (aom : AoM_Managed σ) (arr : List AoM_Block) (bos eos : Nat)
    (f : AoM_SimpleApply σ) (w : World σ) (hs : aom.blk_arr = some arr)
    (hn : aom.num_blk ≤ arr.length) (h1 : bos ≤ range_end aom eos)
    (h2 : range_end aom eos ≤ aom.num_blk) :
    aomm_apply aom bos eos f w =
      .ret aom { st := (slots_between arr bos (range_end aom eos)).foldl
                   (fun s p => f p.1 p.2 s) w.st,
                 trace := w.trace } := by
  unfold aomm_apply
  unfold range_end at h1 h2
  dsimp only
  rw [if_neg (by simp [h1, h2]), if_neg (by omega), hs]
  simp only [Option.getD_some]
  rw [apply_loop_spec f arr _ bos w.st (by omega)]
  simp only [slots_between, range_end, List.drop_take]

/-- The function `aomm_apply` on a range the assertion rejects. -/
theorem aomm_apply_abort (aom : AoM_Managed σ) (bos eos : Nat) (f : AoM_SimpleApply σ)
    (w : World σ) (h : ¬ (bos ≤ range_end aom eos ∧ range_end aom eos ≤ aom.num_blk)) :
    aomm_apply aom bos eos f w = .abort w := by
  unfold aomm_apply
  unfold range_end at h
  dsimp only
  rw [if_pos h]

/-- The function `aomm_apply` never fails its assertion on a range the assertion accepts. -/
theorem aomm_apply_no_abort (aom : AoM_Managed σ) (bos eos : Nat) (f : AoM_SimpleApply σ)
    (w w' : World σ) (h : bos ≤ range_end aom eos ∧ range_end aom eos ≤ aom.num_blk) :
    aomm_apply aom bos eos f w ≠ .abort w' := by
  unfold aomm_apply
  unfold range_end at h
  dsimp only
  rw [if_neg (by simp [h])]
  split <;> simp

theorem slots_between_length (arr : List AoM_Block) (bos e : Nat) (h : e ≤ arr.length) :
    (slots_between arr bos e).length = e - bos := by
  simp [slots_between]
  omega

theorem slots_between_fst (arr : List AoM_Block) (bos e : Nat) (h : e ≤ arr.length) :
    (slots_between arr bos e).map Prod.fst = List.range' bos (e - bos) := by
  unfold slots_between
  rw [List.enumFrom_map_fst]
  congr 1
  simp
  omega

theorem slots_between_mem (arr : List AoM_Block) (bos e : Nat) (p : Nat × AoM_Block)
    (hp : p ∈ slots_between arr bos e) : bos ≤ p.1 ∧ p.1 < e ∧ arr[p.1]? = some p.2 := by
  unfold slots_between at hp
  obtain ⟨i, b⟩ := p
  rw [List.mk_mem_enumFrom_iff_le_and_getElem?_sub] at hp
  obtain ⟨h1, h2⟩ := hp
  rw [List.getElem?_drop, List.getElem?_take] at h2
  split_ifs at h2 with h3
  have : bos + (i - bos) = i := by omega
  rw [this] at h2 h3
  exact ⟨h1, h3, h2⟩

/-- The array after three calls `aomm_add(aom, 8, 80)` on a fresh array of capacity 4 is
reachable. -/
theorem added_reachable : Reachable ok_libc 4 (added 3) :=
  .call (added 2) (added 3) (Op.add 8 80) ⟨2, []⟩ ⟨3, [Call.blk_cpy 8 80 ⟨8, 102⟩]⟩ true
    (.call (added 1) (added 2) (Op.add 8 80) ⟨1, []⟩ ⟨2, [Call.blk_cpy 8 80 ⟨8, 101⟩]⟩ true
      (.call (added 0) (added 1) (Op.add 8 80) ⟨0, []⟩ ⟨1, [Call.blk_cpy 8 80 ⟨8, 100⟩]⟩ true
        (.create ok_cpy ok_rel w0 ⟨0, [Call.malloc 40 true, Call.calloc 4 16 true]⟩ (added 0) rfl)
        rfl) rfl) rfl

/-- C11: on a range the assertion accepts (`end = 0` and `begin <= L`, or `end != 0` and
`begin <= end <= L`), `aomm_apply` returns having run the visitor on the slots
`begin, begin + 1, ..., e - 1` in this order, once each and on no other slot, where `e` is the
length `L` when `end = 0` and `end` otherwise; the array and the trace are unchanged.  The
slots visited are `e - begin` many, so `aomm_apply(2, L - 2)` makes `L - 4` visits when
`L >= 4`. -/
theorem aomm_apply_visits (aom : AoM_Managed σ) (arr : List AoM_Block) (bos eos : Nat)
    (f : AoM_SimpleApply σ) (w : World σ) (hs : aom.blk_arr = some arr)
    (hn : aom.num_blk ≤ arr.length)
    (hr : (eos = 0 ∧ bos ≤ aom.num_blk) ∨ (eos ≠ 0 ∧ bos ≤ eos ∧ eos ≤ aom.num_blk)) :
    aomm_apply aom bos eos f w =
      .ret aom { st := (slots_between arr bos (range_end aom eos)).foldl
                   (fun s p => f p.1 p.2 s) w.st,
                 trace := w.trace } ∧
    (slots_between arr bos (range_end aom eos)).map Prod.fst =
      List.range' bos (range_end aom eos - bos) ∧
    (∀ p ∈ slots_between arr bos (range_end aom eos), arr[p.1]? = some p.2) ∧
    (4 ≤ aom.num_blk → bos = 2 → eos = aom.num_blk - 2 →
      (slots_between arr bos (range_end aom eos)).length = aom.num_blk - 4) := by
  have h12 : bos ≤ range_end aom eos ∧ range_end aom eos ≤ aom.num_blk := by
    unfold range_end
    rcases hr with ⟨h0, hb⟩ | ⟨h0, hb, he⟩
    · rw [if_pos h0]; exact ⟨hb, le_refl _⟩
    · rw [if_neg h0]; exact ⟨hb, he⟩
  refine ⟨aomm_apply_eq aom arr bos eos f w hs hn h12.1 h12.2,
    slots_between_fst arr bos _ (by omega), fun p hp => (slots_between_mem arr bos _ p hp).2.2,
    ?_⟩
  intro h4 hb he
  rw [slots_between_length arr bos _ (by omega)]
  unfold range_end
  rw [if_neg (by omega)]
  omega

/-- A concrete instance of the theorem for C11. -/
theorem aomm_apply_visits_witness :
    (two_blocks ok_cpy).blk_arr = some two_slots ∧
    aomm_apply (two_blocks ok_cpy) 0 0 count_visit w0 = .ret (two_blocks ok_cpy) ⟨2, []⟩ ∧
    (slots_between two_slots 0 2).map Prod.fst = [0, 1] :=
  ⟨rfl,
    (aomm_apply_visits (two_blocks ok_cpy) two_slots 0 0 count_visit w0 rfl (by decide)
      (Or.inl ⟨rfl, by decide⟩)).1,
    (aomm_apply_visits (two_blocks ok_cpy) two_slots 0 0 count_visit w0 rfl (by decide)
      (Or.inl ⟨rfl, by decide⟩)).2.1⟩

/-- C12: `aomm_apply_ctxt` has the traversal of `aomm_apply`.  Run with a context visitor `g`
and a context `c` it is `aomm_apply` run with the plain visitor that calls `g` with `c`: the
same slots in the same order, the same failed assertion or undefined behaviour, and `c` handed
unchanged to every call.  Hence a visitor that increments the counter its context names leaves
that counter increased by the number of visited slots and every other counter as it was. -/
theorem aomm_apply_ctxt_traversal {κ : Type} (aom : AoM_Managed σ) (bos eos : Nat)
    (g : AoM_ContextApply σ κ) (c : κ) (w : World σ)
    (aomc : AoM_Managed (Nat → Nat)) (arr : List AoM_Block) (k : Nat) (wc : World (Nat → Nat))
    (hs : aomc.blk_arr = some arr) (hn : aomc.num_blk ≤ arr.length)
    (h1 : bos ≤ range_end aomc eos) (h2 : range_end aomc eos ≤ aomc.num_blk) :
    aomm_apply_ctxt aom bos eos g c w = aomm_apply aom bos eos (fun i b s => g i b c s) w ∧
    ∃ m, aomm_apply_ctxt aomc bos eos count_visit_ctxt k wc =
        .ret aomc { st := m, trace := wc.trace } ∧
      m k = wc.st k + (slots_between arr bos (range_end aomc eos)).length ∧
      ∀ j, j ≠ k → m j = wc.st j := by
  have hfold : ∀ (l : List (Nat × AoM_Block)) (m0 : Nat → Nat),
      (l.foldl (fun s p => count_visit_ctxt p.1 p.2 k s) m0) k = m0 k + l.length ∧
      ∀ j, j ≠ k → (l.foldl (fun s p => count_visit_ctxt p.1 p.2 k s) m0) j = m0 j := by
    intro l
    induction l with
    | nil => intro m0; simp
    | cons p ps ih =>
      intro m0
      simp only [List.foldl_cons, List.length_cons]
      refine ⟨?_, fun j hj => ?_⟩
      · rw [(ih _).1]
        simp [count_visit_ctxt]
        omega
      · rw [(ih _).2 j hj]
        simp [count_visit_ctxt, hj]
  refine ⟨aomm_apply_ctxt_eq aom bos eos g c w,
    (slots_between arr bos (range_end aomc eos)).foldl
      (fun s p => count_visit_ctxt p.1 p.2 k s) wc.st, ?_, (hfold _ _).1, (hfold _ _).2⟩
  rw [aomm_apply_ctxt_eq, aomm_apply_eq aomc arr bos eos _ wc hs hn h1 h2]

/-- A concrete instance of the theorem for C12. -/
theorem aomm_apply_ctxt_traversal_witness :
    aomm_apply_ctxt (two_blocks ok_cpy) 1 2 (fun _ _ c s => s + c) 5 w0 =
      aomm_apply (two_blocks ok_cpy) 1 2 (fun _ _ s => s + 5) w0 ∧
    ∃ m, aomm_apply_ctxt three_counted 1 2 count_visit_ctxt 7 ⟨fun _ => 0, []⟩ =
        .ret three_counted { st := m, trace := [] } ∧
      m 7 = 0 + (slots_between three_slots 1 2).length ∧ ∀ j, j ≠ 7 → m j = 0 :=
  aomm_apply_ctxt_traversal (two_blocks ok_cpy) 1 2 (fun _ _ c s => s + c) 5 w0
    three_counted three_slots 7 ⟨fun _ => 0, []⟩ rfl (by decide) (by decide) (by decide)

/-- C13: a bad range is a failed assertion, not a clamped traversal.  With `e` the length when
`end = 0` and `end` otherwise, `aomm_apply` and `aomm_apply_ctxt` fail their assertion exactly
when `begin <= e <= L` does not hold, and they do so in the world they were called in, that is
before any visit. -/
theorem aomm_apply_bad_range {κ : Type} (aom : AoM_Managed σ) (bos eos : Nat)
    (f : AoM_SimpleApply σ) (g : AoM_ContextApply σ κ) (c : κ) (w : World σ) :
    ((∃ w', aomm_apply aom bos eos f w = .abort w') ↔
      ¬ (bos ≤ range_end aom eos ∧ range_end aom eos ≤ aom.num_blk)) ∧
    ((∃ w', aomm_apply_ctxt aom bos eos g c w = .abort w') ↔
      ¬ (bos ≤ range_end aom eos ∧ range_end aom eos ≤ aom.num_blk)) ∧
    (∀ w', aomm_apply aom bos eos f w = .abort w' → w' = w) ∧
    (∀ w', aomm_apply_ctxt aom bos eos g c w = .abort w' → w' = w) := by
  have key : ∀ (h : AoM_SimpleApply σ),
      ((∃ w', aomm_apply aom bos eos h w = .abort w') ↔
        ¬ (bos ≤ range_end aom eos ∧ range_end aom eos ≤ aom.num_blk)) ∧
      (∀ w', aomm_apply aom bos eos h w = .abort w' → w' = w) := by
    intro h
    by_cases hr : bos ≤ range_end aom eos ∧ range_end aom eos ≤ aom.num_blk
    · refine ⟨⟨fun ⟨w', hw⟩ => absurd hw (aomm_apply_no_abort aom bos eos h w w' hr),
        fun hc => absurd hr hc⟩, fun w' hw => absurd hw (aomm_apply_no_abort aom bos eos h w w' hr)⟩
    · refine ⟨⟨fun _ => hr, fun _ => ⟨w, aomm_apply_abort aom bos eos h w hr⟩⟩, fun w' hw => ?_⟩
      rw [aomm_apply_abort aom bos eos h w hr] at hw
      cases hw
      rfl
  refine ⟨(key f).1, ?_, (key f).2, ?_⟩
  · rw [aomm_apply_ctxt_eq]
    exact (key _).1
  · rw [aomm_apply_ctxt_eq]
    exact (key _).2

/-- A concrete instance of the theorem for C13. -/
theorem aomm_apply_bad_range_witness :
    (∃ w', aomm_apply (two_blocks ok_cpy) 1 3 count_visit w0 = .abort w') ∧
    (∃ w', aomm_apply (two_blocks ok_cpy) 2 1 count_visit w0 = .abort w') ∧
    (∃ w', aomm_apply (two_blocks ok_cpy) 3 0 count_visit w0 = .abort w') :=
  ⟨((aomm_apply_bad_range (two_blocks ok_cpy) 1 3 count_visit (fun _ _ (_ : Nat) s => s) 0
      w0).1).2 (by decide),
   ⟨w0, rfl⟩, ⟨w0, rfl⟩⟩

/-- C14: for a requested capacity `num_ptrs` and two non-null callbacks, `aomm_create` returns;
when `malloc` and `calloc` both succeed the array returned has length 0, capacity
`max(num_ptrs, 4)` (so 4 whenever `num_ptrs < 4`), every slot equal to the empty sentinel and
the two callbacks; when `malloc` or `calloc` fails a null pointer is returned. -/
theorem aomm_create_spec (L : Libc σ) (num_ptrs : Nat) (cpy : AoM_BlkCopy σ)
    (rel : AoM_BlkFree σ) (w : World σ) :
    ∃ r w', aomm_create L num_ptrs (some cpy) (some rel) w = .ret r w' ∧
      (((call_malloc L sizeof_AoM_Managed w).1 = true ∧
          (call_calloc L (max num_ptrs 4) sizeof_AoM_Block
            (call_malloc L sizeof_AoM_Managed w).2).1 = true) →
        r = some ⟨0, max num_ptrs 4, some (List.replicate (max num_ptrs 4) AoM_Block.empty),
          cpy, rel⟩) ∧
      (((call_malloc L sizeof_AoM_Managed w).1 = false ∨
          (call_calloc L (max num_ptrs 4) sizeof_AoM_Block
            (call_malloc L sizeof_AoM_Managed w).2).1 = false) → r = none) ∧
      (num_ptrs < 4 → max num_ptrs 4 = 4) := by
  have hmax : (if num_ptrs < MIN_ALLOCATION then MIN_ALLOCATION else num_ptrs) =
      max num_ptrs 4 := by
    unfold MIN_ALLOCATION
    split_ifs <;> omega
  unfold aomm_create
  dsimp only
  rw [hmax]
  rcases hm : call_malloc L sizeof_AoM_Managed w with ⟨_ | _, w1⟩
  · exact ⟨none, w1, rfl, by simp, fun _ => rfl, by omega⟩
  · dsimp only
    rcases hc : call_calloc L (max num_ptrs 4) sizeof_AoM_Block w1 with ⟨_ | _, w2⟩
    · exact ⟨none, _, rfl, by simp, fun _ => rfl, by omega⟩
    · exact ⟨_, w2, rfl, fun _ => rfl, by simp, by omega⟩

/-- A concrete instance of the theorem for C14. -/
theorem aomm_create_spec_witness :
    ∃ r w', aomm_create ok_libc 0 (some ok_cpy) (some ok_rel) w0 = .ret r w' ∧
      r = some ⟨0, 4, some (List.replicate 4 AoM_Block.empty), ok_cpy, ok_rel⟩ := by
  obtain ⟨r, w', h, hok, _, _⟩ := aomm_create_spec ok_libc 0 ok_cpy ok_rel w0
  exact ⟨r, w', h, hok ⟨rfl, rfl⟩⟩

/-- The asserted preconditions hold whenever `aomm_set` returns. -/
theorem aomm_set_ret_args (aom aom' : AoM_Managed σ) (index blk_size blk_data : Nat)
    (w w' : World σ) (r : Bool) (h : aomm_set aom index blk_size blk_data w = .ret (r, aom') w') :
    blk_size ≠ 0 ∧ blk_data ≠ 0 := by
  by_cases hc : blk_data ≠ 0 ∧ blk_size ≠ 0
  · exact ⟨hc.2, hc.1⟩
  · unfold aomm_set at h
    rw [if_pos hc] at h
    cases h

/-- A returning `aomm_set` keeps a well-formed array well-formed, with its length and capacity. -/
theorem aomm_set_ret (aom aom' : AoM_Managed σ) (arr : List AoM_Block)
    (index blk_size blk_data : Nat) (w w' : World σ) (r : Bool) (hv : Valid aom arr)
    (h : aomm_set aom index blk_size blk_data w = .ret (r, aom') w') :
    ∃ arr', Valid aom' arr' ∧ aom'.num_blk = aom.num_blk ∧ aom'.max_blk = aom.max_blk := by
  obtain ⟨hsize, hdata⟩ := aomm_set_ret_args aom aom' index blk_size blk_data w w' r h
  rw [aomm_set_eq aom arr index blk_size blk_data w hv hsize hdata] at h
  by_cases hi : aom.num_blk ≤ index
  · rw [if_pos hi] at h
    simp only [Outcome.ret.injEq, Prod.mk.injEq] at h
    obtain ⟨⟨_, ha⟩, _⟩ := h
    subst ha
    exact ⟨arr, hv, rfl, rfl⟩
  · rw [if_neg hi] at h
    by_cases hb : (aom.blk_cpy blk_size blk_data w.st).1.blk_data = 0
    · rw [if_pos hb] at h
      simp only [Outcome.ret.injEq, Prod.mk.injEq] at h
      obtain ⟨⟨_, ha⟩, _⟩ := h
      subst ha
      exact ⟨arr, hv, rfl, rfl⟩
    · rw [if_neg hb] at h
      simp only [Outcome.ret.injEq, Prod.mk.injEq] at h
      obtain ⟨⟨_, ha⟩, _⟩ := h
      subst ha
      obtain ⟨hs, hl, hroom, hm⟩ := hv
      exact ⟨_, ⟨rfl, by simpa using hl, hroom, hm⟩, rfl, rfl⟩

/-- A returning call keeps a well-formed array well-formed; its capacity stays or, for an
`aomm_add` on an array with one free slot, becomes `(max_blk + 2) * 2`. -/
theorem run_op_ret (L : Libc σ) (aom aom1 : AoM_Managed σ) (arr : List AoM_Block) (op : Op)
    (w w1 : World σ) (r : Bool) (hv : Valid aom arr)
    (h : run_op L aom op w = .ret (r, aom1) w1) :
    ∃ arr1, Valid aom1 arr1 ∧
      (aom1.max_blk = aom.max_blk ∨
        (aom.num_blk + 1 = aom.max_blk ∧ aom1.max_blk = (aom.max_blk + 2) * 2)) := by
  cases op with
  | add blk_size blk_data =>
    rcases aomm_add_ret L aom aom1 arr blk_size blk_data w w1 r hv h with
      ⟨_, ha, _, _⟩ | ⟨b, arr1, t, hv1, _, _, hmax, _⟩
    · subst ha
      exact ⟨arr, hv, Or.inl rfl⟩
    · exact ⟨arr1, hv1, hmax⟩
  | set index blk_size blk_data =>
    obtain ⟨arr1, hv1, _, hmax⟩ := aomm_set_ret aom aom1 arr index blk_size blk_data w w1 r hv h
    exact ⟨arr1, hv1, Or.inl hmax⟩

/-- Every reachable array is well-formed. -/
theorem reachable_valid (L : Libc σ) (num_ptrs : Nat) (aom : AoM_Managed σ)
    (hn : num_ptrs < SIZE_MOD) (h : Reachable L num_ptrs aom) : ∃ arr, Valid aom arr := by
  induction h with
  | create cpy rel w w1 aom hc =>
    exact ⟨_, (aomm_create_ret L num_ptrs cpy rel w w1 aom hn hc).1⟩
  | call aom aom1 op w w1 r _ hop ih =>
    obtain ⟨arr, hv⟩ := ih
    obtain ⟨arr1, hv1, _⟩ := run_op_ret L aom aom1 arr op w w1 r hv hop
    exact ⟨arr1, hv1⟩

/-- C15 (as amended): `aomm_add` grows the storage when one slot is left.  On every array
reachable from `aomm_create` by `aomm_add` and `aomm_set` calls whose length is strictly less
than its capacity minus one, a call to `aomm_add` that returns leaves the capacity unchanged
and calls `realloc` not at all (the copier is the only call); on a reachable array whose length
is its capacity minus one, `aomm_add` calls `realloc` first. -/
theorem aomm_add_grows_at_last_slot (L : Libc σ) (num_ptrs : Nat) (aom aom1 : AoM_Managed σ)
    (blk_size blk_data : Nat) (w w1 : World σ) (r : Bool) (hn : num_ptrs < SIZE_MOD)
    (hreach : Reachable L num_ptrs aom)
    (h : aomm_add L aom blk_size blk_data w = .ret (r, aom1) w1) :
    (aom.num_blk + 1 < aom.max_blk →
      aom1.max_blk = aom.max_blk ∧
      ∃ b, w1.trace = w.trace ++ [Call.blk_cpy blk_size blk_data b]) ∧
    (aom.num_blk + 1 = aom.max_blk →
      ∃ bytes ok t, w1.trace = w.trace ++ Call.realloc bytes ok :: t) := by
  obtain ⟨arr, hv⟩ := reachable_valid L num_ptrs aom hn hreach
  obtain ⟨hsize, hdata⟩ := aomm_add_ret_args L aom aom1 blk_size blk_data w w1 r h
  rw [aomm_add_eq L aom arr blk_size blk_data w hv hsize hdata] at h
  obtain ⟨hs, hl, hroom, hm⟩ := hv
  by_cases hg : aom.num_blk + 1 < aom.max_blk
  · rw [if_pos hg, aomm_add_store_eq aom arr blk_size blk_data w hs (by omega)] at h
    simp only [Outcome.ret.injEq, Prod.mk.injEq] at h
    obtain ⟨⟨_, ha⟩, hw⟩ := h
    subst ha hw
    exact ⟨fun _ => ⟨rfl, _, rfl⟩, fun hfull => by omega⟩
  · rw [if_neg hg] at h
    refine ⟨fun hlt => absurd hlt hg, fun _ => ?_⟩
    split at h
    · rename_i w2 heq
      simp only [Outcome.ret.injEq, Prod.mk.injEq] at h
      obtain ⟨_, hw⟩ := h
      subst hw
      exact ⟨_, _, [], call_realloc_trace L _ w _ _ heq⟩
    · rename_i fresh w2 heq
      by_cases hf : (aom.max_blk + 2) * 2 * sizeof_AoM_Block < SIZE_MOD
      swap
      · rw [if_neg hf] at h
        cases h
      rw [if_pos hf, aomm_add_store_eq _ _ blk_size blk_data w2 rfl
        (by simp; unfold sizeof_AoM_Block SIZE_MOD at hf; omega)] at h
      simp only [Outcome.ret.injEq, Prod.mk.injEq] at h
      obtain ⟨_, hw⟩ := h
      subst hw
      refine ⟨size_mul (size_mul (size_add aom.max_blk 2) 2) sizeof_AoM_Block, true,
        [Call.blk_cpy blk_size blk_data (aom.blk_cpy blk_size blk_data w2.st).1], ?_⟩
      simp [call_cpy, call_realloc_trace L _ w _ _ heq]

/-- C15, counterexample: the array `aomm_create(4, ...)` returns has capacity 4; after three
successful calls of `aomm_add` its length 3 is strictly less than its capacity 4, and yet a
fourth call of `aomm_add` calls `realloc` and leaves the capacity 12: the fourth of the four
slots is not used before the reallocation. -/
theorem aomm_add_grows_before_full :
    Reachable ok_libc 4 (added 3) ∧ (added 3).num_blk < (added 3).max_blk ∧
    (added 3).max_blk = 4 ∧
    aomm_add ok_libc (added 3) 8 80 ⟨3, []⟩ =
      .ret (true, added4) ⟨4, [Call.realloc 192 true, Call.blk_cpy 8 80 ⟨8, 103⟩]⟩ ∧
    added4.max_blk = 12 :=
  ⟨added_reachable, by decide, rfl, rfl, rfl⟩

/-- A concrete instance of the amended theorem for C15. -/
theorem aomm_add_grows_at_last_slot_witness :
    Reachable ok_libc 4 (added 3) ∧ (added 3).num_blk + 1 = (added 3).max_blk ∧
    ∃ bytes ok t, [Call.realloc 192 true, Call.blk_cpy 8 80 (⟨8, 103⟩ : AoM_Block)] =
      [] ++ Call.realloc bytes ok :: t :=
  ⟨added_reachable, rfl,
    (aomm_add_grows_at_last_slot ok_libc 4 (added 3) added4 8 80 ⟨3, []⟩
      ⟨4, [Call.realloc 192 true, Call.blk_cpy 8 80 ⟨8, 103⟩]⟩ true (by decide) added_reachable
      rfl).2 rfl⟩

/-- C16: whenever a returning call of `aomm_add` on a reachable array changes the capacity, the
new capacity is exactly `(old capacity + 2) * 2`; hence an array created with a request of at
most 4 slots only ever has one of the capacities `4, 12, 28, 60, ...` obtained from 4 by
repeating `c -> (c + 2) * 2`. -/
theorem aomm_add_growth_policy (L : Libc σ) (num_ptrs : Nat) (aom : AoM_Managed σ)
    (hn : num_ptrs < SIZE_MOD) (hreach : Reachable L num_ptrs aom) :
    (∀ blk_size blk_data w r aom1 w1,
      aomm_add L aom blk_size blk_data w = .ret (r, aom1) w1 →
      aom1.max_blk ≠ aom.max_blk → aom1.max_blk = (aom.max_blk + 2) * 2) ∧
    (num_ptrs ≤ 4 → ∃ k, aom.max_blk = (fun c => (c + 2) * 2)^[k] 4) ∧
    (fun c => (c + 2) * 2)^[1] 4 = 12 ∧ (fun c => (c + 2) * 2)^[2] 4 = 28 ∧
    (fun c => (c + 2) * 2)^[3] 4 = 60 := by
  refine ⟨?_, ?_, rfl, rfl, rfl⟩
  · obtain ⟨arr, hv⟩ := reachable_valid L num_ptrs aom hn hreach
    intro blk_size blk_data w r aom1 w1 h hne
    obtain ⟨_, _, hmax⟩ := run_op_ret L aom aom1 arr (Op.add blk_size blk_data) w w1 r hv h
    rcases hmax with h1 | ⟨_, h1⟩
    · exact absurd h1 hne
    · exact h1
  · intro h4
    induction hreach with
    | create cpy rel w w1 aom hc =>
      refine ⟨0, ?_⟩
      rw [(aomm_create_ret L num_ptrs cpy rel w w1 aom hn hc).2.2.1]
      unfold MIN_ALLOCATION
      simp only [Function.iterate_zero, id_eq]
      split_ifs <;> omega
    | call aom aom1 op w w1 r hr hop ih =>
      obtain ⟨k, hk⟩ := ih
      obtain ⟨arr, hv⟩ := reachable_valid L num_ptrs aom hn hr
      obtain ⟨_, _, hmax⟩ := run_op_ret L aom aom1 arr op w w1 r hv hop
      rcases hmax with h1 | ⟨_, h1⟩
      · exact ⟨k, by rw [h1, hk]⟩
      · exact ⟨k + 1, by rw [h1, hk, Function.iterate_succ_apply']⟩

/-- A concrete instance of the theorem for C16. -/
theorem aomm_add_growth_policy_witness :
    Reachable ok_libc 4 (added 3) ∧
    (aomm_add ok_libc (added 3) 8 80 ⟨3, []⟩ =
        .ret (true, added4) ⟨4, [Call.realloc 192 true, Call.blk_cpy 8 80 ⟨8, 103⟩]⟩ →
      added4.max_blk ≠ (added 3).max_blk → added4.max_blk = ((added 3).max_blk + 2) * 2) ∧
    ∃ k, (added 3).max_blk = (fun c => (c + 2) * 2)^[k] 4 :=
  ⟨added_reachable,
    (aomm_add_growth_policy ok_libc 4 (added 3) (by decide) added_reachable).1 8 80 ⟨3, []⟩ true
      added4 ⟨4, [Call.realloc 192 true, Call.blk_cpy 8 80 ⟨8, 103⟩]⟩,
    (aomm_add_growth_policy ok_libc 4 (added 3) (by decide) added_reachable).2.1 (by decide)⟩

/-- C17: in every state reachable from `aomm_create` by `aomm_add` and `aomm_set` calls that
returned, successfully or not, the length is at most the capacity (indeed one less), and no
returning call makes the capacity smaller than it was before the call. -/
theorem aomm_length_le_capacity (L : Libc σ) (num_ptrs : Nat) (aom : AoM_Managed σ)
    (hn : num_ptrs < SIZE_MOD) (hreach : Reachable L num_ptrs aom) :
    aom.num_blk ≤ aom.max_blk ∧ aom.num_blk + 1 ≤ aom.max_blk ∧
    ∀ op w r aom1 w1, run_op L aom op w = .ret (r, aom1) w1 →
      aom.max_blk ≤ aom1.max_blk := by
  obtain ⟨arr, hv⟩ := reachable_valid L num_ptrs aom hn hreach
  have hroom := hv.room
  refine ⟨by omega, hroom, ?_⟩
  intro op w r aom1 w1 h
  obtain ⟨_, _, hmax⟩ := run_op_ret L aom aom1 arr op w w1 r hv h
  rcases hmax with h1 | ⟨_, h1⟩ <;> omega

/-- A concrete instance of the theorem for C17. -/
theorem aomm_length_le_capacity_witness :
    Reachable ok_libc 4 (added 3) ∧ (added 3).num_blk ≤ (added 3).max_blk ∧
    (added 3).max_blk ≤ added4.max_blk :=
  ⟨added_reachable,
    (aomm_length_le_capacity ok_libc 4 (added 3) (by decide) added_reachable).1,
    (aomm_length_le_capacity ok_libc 4 (added 3) (by decide) added_reachable).2.2 (Op.add 8 80)
      ⟨3, []⟩ true added4 ⟨4, [Call.realloc 192 true, Call.blk_cpy 8 80 ⟨8, 103⟩]⟩ rfl⟩

/-- A list has at most one arrangement that is sorted by a relation: a permutation of `s`
that is sorted is `s` itself when no element of `s` may stand before an earlier one. -/
theorem perm_pairwise_unique {α : Type} (r : α → α → Bool) :
    ∀ (s l : List α), l.Perm s → l.Pairwise (fun a b => r a b = true) →
      s.Pairwise (fun a b => r b a = false) → l = s := by
  intro s
  induction s with
  | nil => intro l hp _ _; exact hp.eq_nil
  | cons a s ih =>
    intro l hp hl hs
    cases l with
    | nil => exact absurd hp.symm.eq_nil (by simp)
    | cons b l =>
      have hba : b = a := by
        by_contra hne
        have hb : b ∈ s := by
          have := hp.subset (List.mem_cons_self b l)
          simpa [hne] using this
        have ha : a ∈ l := by
          have := hp.symm.subset (List.mem_cons_self a s)
          simpa [Ne.symm hne] using this
        have h1 := (List.pairwise_cons.1 hl).1 a ha
        have h2 := (List.pairwise_cons.1 hs).1 b hb
        rw [h1] at h2
        cases h2
      subst hba
      rw [ih l ((List.perm_cons b).1 hp) (List.pairwise_cons.1 hl).2 (List.pairwise_cons.1 hs).2]

/-- The ten adds of the test program, evaluated. -/
theorem scenario_view :
    run_view (run_ops test_libc add_names
        ⟨0, 4, some (List.replicate 4 AoM_Block.empty), aomm_blk_copy, aomm_blk_free⟩
        ⟨{ test_mem [] with brk := 65640 }, [Call.malloc 40 true, Call.calloc 4 16 true]⟩) =
      some ⟨List.replicate 10 true, 10, 12, some element_slots, elements_mem⟩ := by
  decide!

/-- The call `aomm_create(4, aomm_blk_copy, aomm_blk_free)` of the test program. -/
theorem scenario_create :
    aomm_create test_libc 4 (some aomm_blk_copy) (some aomm_blk_free) ⟨test_mem [], []⟩ =
      .ret (some ⟨0, 4, some (List.replicate 4 AoM_Block.empty), aomm_blk_copy, aomm_blk_free⟩)
        ⟨{ test_mem [] with brk := 65640 }, [Call.malloc 40 true, Call.calloc 4 16 true]⟩ := rfl

/-- In `sorted_slots` no slot may stand before an earlier one: `aomm_cmp` is positive on
every pair taken in the reverse order. -/
theorem sorted_slots_strict :
    sorted_slots.Pairwise (fun a b => cmp_le elements_mem b a = false) := by
  decide!

/-- The sorted slots are a rearrangement of the ten live slots. -/
theorem sorted_slots_perm : (element_slots.take 10).Perm sorted_slots := by
  decide

/-- Visiting all ten slots in insertion order prints the records of `names` in order. -/
theorem scenario_fold_all :
    (slots_between element_slots 0 (range_end elements 0)).foldl
      (fun s p => aomm_applicator p.1 p.2 s) elements_mem = { elements_mem with out := names } := by
  decide!

/-- `aomm_item_copy` below the length: the copier is run on the stored block. -/
theorem aomm_item_copy_lt (aom : AoM_Managed σ) (arr : List AoM_Block) (index : Nat)
    (s : AoM_Block) (w : World σ) (hs : aom.blk_arr = some arr) (hi : index < aom.num_blk)
    (hget : arr[index]? = some s) :
    aomm_item_copy aom index w =
      .ret ((call_cpy aom.blk_cpy s.blk_size s.blk_data w).1, aom)
        (call_cpy aom.blk_cpy s.blk_size s.blk_data w).2 := by
  unfold aomm_item_copy
  simp [hs, hget, Nat.not_le.mpr hi]

/-- Visiting the slots 2 to 7 of the sorted storage prints the records C, Fl, H, He, Li, N. -/
theorem scenario_fold_sorted :
    (slots_between (sorted_slots ++ element_slots.drop 10) 2
        (range_end (rearranged (sorted_slots ++ element_slots.drop 10))
          (size_sub (aomm_length (rearranged (sorted_slots ++ element_slots.drop 10))) 2))).foldl
      (fun s p => aomm_applicator p.1 p.2 s) elements_mem =
    { elements_mem with out := [⟨6, "C", "Carbon"⟩, ⟨9, "Fl", "Fluorine"⟩, ⟨1, "H", "Hydrogen"⟩,
        ⟨2, "He", "Helium"⟩, ⟨3, "Li", "Lithium"⟩, ⟨7, "N", "Nitrogen"⟩] } := by
  decide!

/-- The copier run on a live slot of the sorted storage, in the memory after the ten adds,
returns a block of the same size whose data is a new record equal to the slot's record. -/
theorem scenario_copies :
    ∀ s ∈ sorted_slots,
      (aomm_blk_copy s.blk_size s.blk_data elements_mem).1.blk_size = s.blk_size ∧
      (aomm_blk_copy s.blk_size s.blk_data elements_mem).1.blk_data ≠ 0 ∧
      (aomm_blk_copy s.blk_size s.blk_data elements_mem).1.blk_data ≠ s.blk_data ∧
      (elements_mem.recs.lookup s.blk_data).isSome = true ∧
      (aomm_blk_copy s.blk_size s.blk_data elements_mem).2.recs.lookup
          (aomm_blk_copy s.blk_size s.blk_data elements_mem).1.blk_data =
        elements_mem.recs.lookup s.blk_data := by
  decide!

/-- The ten adds of the test program, run after its `aomm_create`, all return `true` and
leave the array `elements` in the memory `elements_mem`. -/
theorem scenario_run :
    ∃ steps w,
      run_ops test_libc add_names
        ⟨0, 4, some (List.replicate 4 AoM_Block.empty), aomm_blk_copy, aomm_blk_free⟩
        ⟨{ test_mem [] with brk := 65640 }, [Call.malloc 40 true, Call.calloc 4 16 true]⟩ =
        .ret (steps, elements) w ∧
      steps.map Step.ok = List.replicate 10 true ∧ w.st = elements_mem := by
  obtain ⟨steps, aomN, arrN, wN, t, hrun, -, hcpy, hrel, -⟩ :=
    run_ops_spec test_libc add_names
      ⟨0, 4, some (List.replicate 4 AoM_Block.empty), aomm_blk_copy, aomm_blk_free⟩
      (List.replicate 4 AoM_Block.empty)
      ⟨{ test_mem [] with brk := 65640 }, [Call.malloc 40 true, Call.calloc 4 16 true]⟩
      ⟨rfl, rfl, by decide, by decide⟩ (by decide) (by decide)
  have hview := scenario_view
  rw [hrun] at hview
  simp only [run_view, Option.some.injEq, RunView.mk.injEq] at hview
  obtain ⟨hok, hnum, hmax, harr, hmem⟩ := hview
  refine ⟨steps, wN, ?_, hok, hmem⟩
  rw [hrun]
  cases aomN
  simp only at hnum hmax harr hcpy hrel
  subst hnum hmax harr hcpy hrel
  rfl

/-- The slots `sorted_slots` are sorted by `aomm_cmp`. -/
theorem sorted_slots_sorted :
    ((sorted_slots ++ element_slots.drop 10).take 10).Pairwise
      (fun p1 p2 => cmp_le elements_mem p1 p2 = true) := by
  decide!

/-- C18: the scenario of the test program.  After `aomm_create(4, ...)` and the ten calls of
`aomm_add` on the records (1, H, Hydrogen), ..., (10, Ne, Neon) of `names`, every allocation
succeeding, all ten calls have returned `true`, the length is 10, and `aomm_apply` over the
whole range prints the ten records in insertion order.  For every rearrangement `arr` of the
storage reached through `aomm_base` that leaves the slots beyond the tenth alone, permutes the
ten live slots and is sorted by `aomm_cmp`, `aomm_apply` over `[2, length - 2)` prints exactly
the records 6, 9, 1, 2, 3, 7 (C, Fl, H, He, Li, N), in this order, and for every `i < 10`
`aomm_item_copy(i)` returns a block of the size of slot `i` whose data is a new record equal to
the record slot `i` points to. -/
theorem end_to_end_scenario (arr : List AoM_Block)
    (htail : arr.drop 10 = element_slots.drop 10)
    (hperm : (arr.take 10).Perm (element_slots.take 10))
    (hsort : (arr.take 10).Pairwise (fun p1 p2 => cmp_le elements_mem p1 p2 = true)) :
    ∃ aom0 w0 steps w,
      aomm_create test_libc 4 (some aomm_blk_copy) (some aomm_blk_free) ⟨test_mem [], []⟩ =
        .ret (some aom0) w0 ∧
      run_ops test_libc add_names aom0 w0 = .ret (steps, elements) w ∧
      steps.map Step.ok = List.replicate 10 true ∧ w.st = elements_mem ∧
      aomm_length elements = 10 ∧ aomm_base elements = some element_slots ∧
      aomm_apply elements 0 0 aomm_applicator w =
        .ret elements ⟨{ elements_mem with out := names }, w.trace⟩ ∧
      aomm_apply (rearranged arr) 2 (size_sub (aomm_length (rearranged arr)) 2)
          aomm_applicator w =
        .ret (rearranged arr)
          ⟨{ elements_mem with out := [⟨6, "C", "Carbon"⟩, ⟨9, "Fl", "Fluorine"⟩,
              ⟨1, "H", "Hydrogen"⟩, ⟨2, "He", "Helium"⟩, ⟨3, "Li", "Lithium"⟩,
              ⟨7, "N", "Nitrogen"⟩] }, w.trace⟩ ∧
      ∀ i, i < 10 → ∃ s r w1, arr[i]? = some s ∧
        aomm_item_copy (rearranged arr) i w = .ret (r, rearranged arr) w1 ∧
        r.blk_size = s.blk_size ∧ r.blk_data ≠ 0 ∧ r.blk_data ≠ s.blk_data ∧
        (w.st.recs.lookup s.blk_data).isSome = true ∧
        w1.st.recs.lookup r.blk_data = w.st.recs.lookup s.blk_data := by
  have harr : arr = sorted_slots ++ element_slots.drop 10 := by
    rw [← List.take_append_drop 10 arr, htail]
    refine congrArg (fun l => l ++ element_slots.drop 10) ?_
    exact perm_pairwise_unique (cmp_le elements_mem) sorted_slots (arr.take 10)
      (hperm.trans sorted_slots_perm) hsort sorted_slots_strict
  subst harr
  obtain ⟨steps, w, hrun, hok, hst⟩ := scenario_run
  obtain ⟨m, t⟩ := w
  simp only at hst
  subst hst
  refine ⟨_, _, steps, _, scenario_create, hrun, hok, rfl, rfl, rfl, ?_, ?_, ?_⟩
  · rw [aomm_apply_eq elements element_slots 0 0 _ _ rfl (by decide) (by decide) (by decide),
      scenario_fold_all]
  · rw [aomm_apply_eq (rearranged (sorted_slots ++ element_slots.drop 10))
      (sorted_slots ++ element_slots.drop 10) 2 _ _ _ rfl (by decide) (by decide) (by decide),
      scenario_fold_sorted]
  · intro i hi
    have hlt : i < sorted_slots.length := hi
    have hget : (sorted_slots ++ element_slots.drop 10)[i]? = some sorted_slots[i] := by
      rw [List.getElem?_append_left hlt, List.getElem?_eq_getElem hlt]
    obtain ⟨h1, h2, h3, h4, h5⟩ := scenario_copies sorted_slots[i] (List.getElem_mem hlt)
    exact ⟨sorted_slots[i], _, _, hget,
      aomm_item_copy_lt (rearranged (sorted_slots ++ element_slots.drop 10)) _ i _ _ rfl hi hget,
      h1, h2, h3, h4, h5⟩

/-- A concrete instance of the theorem for C18: the sorted storage itself. -/
theorem end_to_end_scenario_witness :
    (sorted_slots ++ element_slots.drop 10).drop 10 = element_slots.drop 10 ∧
    ((sorted_slots ++ element_slots.drop 10).take 10).Perm (element_slots.take 10) ∧
    ((sorted_slots ++ element_slots.drop 10).take 10).Pairwise
      (fun p1 p2 => cmp_le elements_mem p1 p2 = true) ∧
    ∃ w, w.st = elements_mem ∧
      aomm_apply elements 0 0 aomm_applicator w =
        .ret elements ⟨{ elements_mem with out := names }, w.trace⟩ ∧
      aomm_apply (rearranged (sorted_slots ++ element_slots.drop 10)) 2
          (size_sub (aomm_length (rearranged (sorted_slots ++ element_slots.drop 10))) 2)
          aomm_applicator w =
        .ret (rearranged (sorted_slots ++ element_slots.drop 10))
          ⟨{ elements_mem with out := [⟨6, "C", "Carbon"⟩, ⟨9, "Fl", "Fluorine"⟩,
              ⟨1, "H", "Hydrogen"⟩, ⟨2, "He", "Helium"⟩, ⟨3, "Li", "Lithium"⟩,
              ⟨7, "N", "Nitrogen"⟩] }, w.trace⟩ := by
  obtain ⟨_, _, _, w, _, _, _, hst, _, _, h1, h2, _⟩ :=
    end_to_end_scenario (sorted_slots ++ element_slots.drop 10) (by decide) (by decide)
      sorted_slots_sorted
  exact ⟨by decide, by decide, sorted_slots_sorted, w, hst, h1, h2⟩

/-- On a well-formed array `aomm_add` does not fail an assertion when its arguments pass
theirs. -/
theorem aomm_add_no_abort (L : Libc σ) (aom : AoM_Managed σ) (arr : List AoM_Block)
    (blk_size blk_data : Nat) (w w' : World σ) (hv : Valid aom arr)
    (hsize : blk_size ≠ 0) (hdata : blk_data ≠ 0) :
    aomm_add L aom blk_size blk_data w ≠ .abort w' := by
  have hroom := hv.room
  have hslots := hv.slots
  rw [aomm_add_eq L aom arr blk_size blk_data w hv hsize hdata]
  by_cases hg : aom.num_blk + 1 < aom.max_blk
  · rw [if_pos hg, aomm_add_store_eq aom arr blk_size blk_data w hv.storage (by omega)]
    intro h
    cases h
  · rw [if_neg hg]
    split
    · intro h
      cases h
    · rename_i fresh w2 heq
      by_cases hf : (aom.max_blk + 2) * 2 * sizeof_AoM_Block < SIZE_MOD
      · rw [if_pos hf, aomm_add_store_eq _ _ blk_size blk_data w2 rfl (by simp; omega)]
        intro h
        cases h
      · rw [if_neg hf]
        intro h
        cases h

/-- On a well-formed array `aomm_set` returns when its arguments pass their assertion. -/
theorem aomm_set_total (aom : AoM_Managed σ) (arr : List AoM_Block)
    (index blk_size blk_data : Nat) (w : World σ) (hv : Valid aom arr)
    (hsize : blk_size ≠ 0) (hdata : blk_data ≠ 0) :
    ∃ r aom1 w1, aomm_set aom index blk_size blk_data w = .ret (r, aom1) w1 := by
  rw [aomm_set_eq aom arr index blk_size blk_data w hv hsize hdata]
  split_ifs
  · exact ⟨_, _, _, rfl⟩
  · exact ⟨_, _, _, rfl⟩
  · exact ⟨_, _, _, rfl⟩

/-- A returning `aomm_add` on a well-formed array has called `realloc` exactly when one slot
was free. -/
theorem aomm_add_realloc_iff (L : Libc σ) (aom aom1 : AoM_Managed σ) (arr : List AoM_Block)
    (blk_size blk_data : Nat) (w w1 : World σ) (r : Bool) (hv : Valid aom arr)
    (h : aomm_add L aom blk_size blk_data w = .ret (r, aom1) w1) :
    (∃ bytes ok, Call.realloc bytes ok ∈ w1.trace.drop w.trace.length) ↔
      aom.num_blk + 1 = aom.max_blk := by
  obtain ⟨hsize, hdata⟩ := aomm_add_ret_args L aom aom1 blk_size blk_data w w1 r h
  rw [aomm_add_eq L aom arr blk_size blk_data w hv hsize hdata] at h
  have hroom := hv.room
  have hslots := hv.slots
  by_cases hg : aom.num_blk + 1 < aom.max_blk
  · rw [if_pos hg, aomm_add_store_eq aom arr blk_size blk_data w hv.storage (by omega)] at h
    simp only [Outcome.ret.injEq, Prod.mk.injEq] at h
    obtain ⟨_, hw⟩ := h
    subst hw
    constructor
    · rintro ⟨bytes, ok, hm⟩
      simp [call_cpy] at hm
    · intro he
      omega
  · rw [if_neg hg] at h
    have hfull : aom.num_blk + 1 = aom.max_blk := by omega
    refine ⟨fun _ => hfull, fun _ => ?_⟩
    split at h
    · rename_i w2 heq
      simp only [Outcome.ret.injEq, Prod.mk.injEq] at h
      obtain ⟨_, hw⟩ := h
      subst hw
      refine ⟨size_mul (size_mul (size_add aom.max_blk 2) 2) sizeof_AoM_Block, false, ?_⟩
      rw [call_realloc_trace L _ w _ _ heq]
      simp
    · rename_i fresh w2 heq
      by_cases hf : (aom.max_blk + 2) * 2 * sizeof_AoM_Block < SIZE_MOD
      swap
      · rw [if_neg hf] at h
        cases h
      rw [if_pos hf, aomm_add_store_eq _ _ blk_size blk_data w2 rfl (by simp; omega)] at h
      simp only [Outcome.ret.injEq, Prod.mk.injEq] at h
      obtain ⟨_, hw⟩ := h
      subst hw
      refine ⟨size_mul (size_mul (size_add aom.max_blk 2) 2) sizeof_AoM_Block, true, ?_⟩
      simp [call_cpy, call_realloc_trace L _ w _ _ heq]

/-- C22: one slot is always held in reserve.  On every array reachable from `aomm_create` by
`aomm_add` and `aomm_set` calls the length is at most the capacity minus one (and the capacity
is at least one); hence `aomm_add` and `aomm_set`, called with arguments that pass
`assert(blk_data != 0 && blk_size != 0)`, never fail an assertion, `aomm_set` returns, and
`aomm_add` returns when the growth that is due, if any, fits `size_t`; the slot at index
`capacity - 1` is not a live block (`aomm_item` gives the empty sentinel for it); and a call of
`aomm_add` that returns has called `realloc` exactly when the length was `capacity - 1` before
the call. -/
theorem aomm_reserve_slot (L : Libc σ) (num_ptrs : Nat) (aom : AoM_Managed σ)
    (hn : num_ptrs < SIZE_MOD) (hreach : Reachable L num_ptrs aom) :
    aomm_length aom ≤ aom.max_blk - 1 ∧ 1 ≤ aom.max_blk ∧
    (∀ blk_size blk_data w w', blk_size ≠ 0 → blk_data ≠ 0 →
      aomm_add L aom blk_size blk_data w ≠ .abort w') ∧
    (∀ index blk_size blk_data w, blk_size ≠ 0 → blk_data ≠ 0 →
      ∃ r aom1 w1, aomm_set aom index blk_size blk_data w = .ret (r, aom1) w1) ∧
    (∀ blk_size blk_data w, blk_size ≠ 0 → blk_data ≠ 0 →
      (aomm_length aom = aom.max_blk - 1 →
        (aom.max_blk + 2) * 2 * sizeof_AoM_Block < SIZE_MOD) →
      ∃ r aom1 w1, aomm_add L aom blk_size blk_data w = .ret (r, aom1) w1) ∧
    (∀ w, aomm_item aom (aom.max_blk - 1) w = .ret (AoM_Block.empty, aom) w) ∧
    (∀ blk_size blk_data w r aom1 w1,
      aomm_add L aom blk_size blk_data w = .ret (r, aom1) w1 →
      ((∃ bytes ok, Call.realloc bytes ok ∈ w1.trace.drop w.trace.length) ↔
        aomm_length aom = aom.max_blk - 1)) := by
  obtain ⟨arr, hv⟩ := reachable_valid L num_ptrs aom hn hreach
  have hroom := hv.room
  unfold aomm_length
  refine ⟨by omega, by omega, ?_, ?_, ?_, ?_, ?_⟩
  · intro blk_size blk_data w w' hsize hdata
    exact aomm_add_no_abort L aom arr blk_size blk_data w w' hv hsize hdata
  · intro index blk_size blk_data w hsize hdata
    exact aomm_set_total aom arr index blk_size blk_data w hv hsize hdata
  · intro blk_size blk_data w hsize hdata hfit
    exact aomm_add_total L aom arr blk_size blk_data w hv hsize hdata
      (fun hfull => hfit (by omega))
  · intro w
    exact aomm_item_ge aom _ w (by omega)
  · intro blk_size blk_data w r aom1 w1 h
    rw [aomm_add_realloc_iff L aom aom1 arr blk_size blk_data w w1 r hv h]
    omega

/-- A concrete instance of the theorem for C22. -/
theorem aomm_reserve_slot_witness :
    Reachable ok_libc 4 (added 3) ∧ aomm_length (added 3) ≤ (added 3).max_blk - 1 ∧
    aomm_item (added 3) 3 w0 = .ret (AoM_Block.empty, added 3) w0 ∧
    ((∃ bytes ok, Call.realloc bytes ok ∈
        ([Call.realloc 192 true, Call.blk_cpy 8 80 ⟨8, 103⟩] : List Call).drop 0) ↔
      aomm_length (added 3) = (added 3).max_blk - 1) :=
  ⟨added_reachable,
    (aomm_reserve_slot ok_libc 4 (added 3) (by decide) added_reachable).1,
    (aomm_reserve_slot ok_libc 4 (added 3) (by decide) added_reachable).2.2.2.2.2.1 w0,
    (aomm_reserve_slot ok_libc 4 (added 3) (by decide) added_reachable).2.2.2.2.2.2 8 80 ⟨3, []⟩
      true added4 ⟨4, [Call.realloc 192 true, Call.blk_cpy 8 80 ⟨8, 103⟩]⟩ rfl⟩

/-- C21: iteration is read-only.  On a range the assertion accepts, `aomm_apply` and
`aomm_apply_ctxt` return the array they were given, with its length, its capacity and every
slot of its storage as before, and the trace of outside calls is as before: neither the copier
nor `release` nor the allocator was called.  (A visitor of the model is handed the index and
the value of a slot and the outside state; it has no access to the array.) -/
theorem aomm_apply_read_only {κ : Type} (aom : AoM_Managed σ) (arr : List AoM_Block)
    (bos eos : Nat) (f : AoM_SimpleApply σ) (g : AoM_ContextApply σ κ) (c : κ) (w : World σ)
    (hs : aom.blk_arr = some arr) (hn : aom.num_blk ≤ arr.length)
    (hr : (eos = 0 ∧ bos ≤ aom.num_blk) ∨ (eos ≠ 0 ∧ bos ≤ eos ∧ eos ≤ aom.num_blk)) :
    ∃ aom1 w1 aom2 w2,
      aomm_apply aom bos eos f w = .ret aom1 w1 ∧
      aomm_apply_ctxt aom bos eos g c w = .ret aom2 w2 ∧
      aomm_length aom1 = aomm_length aom ∧ aom1.max_blk = aom.max_blk ∧
      aomm_base aom1 = some arr ∧ w1.trace = w.trace ∧
      aomm_length aom2 = aomm_length aom ∧ aom2.max_blk = aom.max_blk ∧
      aomm_base aom2 = some arr ∧ w2.trace = w.trace ∧
      aom1 = aom ∧ aom2 = aom := by
  have h12 : bos ≤ range_end aom eos ∧ range_end aom eos ≤ aom.num_blk := by
    unfold range_end
    rcases hr with ⟨h0, hb⟩ | ⟨h0, hb, he⟩
    · rw [if_pos h0]; exact ⟨hb, le_refl _⟩
    · rw [if_neg h0]; exact ⟨hb, he⟩
  have hc := aomm_apply_eq aom arr bos eos (fun j b t => g j b c t) w hs hn h12.1 h12.2
  rw [← aomm_apply_ctxt_eq] at hc
  exact ⟨aom, _, aom, _, aomm_apply_eq aom arr bos eos f w hs hn h12.1 h12.2, hc,
    rfl, rfl, hs, rfl, rfl, rfl, hs, rfl, rfl, rfl⟩

/-- A concrete instance of the theorem for C21. -/
theorem aomm_apply_read_only_witness :
    (two_blocks ok_cpy).blk_arr = some two_slots ∧
    ∃ w1 w2,
      aomm_apply (two_blocks ok_cpy) 0 0 count_visit w0 = .ret (two_blocks ok_cpy) w1 ∧
      aomm_apply_ctxt (two_blocks ok_cpy) 0 0 (fun _ _ c s => s + c) 5 w0 =
        .ret (two_blocks ok_cpy) w2 ∧
      w1.trace = [] ∧ w2.trace = [] := by
  obtain ⟨aom1, w1, aom2, w2, h1, h2, _, _, _, t1, _, _, _, t2, e1, e2⟩ :=
    aomm_apply_read_only (two_blocks ok_cpy) two_slots 0 0 count_visit (fun _ _ c s => s + c) 5
      w0 rfl (by decide) (Or.inl ⟨rfl, by decide⟩)
  subst e1 e2
  exact ⟨rfl, w1, w2, h1, h2, t1, t2⟩

/-- One returning call keeps the dead tail empty: on a well-formed array whose slots from the
length on are empty, with a copier that returns the empty sentinel whenever it returns null
data, the array after an `aomm_add` or `aomm_set` is well-formed, has the same copier, and its
slots from the new length on are empty. -/
theorem run_op_tail (L : Libc σ) (aom aom1 : AoM_Managed σ) (arr : List AoM_Block) (op : Op)
    (w w1 : World σ) (r : Bool) (hv : Valid aom arr)
    (ht : ∀ i, aom.num_blk ≤ i → i < aom.max_blk → arr[i]? = some AoM_Block.empty)
    (hcpy : ∀ blk_size blk_data s, (aom.blk_cpy blk_size blk_data s).1.blk_data = 0 →
      (aom.blk_cpy blk_size blk_data s).1 = AoM_Block.empty)
    (h : run_op L aom op w = .ret (r, aom1) w1) :
    ∃ arr1, Valid aom1 arr1 ∧ aom1.blk_cpy = aom.blk_cpy ∧
      ∀ i, aom1.num_blk ≤ i → i < aom1.max_blk → arr1[i]? = some AoM_Block.empty := by
  have key : ∀ (a : AoM_Managed σ) (arr0 : List AoM_Block) (blk_size blk_data : Nat)
      (v : World σ), Valid a arr0 → a.num_blk + 2 ≤ a.max_blk → a.blk_cpy = aom.blk_cpy →
      (∀ i, a.num_blk ≤ i → i < a.max_blk → arr0[i]? = some AoM_Block.empty) →
      aomm_add_store a blk_size blk_data v = .ret (r, aom1) w1 →
      ∃ arr1, Valid aom1 arr1 ∧ aom1.blk_cpy = aom.blk_cpy ∧
        ∀ i, aom1.num_blk ≤ i → i < aom1.max_blk → arr1[i]? = some AoM_Block.empty := by
    intro a arr0 blk_size blk_data v hva hroom2 hca hta hst
    have hroom := hva.room
    have hslots := hva.slots
    have hsz := hva.size_t
    rw [aomm_add_store_eq a arr0 blk_size blk_data v hva.storage (by omega)] at hst
    simp only [Outcome.ret.injEq, Prod.mk.injEq] at hst
    obtain ⟨⟨_, ha⟩, _⟩ := hst
    subst ha
    by_cases hb : (a.blk_cpy blk_size blk_data v.st).1.blk_data = 0
    · have he : (a.blk_cpy blk_size blk_data v.st).1 = AoM_Block.empty := by
        rw [hca] at hb ⊢
        exact hcpy _ _ _ hb
      refine ⟨arr0.set a.num_blk (a.blk_cpy blk_size blk_data v.st).1,
        ⟨rfl, by simp [hslots], ?_, hsz⟩, hca, ?_⟩
      · simp only [if_pos hb]
        exact hroom
      · simp only [if_pos hb]
        intro i h1 h2
        by_cases hi : i = a.num_blk
        · subst hi
          rw [List.getElem?_set_self (by omega), he]
        · rw [List.getElem?_set_ne (fun h => hi h.symm)]
          exact hta i h1 h2
    · have hnum : size_add a.num_blk 1 = a.num_blk + 1 := by
        unfold size_add
        exact Nat.mod_eq_of_lt (by omega)
      refine ⟨arr0.set a.num_blk (a.blk_cpy blk_size blk_data v.st).1,
        ⟨rfl, by simp [hslots], ?_, hsz⟩, hca, ?_⟩
      · simp only [if_neg hb, hnum]
        omega
      · simp only [if_neg hb, hnum]
        intro i h1 h2
        rw [List.getElem?_set_ne (by omega)]
        exact hta i (by omega) h2
  have hroom := hv.room
  have hslots := hv.slots
  cases op with
  | add blk_size blk_data =>
    change aomm_add L aom blk_size blk_data w = .ret (r, aom1) w1 at h
    obtain ⟨hsize, hdata⟩ := aomm_add_ret_args L aom aom1 blk_size blk_data w w1 r h
    rw [aomm_add_eq L aom arr blk_size blk_data w hv hsize hdata] at h
    by_cases hg : aom.num_blk + 1 < aom.max_blk
    · rw [if_pos hg] at h
      exact key aom arr blk_size blk_data w hv (by omega) rfl ht h
    · rw [if_neg hg] at h
      split at h
      · simp only [Outcome.ret.injEq, Prod.mk.injEq] at h
        obtain ⟨⟨_, ha⟩, _⟩ := h
        subst ha
        exact ⟨arr, hv, rfl, ht⟩
      · rename_i fresh w2 heq
        by_cases hf : (aom.max_blk + 2) * 2 * sizeof_AoM_Block < SIZE_MOD
        swap
        · rw [if_neg hf] at h
          cases h
        rw [if_pos hf] at h
        have hf16 : (aom.max_blk + 2) * 2 * 16 < 18446744073709551616 := by
          unfold sizeof_AoM_Block SIZE_MOD at hf
          exact hf
        refine key ⟨aom.num_blk, (aom.max_blk + 2) * 2, some (arr.take aom.num_blk ++
            List.replicate ((aom.max_blk + 2) * 2 - aom.num_blk) AoM_Block.empty),
            aom.blk_cpy, aom.blk_rel⟩ (arr.take aom.num_blk ++
          List.replicate ((aom.max_blk + 2) * 2 - aom.num_blk) AoM_Block.empty) blk_size blk_data
          w2 ⟨rfl, ?_, ?_, ?_⟩ ?_ rfl ?_ h
        · simp only [List.length_append, List.length_take, List.length_replicate]
          omega
        · show aom.num_blk + 1 ≤ (aom.max_blk + 2) * 2
          omega
        · show (aom.max_blk + 2) * 2 < SIZE_MOD
          unfold SIZE_MOD
          omega
        · show aom.num_blk + 2 ≤ (aom.max_blk + 2) * 2
          omega
        · intro i h1 h2
          change aom.num_blk ≤ i at h1
          change i < (aom.max_blk + 2) * 2 at h2
          have hl : (arr.take aom.num_blk).length = aom.num_blk := by
            simp only [List.length_take]
            omega
          rw [List.getElem?_append_right (by omega), hl, List.getElem?_replicate]
          rw [if_pos (by omega)]
  | set index blk_size blk_data =>
    change aomm_set aom index blk_size blk_data w = .ret (r, aom1) w1 at h
    obtain ⟨hsize, hdata⟩ := aomm_set_ret_args aom aom1 index blk_size blk_data w w1 r h
    rw [aomm_set_eq aom arr index blk_size blk_data w hv hsize hdata] at h
    split_ifs at h with h1 h2
    · simp only [Outcome.ret.injEq, Prod.mk.injEq] at h
      obtain ⟨⟨_, ha⟩, _⟩ := h
      subst ha
      exact ⟨arr, hv, rfl, ht⟩
    · simp only [Outcome.ret.injEq, Prod.mk.injEq] at h
      obtain ⟨⟨_, ha⟩, _⟩ := h
      subst ha
      exact ⟨arr, hv, rfl, ht⟩
    · simp only [Outcome.ret.injEq, Prod.mk.injEq] at h
      obtain ⟨⟨_, ha⟩, _⟩ := h
      subst ha
      refine ⟨arr.set index (aom.blk_cpy blk_size blk_data w.st).1,
        ⟨rfl, by simp [hslots], hroom, hv.size_t⟩, rfl, ?_⟩
      intro i hi1 hi2
      change aom.num_blk ≤ i at hi1
      rw [List.getElem?_set_ne (by omega)]
      exact ht i hi1 hi2

/-- Every reachable array whose copier returns the empty sentinel whenever it returns null data
is well-formed and has only empty slots from its length on. -/
theorem reachable_tail (L : Libc σ) (num_ptrs : Nat) (aom : AoM_Managed σ)
    (hn : num_ptrs < SIZE_MOD) (h : Reachable L num_ptrs aom) :
    (∀ blk_size blk_data s, (aom.blk_cpy blk_size blk_data s).1.blk_data = 0 →
      (aom.blk_cpy blk_size blk_data s).1 = AoM_Block.empty) →
    ∃ arr, Valid aom arr ∧
      ∀ i, aom.num_blk ≤ i → i < aom.max_blk → arr[i]? = some AoM_Block.empty := by
  induction h with
  | create cpy rel w w1 aom hc =>
    intro _
    obtain ⟨hv, _, _⟩ := aomm_create_ret L num_ptrs cpy rel w w1 aom hn hc
    refine ⟨_, hv, fun i _ hi => ?_⟩
    rw [List.getElem?_replicate, if_pos hi]
  | call aom aom1 op w w1 r hr hop ih =>
    intro hcpy
    have hsame : aom1.blk_cpy = aom.blk_cpy := by
      obtain ⟨arr, hv⟩ := reachable_valid L num_ptrs aom hn hr
      cases op with
      | add blk_size blk_data =>
        rcases aomm_add_ret L aom aom1 arr blk_size blk_data w w1 r hv hop with
          ⟨_, ha, _, _⟩ | ⟨b, arr1, t, hv1, hc, _⟩
        · rw [ha]
        · exact hc
      | set index blk_size blk_data =>
        change aomm_set aom index blk_size blk_data w = .ret (r, aom1) w1 at hop
        obtain ⟨hsize, hdata⟩ := aomm_set_ret_args aom aom1 index blk_size blk_data w w1 r hop
        rw [aomm_set_eq aom arr index blk_size blk_data w hv hsize hdata] at hop
        split_ifs at hop <;>
          (simp only [Outcome.ret.injEq, Prod.mk.injEq] at hop
           obtain ⟨⟨_, ha⟩, _⟩ := hop
           subst ha
           rfl)
    rw [hsame] at hcpy
    obtain ⟨arr, hv, ht⟩ := ih hcpy
    obtain ⟨arr1, hv1, _, ht1⟩ := run_op_tail L aom aom1 arr op w w1 r hv ht hcpy hop
    exact ⟨arr1, hv1, ht1⟩

/-- C23: the dead tail is always empty.  On every array reachable from `aomm_create` by
`aomm_add` and `aomm_set` calls, when the copier returns the empty sentinel whenever it returns
null data, the storage `aomm_base` gives has as many slots as the capacity, and every slot at
an index from the length up to the capacity is the empty sentinel (size 0, null data): so
every slot of the storage is a live block or the empty sentinel. -/
theorem aomm_dead_tail_empty (L : Libc σ) (num_ptrs : Nat) (aom : AoM_Managed σ)
    (hn : num_ptrs < SIZE_MOD) (hreach : Reachable L num_ptrs aom)
    (hcpy : ∀ blk_size blk_data s, (aom.blk_cpy blk_size blk_data s).1.blk_data = 0 →
      (aom.blk_cpy blk_size blk_data s).1 = AoM_Block.empty) :
    ∃ arr, aomm_base aom = some arr ∧ arr.length = aom.max_blk ∧
      aomm_length aom ≤ aom.max_blk ∧
      (∀ i, aomm_length aom ≤ i → i < aom.max_blk →
        arr[i]? = some { blk_size := 0, blk_data := 0 }) ∧
      ∀ i, i < arr.length → i < aomm_length aom ∨ arr[i]? = some AoM_Block.empty := by
  obtain ⟨arr, hv, ht⟩ := reachable_tail L num_ptrs aom hn hreach hcpy
  have hroom := hv.room
  refine ⟨arr, hv.storage, hv.slots, ?_, ht, fun i hi => ?_⟩
  · unfold aomm_length
    omega
  · by_cases hlt : i < aomm_length aom
    · exact Or.inl hlt
    · exact Or.inr (ht i (by unfold aomm_length at hlt; omega) (by rw [← hv.slots]; exact hi))

/-- The copier `flaky_cpy` returns the empty sentinel whenever it returns null data. -/
theorem flaky_cpy_sentinel (blk_size blk_data s : Nat)
    (h : (flaky_cpy blk_size blk_data s).1.blk_data = 0) :
    (flaky_cpy blk_size blk_data s).1 = AoM_Block.empty := by
  unfold flaky_cpy at h ⊢
  dsimp only at h ⊢
  split_ifs at h ⊢ with h3
  · rfl
  · dsimp only at h
    omega

/-- The array `created` is reachable, also by an `aomm_add` whose copier call failed. -/
theorem created_reachable : Reachable ok_libc 0 created :=
  .call created created (Op.add 8 80) ⟨2, []⟩ ⟨3, [Call.blk_cpy 8 80 AoM_Block.empty]⟩ false
    (.create flaky_cpy ok_rel w0 w_created created rfl) rfl

/-- A concrete instance of the theorem for C23. -/
theorem aomm_dead_tail_empty_witness :
    Reachable ok_libc 0 created ∧
    (∀ blk_size blk_data s, (created.blk_cpy blk_size blk_data s).1.blk_data = 0 →
      (created.blk_cpy blk_size blk_data s).1 = AoM_Block.empty) ∧
    ∃ arr, aomm_base created = some arr ∧ arr.length = created.max_blk ∧
      aomm_length created ≤ created.max_blk ∧
      (∀ i, aomm_length created ≤ i → i < created.max_blk →
        arr[i]? = some { blk_size := 0, blk_data := 0 }) ∧
      ∀ i, i < arr.length → i < aomm_length created ∨ arr[i]? = some AoM_Block.empty :=
  ⟨created_reachable, flaky_cpy_sentinel,
    aomm_dead_tail_empty ok_libc 0 created (by decide) created_reachable flaky_cpy_sentinel⟩

/-- Swapping the arguments of `strcmp` negates its result. -/
theorem strcmp_bytes_swap : ∀ (a b : List Nat), strcmp_bytes b a = - strcmp_bytes a b := by
  intro a
  induction a with
  | nil =>
    intro b
    cases b with
    | nil => simp [strcmp_bytes]
    | cons y bs => simp [strcmp_bytes]
  | cons x as ih =>
    intro b
    cases b with
    | nil => simp [strcmp_bytes]
    | cons y bs =>
      simp only [strcmp_bytes]
      by_cases h : x = y
      · subst h
        simp only [if_true]
        exact ih bs
      · rw [if_neg h, if_neg (fun e => h e.symm)]
        omega

/-- On strings without null bytes `strcmp` returns `0` exactly for equal strings. -/
theorem strcmp_bytes_eq_zero : ∀ (a b : List Nat), (∀ x ∈ a, x ≠ 0) → (∀ x ∈ b, x ≠ 0) →
    (strcmp_bytes a b = 0 ↔ a = b) := by
  intro a
  induction a with
  | nil =>
    intro b _ hb
    cases b with
    | nil => simp [strcmp_bytes]
    | cons y bs =>
      have hy : y ≠ 0 := hb y (List.mem_cons_self y bs)
      simp only [strcmp_bytes]
      constructor
      · intro h
        omega
      · intro h
        cases h
  | cons x as ih =>
    intro b ha hb
    have hx : x ≠ 0 := ha x (List.mem_cons_self x as)
    cases b with
    | nil =>
      simp only [strcmp_bytes]
      constructor
      · intro h
        omega
      · intro h
        cases h
    | cons y bs =>
      simp only [strcmp_bytes]
      by_cases h : x = y
      · subst h
        simp only [if_true]
        rw [ih bs (fun z hz => ha z (List.mem_cons_of_mem x hz))
          (fun z hz => hb z (List.mem_cons_of_mem x hz))]
        simp
      · rw [if_neg h]
        constructor
        · intro h0
          omega
        · intro he
          cases he
          exact absurd rfl h

/-- On strings without null bytes the order `strcmp` gives is transitive. -/
theorem strcmp_bytes_trans : ∀ (a b c : List Nat), (∀ x ∈ a, x ≠ 0) → (∀ x ∈ b, x ≠ 0) →
    strcmp_bytes a b ≤ 0 → strcmp_bytes b c ≤ 0 → strcmp_bytes a c ≤ 0 := by
  intro a
  induction a with
  | nil =>
    intro b c _ _ _ _
    cases c with
    | nil => simp [strcmp_bytes]
    | cons z cs =>
      simp only [strcmp_bytes]
      omega
  | cons x as ih =>
    intro b c ha hb hab hbc
    have hx : x ≠ 0 := ha x (List.mem_cons_self x as)
    cases b with
    | nil =>
      simp only [strcmp_bytes] at hab
      omega
    | cons y bs =>
      have hy : y ≠ 0 := hb y (List.mem_cons_self y bs)
      cases c with
      | nil =>
        simp only [strcmp_bytes] at hbc
        omega
      | cons z cs =>
        simp only [strcmp_bytes] at hab hbc ⊢
        by_cases h1 : x = y
        · subst h1
          simp only [if_true] at hab
          by_cases h2 : x = z
          · subst h2
            simp only [if_true] at hbc ⊢
            exact ih bs cs (fun z hz => ha z (List.mem_cons_of_mem x hz))
              (fun z hz => hb z (List.mem_cons_of_mem x hz)) hab hbc
          · rw [if_neg h2] at hbc ⊢
            exact hbc
        · rw [if_neg h1] at hab
          by_cases h2 : y = z
          · subst h2
            rw [if_neg h1]
            exact hab
          · rw [if_neg h2] at hbc
            rw [if_neg (by omega)]
            omega

/-- On strings without null bytes `strcmp` is negative exactly when the first string is
before the second in the byte-wise order. -/
theorem strcmp_bytes_neg : ∀ (a b : List Nat), (∀ x ∈ a, x ≠ 0) → (∀ x ∈ b, x ≠ 0) →
    (strcmp_bytes a b < 0 ↔ bytes_lt a b) := by
  intro a
  induction a with
  | nil =>
    intro b _ hb
    cases b with
    | nil =>
      simp only [strcmp_bytes, bytes_lt]
      constructor
      · intro h
        omega
      · rintro ⟨i, hi, _⟩
        simp at hi
    | cons y bs =>
      have hy : y ≠ 0 := hb y (List.mem_cons_self y bs)
      simp only [strcmp_bytes, bytes_lt]
      constructor
      · intro _
        exact ⟨0, by simp, fun j hj => by omega, by simp; omega⟩
      · intro _
        omega
  | cons x as ih =>
    intro b ha hb
    have hx : x ≠ 0 := ha x (List.mem_cons_self x as)
    cases b with
    | nil =>
      simp only [strcmp_bytes, bytes_lt]
      constructor
      · intro h
        omega
      · rintro ⟨i, hi, _⟩
        simp at hi
    | cons y bs =>
      have ih1 := ih bs (fun z hz => ha z (List.mem_cons_of_mem x hz))
        (fun z hz => hb z (List.mem_cons_of_mem y hz))
      simp only [strcmp_bytes]
      by_cases h : x = y
      · subst h
        simp only [if_true]
        rw [ih1]
        unfold bytes_lt
        constructor
        · rintro ⟨i, hi, hpre, hlt⟩
          refine ⟨i + 1, by simpa using hi, ?_, by simpa using hlt⟩
          intro j hj
          cases j with
          | zero => simp
          | succ j => simpa using hpre j (by omega)
        · rintro ⟨i, hi, hpre, hlt⟩
          cases i with
          | zero => simp at hlt
          | succ i =>
            refine ⟨i, by simpa using hi, ?_, by simpa using hlt⟩
            intro j hj
            simpa using hpre (j + 1) (by omega)
      · rw [if_neg h]
        unfold bytes_lt
        constructor
        · intro hlt
          exact ⟨0, by simp, fun j hj => by omega, by simp; omega⟩
        · rintro ⟨i, hi, hpre, hlt⟩
          cases i with
          | zero =>
            simp at hlt
            omega
          | succ i =>
            have := hpre 0 (by omega)
            simp at this
            exact absurd this h

/-- Two characters with the same code are equal. -/
theorem char_inj (c1 c2 : Char) (h : c1.toNat = c2.toNat) : c1 = c2 := by
  apply Char.ext
  apply UInt32.ext
  exact h

/-- The function `aomm_cmp` on two blocks that point to records. -/
theorem aomm_cmp_eq (m : TestMem) (p1 p2 : AoM_Block) (a b : NoneSuch)
    (h1 : m.recs.lookup p1.blk_data = some a) (h2 : m.recs.lookup p2.blk_data = some b) :
    aomm_cmp m p1 p2 = some (compare_records a b) := by
  unfold aomm_cmp compare_records
  rw [h1, h2]
  dsimp only
  split_ifs <;> rfl

/-- The bytes of a C string are not null. -/
theorem c_string_bytes (s : String) (h : c_string s) :
    ∀ x ∈ s.toList.map Char.toNat, x ≠ 0 := by
  intro x hx
  obtain ⟨ch, hch, rfl⟩ := List.mem_map.1 hx
  exact h ch hch

/-- Two strings with the same bytes are equal. -/
theorem bytes_inj (s1 s2 : String)
    (h : s1.toList.map Char.toNat = s2.toList.map Char.toNat) : s1 = s2 := by
  apply String.ext
  exact List.map_injective_iff.2 (fun c1 c2 hc => char_inj c1 c2 hc) h

/-- `strcmp` returns `0` exactly for equal C strings. -/
theorem strcmp_eq_zero (s1 s2 : String) (h1 : c_string s1) (h2 : c_string s2) :
    strcmp s1 s2 = 0 ↔ s1 = s2 := by
  unfold strcmp
  rw [strcmp_bytes_eq_zero _ _ (c_string_bytes s1 h1) (c_string_bytes s2 h2)]
  exact ⟨bytes_inj s1 s2, fun h => by rw [h]⟩

/-- Swapping the records negates the result of the comparison. -/
theorem compare_records_swap (a b : NoneSuch) :
    compare_records b a = - compare_records a b := by
  unfold compare_records strcmp
  dsimp only
  rw [strcmp_bytes_swap (a.name.toList.map Char.toNat) (b.name.toList.map Char.toNat),
    strcmp_bytes_swap (a.value.toList.map Char.toNat) (b.value.toList.map Char.toNat)]
  split_ifs <;> omega

/-- The comparison is `0` exactly for records with equal members. -/
theorem compare_records_eq_zero (a b : NoneSuch) (ha : c_string a.name ∧ c_string a.value)
    (hb : c_string b.name ∧ c_string b.value) :
    compare_records a b = 0 ↔ a.name = b.name ∧ a.value = b.value ∧ a.number = b.number := by
  have hn := strcmp_eq_zero a.name b.name ha.1 hb.1
  have hv := strcmp_eq_zero a.value b.value ha.2 hb.2
  unfold compare_records
  dsimp only
  by_cases h1 : strcmp a.name b.name = 0
  · rw [if_neg (by simpa using h1)]
    by_cases h2 : strcmp a.value b.value = 0
    · rw [if_neg (by simpa using h2)]
      constructor
      · intro h
        refine ⟨hn.1 h1, hv.1 h2, ?_⟩
        split_ifs at h <;> omega
      · rintro ⟨_, _, h3⟩
        rw [h3]
        simp
    · rw [if_pos h2]
      exact ⟨fun h => absurd h h2, fun ⟨_, h, _⟩ => absurd (hv.2 h) h2⟩
  · rw [if_pos h1]
    exact ⟨fun h => absurd h h1, fun ⟨h, _⟩ => absurd (hn.2 h) h1⟩

/-- The sign of the comparison is the sign of the lexicographic order. -/
theorem compare_records_sign (a b : NoneSuch) (ha : c_string a.name ∧ c_string a.value)
    (hb : c_string b.name ∧ c_string b.value) :
    Int.sign (compare_records a b) = lexicographic_sign a b := by
  have han := c_string_bytes a.name ha.1
  have hav := c_string_bytes a.value ha.2
  have hbn := c_string_bytes b.name hb.1
  have hbv := c_string_bytes b.value hb.2
  have n1 := strcmp_bytes_neg _ _ han hbn
  have n2 := strcmp_bytes_neg _ _ hbn han
  have v1 := strcmp_bytes_neg _ _ hav hbv
  have v2 := strcmp_bytes_neg _ _ hbv hav
  rw [strcmp_bytes_swap (a.name.toList.map Char.toNat) (b.name.toList.map Char.toNat)] at n2
  rw [strcmp_bytes_swap (a.value.toList.map Char.toNat) (b.value.toList.map Char.toNat)] at v2
  unfold compare_records lexicographic_sign strcmp
  dsimp only
  generalize strcmp_bytes (a.name.toList.map Char.toNat) (b.name.toList.map Char.toNat) = sn
    at n1 n2 ⊢
  generalize strcmp_bytes (a.value.toList.map Char.toNat) (b.value.toList.map Char.toNat) = sv
    at v1 v2 ⊢
  rcases Int.lt_trichotomy sn 0 with hn | hn | hn
  · have hne : sn ≠ 0 := by omega
    rw [if_pos hne, if_pos (n1.1 hn)]
    exact Int.sign_eq_neg_one_of_neg hn
  · have hne : ¬ sn ≠ 0 := by omega
    have p1 : ¬ bytes_lt (a.name.toList.map Char.toNat) (b.name.toList.map Char.toNat) :=
      fun h => by have := n1.2 h; omega
    have p2 : ¬ bytes_lt (b.name.toList.map Char.toNat) (a.name.toList.map Char.toNat) :=
      fun h => by have := n2.2 h; omega
    rw [if_neg hne, if_neg p1, if_neg p2]
    rcases Int.lt_trichotomy sv 0 with hv | hv | hv
    · have hve : sv ≠ 0 := by omega
      rw [if_pos hve, if_pos (v1.1 hv)]
      exact Int.sign_eq_neg_one_of_neg hv
    · have hve : ¬ sv ≠ 0 := by omega
      have q1 : ¬ bytes_lt (a.value.toList.map Char.toNat) (b.value.toList.map Char.toNat) :=
        fun h => by have := v1.2 h; omega
      have q2 : ¬ bytes_lt (b.value.toList.map Char.toNat) (a.value.toList.map Char.toNat) :=
        fun h => by have := v2.2 h; omega
      rw [if_neg hve, if_neg q1, if_neg q2]
      rcases Int.lt_trichotomy a.number b.number with hk | hk | hk
      · have g : ¬ a.number > b.number := by omega
        rw [if_neg g, if_pos hk, if_pos hk]
        rfl
      · have g : ¬ a.number > b.number := by omega
        have l : ¬ a.number < b.number := by omega
        have l2 : ¬ b.number < a.number := by omega
        rw [if_neg g, if_neg l, if_neg l]
        rfl
      · have g : a.number > b.number := hk
        have l : ¬ a.number < b.number := by omega
        rw [if_pos g, if_neg l, if_neg l]
        rfl
    · have hve : sv ≠ 0 := by omega
      have q1 : ¬ bytes_lt (a.value.toList.map Char.toNat) (b.value.toList.map Char.toNat) :=
        fun h => by have := v1.2 h; omega
      rw [if_pos hve, if_neg q1, if_pos (v2.1 (by omega))]
      exact Int.sign_eq_one_of_pos hv
  · have hne : sn ≠ 0 := by omega
    have p1 : ¬ bytes_lt (a.name.toList.map Char.toNat) (b.name.toList.map Char.toNat) :=
      fun h => by have := n1.2 h; omega
    rw [if_pos hne, if_neg p1, if_pos (n2.1 (by omega))]
    exact Int.sign_eq_one_of_pos hn

/-- One level of a lexicographic comparison: when the first keys order three things
consistently, and the second keys do so among things with equal first keys, then "first key,
or else second key" orders them transitively. -/
theorem lex_level (sab sbc sac tab tbc tac : Int)
    (h1 : sab = 0 → sac = sbc) (h2 : sbc = 0 → sac = sab)
    (h3 : sab < 0 → sbc < 0 → sac < 0)
    (ht : sab = 0 → sbc = 0 → tab ≤ 0 → tbc ≤ 0 → tac ≤ 0)
    (hab : (if sab ≠ 0 then sab else tab) ≤ 0) (hbc : (if sbc ≠ 0 then sbc else tbc) ≤ 0) :
    (if sac ≠ 0 then sac else tac) ≤ 0 := by
  by_cases e1 : sab = 0
  · have f1 := h1 e1
    by_cases e2 : sbc = 0
    · have f2 := h2 e2
      have g1 : ¬ sab ≠ 0 := by omega
      have g2 : ¬ sbc ≠ 0 := by omega
      have g3 : ¬ sac ≠ 0 := by omega
      rw [if_neg g1] at hab
      rw [if_neg g2] at hbc
      rw [if_neg g3]
      exact ht e1 e2 hab hbc
    · rw [if_pos e2] at hbc
      have g3 : sac ≠ 0 := by omega
      rw [if_pos g3]
      omega
  · rw [if_pos e1] at hab
    by_cases e2 : sbc = 0
    · have f2 := h2 e2
      have g3 : sac ≠ 0 := by omega
      rw [if_pos g3]
      omega
    · rw [if_pos e2] at hbc
      have f3 := h3 (by omega) (by omega)
      have g3 : sac ≠ 0 := by omega
      rw [if_pos g3]
      omega

/-- The order `strcmp` gives to three C strings is consistent. -/
theorem strcmp_order (s1 s2 s3 : String) (c1 : c_string s1) (c2 : c_string s2)
    (c3 : c_string s3) :
    (strcmp s1 s2 = 0 → strcmp s1 s3 = strcmp s2 s3) ∧
    (strcmp s2 s3 = 0 → strcmp s1 s3 = strcmp s1 s2) ∧
    (strcmp s1 s2 < 0 → strcmp s2 s3 < 0 → strcmp s1 s3 < 0) := by
  refine ⟨fun h => ?_, fun h => ?_, fun h12 h23 => ?_⟩
  · rw [(strcmp_eq_zero s1 s2 c1 c2).1 h]
  · rw [(strcmp_eq_zero s2 s3 c2 c3).1 h]
  · have hle : strcmp s1 s3 ≤ 0 := by
      unfold strcmp at h12 h23 ⊢
      exact strcmp_bytes_trans _ _ _ (c_string_bytes s1 c1) (c_string_bytes s2 c2)
        (by omega) (by omega)
    have hne : strcmp s1 s3 ≠ 0 := by
      intro h0
      have e := (strcmp_eq_zero s1 s3 c1 c3).1 h0
      subst e
      have hs : strcmp s2 s1 = - strcmp s1 s2 := by
        unfold strcmp
        exact strcmp_bytes_swap _ _
      omega
    omega

/-- The order `aomm_cmp` gives to records is transitive. -/
theorem compare_records_trans (a b c : NoneSuch) (ha : c_string a.name ∧ c_string a.value)
    (hb : c_string b.name ∧ c_string b.value) (hc : c_string c.name ∧ c_string c.value)
    (hab : compare_records a b ≤ 0) (hbc : compare_records b c ≤ 0) :
    compare_records a c ≤ 0 := by
  obtain ⟨n1, n2, n3⟩ := strcmp_order a.name b.name c.name ha.1 hb.1 hc.1
  obtain ⟨v1, v2, v3⟩ := strcmp_order a.value b.value c.value ha.2 hb.2 hc.2
  unfold compare_records at hab hbc ⊢
  dsimp only at hab hbc ⊢
  refine lex_level _ _ _ _ _ _ n1 n2 n3 (fun _ _ hab1 hbc1 => ?_) hab hbc
  refine lex_level _ _ _ _ _ _ v1 v2 v3 (fun _ _ hab2 hbc2 => ?_) hab1 hbc1
  split_ifs at hab2 hbc2 ⊢ <;> omega

/-- C24: `aomm_cmp` is a valid sort comparator implementing the lexicographic order on
`(name, value, number)`.  On blocks that point to records `a`, `b`, `c` whose names and values
are C strings, `aomm_cmp` returns; the sign of `aomm_cmp(a, b)` is the sign the lexicographic
order gives (byte-wise order of the names, or for equal names of the values, or for equal
values too the signed order of the numbers); `aomm_cmp(a, b) = 0` exactly when the three
members are equal; the sign of `aomm_cmp(b, a)` is the opposite of that of `aomm_cmp(a, b)`;
and `aomm_cmp(a, b) <= 0` with `aomm_cmp(b, c) <= 0` gives `aomm_cmp(a, c) <= 0`. -/
theorem aomm_cmp_lexicographic (m : TestMem) (p1 p2 p3 : AoM_Block) (a b c : NoneSuch)
    (h1 : m.recs.lookup p1.blk_data = some a) (h2 : m.recs.lookup p2.blk_data = some b)
    (h3 : m.recs.lookup p3.blk_data = some c)
    (ha : c_string a.name ∧ c_string a.value) (hb : c_string b.name ∧ c_string b.value)
    (hc : c_string c.name ∧ c_string c.value) :
    ∃ rab rba rbc rac,
      aomm_cmp m p1 p2 = some rab ∧ aomm_cmp m p2 p1 = some rba ∧
      aomm_cmp m p2 p3 = some rbc ∧ aomm_cmp m p1 p3 = some rac ∧
      Int.sign rab = lexicographic_sign a b ∧
      (rab = 0 ↔ a.name = b.name ∧ a.value = b.value ∧ a.number = b.number) ∧
      Int.sign rba = - Int.sign rab ∧
      (rab ≤ 0 → rbc ≤ 0 → rac ≤ 0) := by
  refine ⟨_, _, _, _, aomm_cmp_eq m p1 p2 a b h1 h2, aomm_cmp_eq m p2 p1 b a h2 h1,
    aomm_cmp_eq m p2 p3 b c h2 h3, aomm_cmp_eq m p1 p3 a c h1 h3,
    compare_records_sign a b ha hb, compare_records_eq_zero a b ha hb, ?_,
    compare_records_trans a b c ha hb hc⟩
  rw [compare_records_swap a b, Int.sign_neg]

/-- A concrete instance of the theorem for C24: the records H, He and Li of the test
program. -/
theorem aomm_cmp_lexicographic_witness :
    (test_mem []).recs.lookup (names_addr 0) = some ⟨1, "H", "Hydrogen"⟩ ∧
    (test_mem []).recs.lookup (names_addr 1) = some ⟨2, "He", "Helium"⟩ ∧
    (test_mem []).recs.lookup (names_addr 2) = some ⟨3, "Li", "Lithium"⟩ ∧
    ∃ rab rba rbc rac,
      aomm_cmp (test_mem []) ⟨24, names_addr 0⟩ ⟨24, names_addr 1⟩ = some rab ∧
      aomm_cmp (test_mem []) ⟨24, names_addr 1⟩ ⟨24, names_addr 0⟩ = some rba ∧
      aomm_cmp (test_mem []) ⟨24, names_addr 1⟩ ⟨24, names_addr 2⟩ = some rbc ∧
      aomm_cmp (test_mem []) ⟨24, names_addr 0⟩ ⟨24, names_addr 2⟩ = some rac ∧
      Int.sign rab = -1 ∧ rab ≠ 0 ∧ Int.sign rba = - Int.sign rab ∧
      (rab ≤ 0 → rbc ≤ 0 → rac ≤ 0) := by
  obtain ⟨rab, rba, rbc, rac, e1, e2, e3, e4, hs, hz, hsw, htr⟩ :=
    aomm_cmp_lexicographic (test_mem []) ⟨24, names_addr 0⟩ ⟨24, names_addr 1⟩
      ⟨24, names_addr 2⟩ ⟨1, "H", "Hydrogen"⟩ ⟨2, "He", "Helium"⟩ ⟨3, "Li", "Lithium"⟩
      (by decide) (by decide) (by decide) (by decide) (by decide) (by decide)
  refine ⟨by decide, by decide, by decide, rab, rba, rbc, rac, e1, e2, e3, e4, ?_, ?_, hsw, htr⟩
  · rw [hs]
    decide
  · intro h0
    have := hz.1 h0
    revert this
    decide

end Aomm

/-! ## The primality tests: lemmas and claims -/

namespace Primes

/-- What the trial loop returns when its counter cannot wrap: below `lo` nothing is asked,
the test `cond` fails just beyond the bound `B` and is downward closed up to `B`. -/
theorem trial_loop_spec (cond hit : Nat → Bool) (step B lo : Nat) (hstep : 0 < step)
    (hwrap : B + step < UINT_MOD)
    (hB : ∀ j, B < j → j ≤ B + step → cond j = false)
    (hmono : ∀ j, lo ≤ j → j + step ≤ B → cond (j + step) = true → cond j = true) :
    ∀ fuel i, lo ≤ i → i ≤ B + step → B + step < i + fuel →
      ∃ r, trial_loop cond hit step fuel i = some r ∧ (r = 0 ∨ r = 1) ∧
        (r = 0 ↔ ∃ k, i + k * step ≤ B ∧ cond (i + k * step) = true ∧
          hit (i + k * step) = true) := by
  have hdown : ∀ k i, lo ≤ i → i + k * step ≤ B → cond (i + k * step) = true →
      cond i = true := by
    intro k
    induction k with
    | zero => intro i _ _ h; simpa using h
    | succ k ih =>
      intro i hlo hle h
      have e : i + (k + 1) * step = (i + k * step) + step := by ring
      rw [e] at h hle
      exact ih i hlo (by omega) (hmono _ (by omega) hle h)
  intro fuel
  induction fuel with
  | zero => intro i _ h1 h2; omega
  | succ fuel ih =>
    intro i hlo h1 h2
    simp only [trial_loop]
    by_cases hc : cond i = true
    · have hiB : i ≤ B := by
        by_contra hcon
        rw [hB i (by omega) h1] at hc
        cases hc
      rw [if_pos hc]
      by_cases hh : hit i = true
      · rw [if_pos hh]
        exact ⟨0, rfl, Or.inl rfl, fun _ => ⟨0, by simpa using hiB, by simpa using hc,
          by simpa using hh⟩, fun _ => rfl⟩
      · rw [if_neg hh]
        have hu : uadd i step = i + step := by
          unfold uadd
          exact Nat.mod_eq_of_lt (by omega)
        rw [hu]
        obtain ⟨r, hr, h01, hiff⟩ := ih (i + step) (by omega) (by omega) (by omega)
        refine ⟨r, hr, h01, hiff.trans ⟨?_, ?_⟩⟩
        · rintro ⟨k, hk1, hk2, hk3⟩
          refine ⟨k + 1, ?_, ?_, ?_⟩ <;>
          · have e : i + (k + 1) * step = i + step + k * step := by ring
            rw [e]
            assumption
        · rintro ⟨k, hk1, hk2, hk3⟩
          cases k with
          | zero =>
            simp only [Nat.zero_mul, Nat.add_zero] at hk3
            exact absurd hk3 hh
          | succ k =>
            have e : i + (k + 1) * step = i + step + k * step := by ring
            rw [e] at hk1 hk2 hk3
            exact ⟨k, hk1, hk2, hk3⟩
    · rw [if_neg hc]
      refine ⟨1, rfl, Or.inr rfl, ⟨fun h => by omega, ?_⟩⟩
      rintro ⟨k, hk1, hk2, _⟩
      exact absurd (hdown k i hlo hk1 hk2) hc

/-- A result that is `0` exactly for the non-primes and otherwise `1` is the primality flag. -/
theorem eq_prime_flag (n r : Nat) (h01 : r = 0 ∨ r = 1) (h : r = 0 ↔ ¬ Nat.Prime n) :
    r = prime_flag n := by
  unfold prime_flag
  by_cases hp : Nat.Prime n
  · rw [if_pos hp]
    rcases h01 with h0 | h1
    · exact absurd hp (h.mp h0)
    · exact h1
  · rw [if_neg hp]
    exact h.mpr hp

/-- A divisor between 2 and the number itself, both excluded, rules primality out. -/
theorem not_prime_of_mod (n d : Nat) (h2 : 2 ≤ d) (hlt : d < n) (h : n % d = 0) :
    ¬ Nat.Prime n := by
  intro hp
  rcases hp.eq_one_or_self_of_dvd d (Nat.dvd_of_mod_eq_zero h) with h1 | h1 <;> omega

/-- A divisor of at least 2 whose square does not exceed the number rules primality out. -/
theorem not_prime_of_sq_le (n d : Nat) (h2 : 2 ≤ d) (hsq : d * d ≤ n) (h : n % d = 0) :
    ¬ Nat.Prime n := by
  refine not_prime_of_mod n d h2 ?_ h
  have : d * 2 ≤ d * d := Nat.mul_le_mul_left d h2
  omega

/-- A non-prime from 2 on has a prime divisor whose square does not exceed it. -/
theorem exists_prime_factor (n : Nat) (h2 : 2 ≤ n) (h : ¬ Nat.Prime n) :
    ∃ p, Nat.Prime p ∧ n % p = 0 ∧ p * p ≤ n := by
  refine ⟨n.minFac, Nat.minFac_prime (by omega), Nat.mod_eq_zero_of_dvd (Nat.minFac_dvd n), ?_⟩
  have := Nat.minFac_sq_le_self (by omega) h
  rwa [sq] at this

/-- A prime divisor of a number that neither 2 nor 3 divides is at least 5 and is 1 or 5
modulo 6. -/
theorem prime_factor_shape (n p : Nat) (h2 : n % 2 ≠ 0) (h3 : n % 3 ≠ 0) (hp : Nat.Prime p)
    (h : n % p = 0) : 5 ≤ p ∧ (p % 6 = 1 ∨ p % 6 = 5) := by
  have hdvd := Nat.dvd_of_mod_eq_zero h
  have hp2 : 2 ≤ p := hp.two_le
  have hne2 : p % 2 ≠ 0 := by
    intro h0
    rcases hp.eq_one_or_self_of_dvd 2 (Nat.dvd_of_mod_eq_zero h0) with h1 | h1
    · omega
    · rw [← h1] at hdvd
      exact h2 (Nat.mod_eq_zero_of_dvd hdvd)
  have hne3 : p % 3 ≠ 0 := by
    intro h0
    rcases hp.eq_one_or_self_of_dvd 3 (Nat.dvd_of_mod_eq_zero h0) with h1 | h1
    · omega
    · rw [← h1] at hdvd
      exact h3 (Nat.mod_eq_zero_of_dvd hdvd)
  omega

/-- Squares of counters up to `65535` do not wrap. -/
theorem umul_self (j : Nat) (h : j ≤ 65535) : umul j j = j * j := by
  unfold umul UINT_MOD
  have : j * j ≤ 65535 * 65535 := Nat.mul_le_mul h h
  exact Nat.mod_eq_of_lt (by omega)

/-- A square below `2 ^ 31` has a root of at most `46340`. -/
theorem le_of_sq_le (j n : Nat) (h : j * j ≤ n) (hn : n < 2 ^ 31) : j ≤ 46340 := by
  by_contra hcon
  have : 46341 * 46341 ≤ j * j := Nat.mul_le_mul (by omega) (by omega)
  omega

/-- Squares from `46341` on exceed every number below `2 ^ 31`. -/
theorem sq_gt (j n : Nat) (h : 46340 < j) (hn : n < 2 ^ 31) : n < j * j := by
  have : 46341 * 46341 ≤ j * j := Nat.mul_le_mul (by omega) (by omega)
  omega

/-- The function `IsPrime1` decides primality below `2 ^ 31`. -/
theorem IsPrime1_correct (n : Nat) (hn : n < 2 ^ 31) : IsPrime1 n = some (prime_flag n) := by
  unfold IsPrime1
  by_cases h1 : n ≤ 1
  · rw [if_pos h1]
    have : ¬ Nat.Prime n := fun hp => by have := hp.two_le; omega
    simp [prime_flag, this]
  · rw [if_neg h1]
    obtain ⟨r, hr, h01, hiff⟩ := trial_loop_spec (fun i => decide (umul i i ≤ n))
      (fun i => decide (n % i = 0)) 1 46340 2 (by omega) (by unfold UINT_MOD; omega)
      (by
        intro j hj1 hj2
        simp only [decide_eq_false_iff_not, not_le]
        rw [umul_self j (by omega)]
        exact sq_gt j n hj1 hn)
      (by
        intro j _ hj2 h
        simp only [decide_eq_true_eq] at h ⊢
        rw [umul_self _ (by omega)] at h
        rw [umul_self _ (by omega)]
        have : j * j ≤ (j + 1) * (j + 1) := Nat.mul_le_mul (by omega) (by omega)
        omega)
      FUEL 2 (le_refl _) (by omega) (by unfold FUEL; omega)
    rw [hr]
    refine congrArg some ?_
    apply eq_prime_flag n r h01
    rw [hiff]
    constructor
    · rintro ⟨k, hk1, hk2, hk3⟩
      simp only [decide_eq_true_eq] at hk2 hk3
      rw [umul_self _ (by omega)] at hk2
      exact not_prime_of_sq_le n _ (by omega) hk2 hk3
    · intro hnp
      obtain ⟨p, hp, hdiv, hsq⟩ := exists_prime_factor n (by omega) hnp
      have hp2 := hp.two_le
      have hpB := le_of_sq_le p n hsq hn
      refine ⟨p - 2, ?_, ?_, ?_⟩
      · omega
      · have e : 2 + (p - 2) * 1 = p := by omega
        rw [e]
        simp only [decide_eq_true_eq]
        rw [umul_self _ (by omega)]
        exact hsq
      · have e : 2 + (p - 2) * 1 = p := by omega
        rw [e]
        simpa using hdiv

/-- The three tests every function from `IsPrime2` on starts with. -/
theorem with_prechecks (n : Nat) (body : Option Nat)
    (h : 5 ≤ n → n % 2 ≠ 0 → n % 3 ≠ 0 → body = some (prime_flag n)) :
    (if n ≤ 1 then some 0
      else if n = 2 ∨ n = 3 then some 1
      else if n % 2 = 0 ∨ n % 3 = 0 then some 0
      else body) = some (prime_flag n) := by
  by_cases h1 : n ≤ 1
  · rw [if_pos h1]
    have : ¬ Nat.Prime n := fun hp => by have := hp.two_le; omega
    simp [prime_flag, this]
  · rw [if_neg h1]
    by_cases h23 : n = 2 ∨ n = 3
    · rw [if_pos h23]
      have : Nat.Prime n := by
        rcases h23 with rfl | rfl
        · exact Nat.prime_two
        · exact Nat.prime_three
      simp [prime_flag, this]
    · rw [if_neg h23]
      by_cases hd : n % 2 = 0 ∨ n % 3 = 0
      · rw [if_pos hd]
        have : ¬ Nat.Prime n := by
          rcases hd with h0 | h0
          · exact not_prime_of_mod n 2 (by omega) (by omega) h0
          · exact not_prime_of_mod n 3 (by omega) (by omega) h0
        simp [prime_flag, this]
      · rw [if_neg hd]
        exact h (by omega) (by omega) (by omega)

/-- The loop of `IsPrime2` (lines 65-69). -/
theorem IsPrime2_correct (n : Nat) (hn : n < 2 ^ 31) : IsPrime2 n = some (prime_flag n) := by
  unfold IsPrime2
  apply with_prechecks
  intro h5 h2 h3
  obtain ⟨r, hr, h01, hiff⟩ := trial_loop_spec (fun i => decide (umul i i ≤ n))
    (fun i => decide (n % i = 0)) 2 46340 5 (by omega) (by unfold UINT_MOD; omega)
    (by
      intro j hj1 hj2
      simp only [decide_eq_false_iff_not, not_le]
      rw [umul_self j (by omega)]
      exact sq_gt j n hj1 hn)
    (by
      intro j _ hj2 h
      simp only [decide_eq_true_eq] at h ⊢
      rw [umul_self _ (by omega)] at h
      rw [umul_self _ (by omega)]
      have : j * j ≤ (j + 2) * (j + 2) := Nat.mul_le_mul (by omega) (by omega)
      omega)
    FUEL 5 (le_refl _) (by omega) (by unfold FUEL; omega)
  rw [hr]
  refine congrArg some ?_
  apply eq_prime_flag n r h01
  rw [hiff]
  constructor
  · rintro ⟨k, hk1, hk2, hk3⟩
    simp only [decide_eq_true_eq] at hk2 hk3
    rw [umul_self _ (by omega)] at hk2
    exact not_prime_of_sq_le n _ (by omega) hk2 hk3
  · intro hnp
    obtain ⟨p, hp, hdiv, hsq⟩ := exists_prime_factor n (by omega) hnp
    obtain ⟨hp5, hp6⟩ := prime_factor_shape n p h2 h3 hp hdiv
    have hpB := le_of_sq_le p n hsq hn
    have e : 5 + (p - 5) / 2 * 2 = p := by omega
    refine ⟨(p - 5) / 2, by omega, ?_, ?_⟩
    · rw [e]
      simp only [decide_eq_true_eq]
      rw [umul_self _ (by omega)]
      exact hsq
    · rw [e]
      simpa using hdiv

/-- The loop of `IsPrime3` (lines 82-87). -/
theorem IsPrime3_correct (n : Nat) (hn : n < 2 ^ 31) : IsPrime3 n = some (prime_flag n) := by
  unfold IsPrime3
  apply with_prechecks
  intro h5 h2 h3
  dsimp only
  have hs : Nat.sqrt n ≤ n := Nat.sqrt_le_self n
  obtain ⟨r, hr, h01, hiff⟩ := trial_loop_spec (fun i => decide (i ≤ usqrt n))
    (fun i => decide (n % i = 0)) 2 (Nat.sqrt n + 5) 5 (by omega) (by unfold UINT_MOD; omega)
    (by
      intro j hj1 hj2
      simp only [decide_eq_false_iff_not, not_le, usqrt]
      omega)
    (by
      intro j _ hj2 h
      simp only [decide_eq_true_eq, usqrt] at h ⊢
      omega)
    FUEL 5 (le_refl _) (by omega) (by unfold FUEL; omega)
  rw [hr]
  refine congrArg some ?_
  apply eq_prime_flag n r h01
  rw [hiff]
  constructor
  · rintro ⟨k, hk1, hk2, hk3⟩
    simp only [decide_eq_true_eq, usqrt] at hk2 hk3
    exact not_prime_of_sq_le n _ (by omega) (Nat.le_sqrt.mp hk2) hk3
  · intro hnp
    obtain ⟨p, hp, hdiv, hsq⟩ := exists_prime_factor n (by omega) hnp
    obtain ⟨hp5, hp6⟩ := prime_factor_shape n p h2 h3 hp hdiv
    have hps : p ≤ Nat.sqrt n := Nat.le_sqrt.mpr hsq
    have e : 5 + (p - 5) / 2 * 2 = p := by omega
    refine ⟨(p - 5) / 2, by omega, ?_, ?_⟩
    · rw [e]
      simpa [usqrt] using hps
    · rw [e]
      simpa using hdiv

/-- The loop of `isprime1` (lines 100-105). -/
theorem isprime1_correct (n : Nat) (hn : n < 2 ^ 31) : isprime1 n = some (prime_flag n) := by
  unfold isprime1
  apply with_prechecks
  intro h5 h2 h3
  dsimp only
  have hs : Nat.sqrt n ≤ n := Nat.sqrt_le_self n
  have hmax : uadd (usqrt n) 1 = Nat.sqrt n + 1 := by
    unfold uadd usqrt UINT_MOD
    exact Nat.mod_eq_of_lt (by omega)
  rw [hmax]
  obtain ⟨r, hr, h01, hiff⟩ := trial_loop_spec (fun i => decide (i ≤ Nat.sqrt n + 1))
    (fun i => decide (n % usub i 1 = 0 ∨ n % uadd i 1 = 0)) 6 (Nat.sqrt n + 6) 6 (by omega)
    (by unfold UINT_MOD; omega)
    (by
      intro j hj1 hj2
      simp only [decide_eq_false_iff_not, not_le]
      omega)
    (by
      intro j _ hj2 h
      simp only [decide_eq_true_eq] at h ⊢
      omega)
    FUEL 6 (le_refl _) (by omega) (by unfold FUEL; omega)
  rw [hr]
  refine congrArg some ?_
  apply eq_prime_flag n r h01
  rw [hiff]
  have hsub : ∀ i, 1 ≤ i → i < 2 ^ 31 → usub i 1 = i - 1 := by
    intro i _ _
    unfold usub UINT_MOD
    omega
  have hadd : ∀ i, i < 2 ^ 31 → uadd i 1 = i + 1 := by
    intro i _
    unfold uadd UINT_MOD
    omega
  constructor
  · rintro ⟨k, hk1, hk2, hk3⟩
    simp only [decide_eq_true_eq] at hk2 hk3
    rw [hsub _ (by omega) (by omega), hadd _ (by omega)] at hk3
    have hroot : 6 + k * 6 - 1 ≤ Nat.sqrt n := by omega
    have hsq := Nat.le_sqrt.mp hroot
    rcases hk3 with h0 | h0
    · exact not_prime_of_sq_le n _ (by omega) hsq h0
    · refine not_prime_of_mod n _ (by omega) ?_ h0
      have : (6 + k * 6 - 1) * 5 ≤ (6 + k * 6 - 1) * (6 + k * 6 - 1) :=
        Nat.mul_le_mul_left _ (by omega)
      omega
  · intro hnp
    obtain ⟨p, hp, hdiv, hsq⟩ := exists_prime_factor n (by omega) hnp
    obtain ⟨hp5, hp6⟩ := prime_factor_shape n p h2 h3 hp hdiv
    have hps : p ≤ Nat.sqrt n := Nat.le_sqrt.mpr hsq
    rcases hp6 with h6 | h6
    · have e : 6 + (p - 7) / 6 * 6 = p - 1 := by omega
      refine ⟨(p - 7) / 6, by omega, ?_, ?_⟩
      · rw [e]
        simp only [decide_eq_true_eq]
        omega
      · rw [e, hsub _ (by omega) (by omega), hadd _ (by omega)]
        have e2 : p - 1 + 1 = p := by omega
        rw [e2]
        simp [hdiv]
    · have e : 6 + (p - 5) / 6 * 6 = p + 1 := by omega
      refine ⟨(p - 5) / 6, by omega, ?_, ?_⟩
      · rw [e]
        simp only [decide_eq_true_eq]
        omega
      · rw [e, hsub _ (by omega) (by omega)]
        have e2 : p + 1 - 1 = p := by omega
        rw [e2]
        simp [hdiv]

/-- The loop of `isprime4` and the second loop of `isprime5`, started at `s` (5 or 101): it
decides primality of a number that neither 2 nor 3 divides and whose prime divisors are all at
least `s`. -/
theorem wheel_loop_sq (n s : Nat) (hn : n < 2 ^ 31) (hs5 : 5 ≤ s) (hs6 : s % 6 = 5)
    (hsB : s ≤ 46340) (h5 : 5 ≤ n) (h2 : n % 2 ≠ 0) (h3 : n % 3 ≠ 0)
    (hfac : ∀ p, Nat.Prime p → n % p = 0 → s ≤ p) :
    trial_loop (fun x => decide (umul x x ≤ n))
      (fun x => decide (n % x = 0 ∨ n % uadd x 2 = 0)) 6 FUEL s = some (prime_flag n) := by
  obtain ⟨r, hr, h01, hiff⟩ := trial_loop_spec (fun x => decide (umul x x ≤ n))
    (fun x => decide (n % x = 0 ∨ n % uadd x 2 = 0)) 6 46340 s (by omega)
    (by unfold UINT_MOD; omega)
    (by
      intro j hj1 hj2
      simp only [decide_eq_false_iff_not, not_le]
      rw [umul_self j (by omega)]
      exact sq_gt j n hj1 hn)
    (by
      intro j _ hj2 h
      simp only [decide_eq_true_eq] at h ⊢
      rw [umul_self _ (by omega)] at h
      rw [umul_self _ (by omega)]
      have : j * j ≤ (j + 6) * (j + 6) := Nat.mul_le_mul (by omega) (by omega)
      omega)
    FUEL s (le_refl _) (by omega) (by unfold FUEL; omega)
  rw [hr]
  refine congrArg some ?_
  apply eq_prime_flag n r h01
  rw [hiff]
  have hadd : ∀ i, i < 2 ^ 31 → uadd i 2 = i + 2 := by
    intro i _
    unfold uadd UINT_MOD
    omega
  constructor
  · rintro ⟨k, hk1, hk2, hk3⟩
    simp only [decide_eq_true_eq] at hk2 hk3
    rw [umul_self _ (by omega)] at hk2
    rw [hadd _ (by omega)] at hk3
    rcases hk3 with h0 | h0
    · exact not_prime_of_sq_le n _ (by omega) hk2 h0
    · refine not_prime_of_mod n _ (by omega) ?_ h0
      have : (s + k * 6) * 5 ≤ (s + k * 6) * (s + k * 6) := Nat.mul_le_mul_left _ (by omega)
      omega
  · intro hnp
    obtain ⟨p, hp, hdiv, hsq⟩ := exists_prime_factor n (by omega) hnp
    obtain ⟨hp5, hp6⟩ := prime_factor_shape n p h2 h3 hp hdiv
    have hps := hfac p hp hdiv
    have hpB := le_of_sq_le p n hsq hn
    rcases hp6 with h6 | h6
    · have e : s + (p - 2 - s) / 6 * 6 = p - 2 := by omega
      refine ⟨(p - 2 - s) / 6, by omega, ?_, ?_⟩
      · rw [e]
        simp only [decide_eq_true_eq]
        rw [umul_self _ (by omega)]
        have : (p - 2) * (p - 2) ≤ p * p := Nat.mul_le_mul (by omega) (by omega)
        omega
      · rw [e, hadd _ (by omega)]
        have e2 : p - 2 + 2 = p := by omega
        rw [e2]
        simp [hdiv]
    · have e : s + (p - s) / 6 * 6 = p := by omega
      refine ⟨(p - s) / 6, by omega, ?_, ?_⟩
      · rw [e]
        simp only [decide_eq_true_eq]
        rw [umul_self _ (by omega)]
        exact hsq
      · rw [e]
        simp [hdiv]

/-- The loop of `isprime2` and the second loop of `isprime3`, started at `t` (6 or 102): it
decides primality of a number that neither 2 nor 3 divides and whose prime divisors are all at
least `t - 1`. -/
theorem wheel_loop_pred (n t : Nat) (hn : n < 2 ^ 31) (ht6 : 6 ≤ t) (htm : t % 6 = 0)
    (htB : t ≤ 46340) (h5 : 5 ≤ n) (h2 : n % 2 ≠ 0) (h3 : n % 3 ≠ 0)
    (hfac : ∀ p, Nat.Prime p → n % p = 0 → t - 1 ≤ p) :
    trial_loop (fun i => decide (umul (usub i 1) (usub i 1) ≤ n))
      (fun i => decide (n % usub i 1 = 0 ∨ n % uadd i 1 = 0)) 6 FUEL t =
        some (prime_flag n) := by
  have hsub : ∀ i, 1 ≤ i → i < 2 ^ 31 → usub i 1 = i - 1 := by
    intro i _ _
    unfold usub UINT_MOD
    omega
  have hadd : ∀ i, i < 2 ^ 31 → uadd i 1 = i + 1 := by
    intro i _
    unfold uadd UINT_MOD
    omega
  have hB : ∀ j, 46341 < j → j ≤ 46341 + 6 →
      (fun i => decide (umul (usub i 1) (usub i 1) ≤ n)) j = false := by
    intro j hj1 hj2
    simp only [decide_eq_false_iff_not, not_le]
    rw [hsub j (by omega) (by omega), umul_self _ (by omega)]
    exact sq_gt _ n (by omega) hn
  have hmono : ∀ j, t ≤ j → j + 6 ≤ 46341 →
      (fun i => decide (umul (usub i 1) (usub i 1) ≤ n)) (j + 6) = true →
      (fun i => decide (umul (usub i 1) (usub i 1) ≤ n)) j = true := by
    intro j hj1 hj2 h
    simp only [decide_eq_true_eq] at h ⊢
    rw [hsub _ (by omega) (by omega), umul_self _ (by omega)] at h
    rw [hsub _ (by omega) (by omega), umul_self _ (by omega)]
    have : (j - 1) * (j - 1) ≤ (j + 6 - 1) * (j + 6 - 1) :=
      Nat.mul_le_mul (by omega) (by omega)
    omega
  have hwrap : 46341 + 6 < UINT_MOD := by unfold UINT_MOD; omega
  have hfuel : 46341 + 6 < t + FUEL := by unfold FUEL; omega
  obtain ⟨r, hr, h01, hiff⟩ := trial_loop_spec
    (fun i => decide (umul (usub i 1) (usub i 1) ≤ n))
    (fun i => decide (n % usub i 1 = 0 ∨ n % uadd i 1 = 0)) 6 46341 t (by omega) hwrap hB
    hmono FUEL t (le_refl _) (by omega) hfuel
  rw [hr]
  refine congrArg some ?_
  apply eq_prime_flag n r h01
  rw [hiff]
  constructor
  · rintro ⟨k, hk1, hk2, hk3⟩
    simp only [decide_eq_true_eq] at hk2 hk3
    rw [hsub _ (by omega) (by omega), umul_self _ (by omega)] at hk2
    rw [hsub _ (by omega) (by omega), hadd _ (by omega)] at hk3
    rcases hk3 with h0 | h0
    · exact not_prime_of_sq_le n _ (by omega) hk2 h0
    · refine not_prime_of_mod n _ (by omega) ?_ h0
      have : (t + k * 6 - 1) * 5 ≤ (t + k * 6 - 1) * (t + k * 6 - 1) :=
        Nat.mul_le_mul_left _ (by omega)
      omega
  · intro hnp
    obtain ⟨p, hp, hdiv, hsq⟩ := exists_prime_factor n (by omega) hnp
    obtain ⟨hp5, hp6⟩ := prime_factor_shape n p h2 h3 hp hdiv
    have hps := hfac p hp hdiv
    have hpB := le_of_sq_le p n hsq hn
    rcases hp6 with h6 | h6
    · have e : t + (p - 1 - t) / 6 * 6 = p - 1 := by omega
      refine ⟨(p - 1 - t) / 6, by omega, ?_, ?_⟩
      · rw [e]
        simp only [decide_eq_true_eq]
        rw [hsub _ (by omega) (by omega), umul_self _ (by omega)]
        have : (p - 1 - 1) * (p - 1 - 1) ≤ p * p := Nat.mul_le_mul (by omega) (by omega)
        omega
      · rw [e, hsub _ (by omega) (by omega), hadd _ (by omega)]
        have e2 : p - 1 + 1 = p := by omega
        rw [e2]
        simp [hdiv]
    · have e : t + (p + 1 - t) / 6 * 6 = p + 1 := by omega
      refine ⟨(p + 1 - t) / 6, by omega, ?_, ?_⟩
      · rw [e]
        simp only [decide_eq_true_eq]
        rw [hsub _ (by omega) (by omega), umul_self _ (by omega)]
        have e2 : p + 1 - 1 = p := by omega
        rw [e2]
        exact hsq
      · rw [e, hsub _ (by omega) (by omega)]
        have e2 : p + 1 - 1 = p := by omega
        rw [e2]
        simp [hdiv]

/-- The function `isprime2` decides primality below `2 ^ 31`. -/
theorem isprime2_correct (n : Nat) (hn : n < 2 ^ 31) : isprime2 n = some (prime_flag n) := by
  unfold isprime2
  apply with_prechecks
  intro h5 h2 h3
  exact wheel_loop_pred n 6 hn (by omega) (by omega) (by omega) h5 h2 h3
    (fun p hp hdiv => (prime_factor_shape n p h2 h3 hp hdiv).1)

/-- The function `isprime4` decides primality below `2 ^ 31`. -/
theorem isprime4_correct (n : Nat) (hn : n < 2 ^ 31) : isprime4 n = some (prime_flag n) := by
  unfold isprime4
  apply with_prechecks
  intro h5 h2 h3
  exact wheel_loop_sq n 5 hn (by omega) (by omega) (by omega) h5 h2 h3
    (fun p hp hdiv => (prime_factor_shape n p h2 h3 hp hdiv).1)

/-- When the loop over the small primes ends without returning, no entry equals or divides the
number. -/
theorem small_loop_none (n : Nat) : ∀ l, small_loop n l = none →
    ∀ q ∈ l, n ≠ q ∧ n % q ≠ 0 := by
  intro l
  induction l with
  | nil => intro _ q hq; simp at hq
  | cons a as ih =>
    intro h q hq
    simp only [small_loop] at h
    split_ifs at h with h1 h2
    rcases List.mem_cons.mp hq with rfl | hq'
    · exact ⟨h1, h2⟩
    · exact ih h q hq'

/-- When the loop over the small primes returns, it returns `1` at an entry equal to the
number, or `0` at an entry that divides the number without being equal to it. -/
theorem small_loop_some (n r : Nat) : ∀ l, small_loop n l = some r →
    (r = 1 ∧ n ∈ l) ∨ (r = 0 ∧ ∃ q ∈ l, n ≠ q ∧ n % q = 0) := by
  intro l
  induction l with
  | nil => intro h; simp [small_loop] at h
  | cons a as ih =>
    intro h
    simp only [small_loop] at h
    split_ifs at h with h1 h2
    · simp only [Option.some.injEq] at h
      exact Or.inl ⟨h.symm, by simp [h1]⟩
    · simp only [Option.some.injEq] at h
      exact Or.inr ⟨h.symm, a, by simp, h1, h2⟩
    · rcases ih h with ⟨hr, hm⟩ | ⟨hr, q, hq, hne, hd⟩
      · exact Or.inl ⟨hr, List.mem_cons_of_mem _ hm⟩
      · exact Or.inr ⟨hr, q, List.mem_cons_of_mem _ hq, hne, hd⟩

/-- Every prime from 5 to 100 is an entry of `small_primes`. -/
theorem prime_mem_small_primes (p : Nat) (hp : Nat.Prime p) (h5 : 5 ≤ p) (h : p < 101) :
    p ∈ small_primes := by
  unfold small_primes
  interval_cases p <;> first
    | decide
    | (exfalso; revert hp; norm_num)

/-- An entry of `small_primes` at which the loop returns `1` is a prime: the entries 87 and 91
are never reached, 3 dividing the one and the earlier entry 7 the other. -/
theorem small_loop_one_prime (n : Nat) (h3 : n % 3 ≠ 0)
    (h : small_loop n small_primes = some 1) : Nat.Prime n := by
  have hm : n ∈ small_primes := by
    rcases small_loop_some n 1 small_primes h with ⟨_, hm⟩ | ⟨h0, _⟩
    · exact hm
    · cases h0
  unfold small_primes at hm
  simp only [List.mem_cons, List.mem_singleton, List.not_mem_nil, or_false] at hm
  rcases hm with rfl | rfl | rfl | rfl | rfl | rfl | rfl | rfl | rfl | rfl | rfl | rfl | rfl |
    rfl | rfl | rfl | rfl | rfl | rfl | rfl | rfl | rfl | rfl | rfl | rfl <;> first
    | (exfalso; revert h3; decide)
    | (exfalso; revert h; decide)
    | norm_num

/-- After the loop over the small primes, which both `isprime3` and `isprime5` run first. -/
theorem after_small_loop (n : Nat) (body : Option Nat) (h5 : 5 ≤ n) (h2 : n % 2 ≠ 0)
    (h3 : n % 3 ≠ 0)
    (h : (∀ p, Nat.Prime p → n % p = 0 → 101 ≤ p) → body = some (prime_flag n)) :
    (match small_loop n small_primes with
      | some r => some r
      | none => body) = some (prime_flag n) := by
  cases hl : small_loop n small_primes with
  | some r =>
    dsimp only
    refine congrArg some ?_
    rcases small_loop_some n r small_primes hl with ⟨hr, _⟩ | ⟨hr, q, hq, hne, hd⟩
    · subst hr
      have := small_loop_one_prime n h3 hl
      simp [prime_flag, this]
    · subst hr
      have hq5 : 5 ≤ q := by
        unfold small_primes at hq
        simp only [List.mem_cons, List.mem_singleton, List.not_mem_nil, or_false] at hq
        omega
      have hle : q ≤ n := Nat.le_of_dvd (by omega) (Nat.dvd_of_mod_eq_zero hd)
      have := not_prime_of_mod n q (by omega) (by omega) hd
      simp [prime_flag, this]
  | none =>
    dsimp only
    apply h
    intro p hp hd
    by_contra hcon
    have h5p := (prime_factor_shape n p h2 h3 hp hd).1
    have hm := prime_mem_small_primes p hp h5p (by omega)
    exact (small_loop_none n small_primes hl p hm).2 hd

/-- The function `isprime3` decides primality below `2 ^ 31`. -/
theorem isprime3_correct (n : Nat) (hn : n < 2 ^ 31) : isprime3 n = some (prime_flag n) := by
  unfold isprime3
  apply with_prechecks
  intro h5 h2 h3
  apply after_small_loop n _ h5 h2 h3
  intro hfac
  exact wheel_loop_pred n 102 hn (by omega) (by omega) (by omega) h5 h2 h3
    (fun p hp hdiv => by have := hfac p hp hdiv; omega)

/-- The function `isprime5` decides primality below `2 ^ 31`. -/
theorem isprime5_correct (n : Nat) (hn : n < 2 ^ 31) : isprime5 n = some (prime_flag n) := by
  unfold isprime5
  apply with_prechecks
  intro h5 h2 h3
  apply after_small_loop n _ h5 h2 h3
  intro hfac
  exact wheel_loop_sq n 101 hn (by omega) (by omega) (by omega) h5 h2 h3 hfac

/-- The trial loop of `IsPrime1` when its test never fails: it returns `0` at the first
counter value that divides the number, the number itself at the latest. -/
theorem trial_loop_wrapped (cond : Nat → Bool) (n : Nat) (hn : n < UINT_MOD)
    (hcond : ∀ j, cond j = true) :
    ∀ fuel i, 1 ≤ i → i ≤ n → n < i + fuel →
      trial_loop cond (fun i => decide (n % i = 0)) 1 fuel i = some 0 := by
  intro fuel
  induction fuel with
  | zero => intro i _ h1 h2; omega
  | succ fuel ih =>
    intro i h0 h1 h2
    simp only [trial_loop, hcond, if_true]
    by_cases hh : n % i = 0
    · simp [hh]
    · have hlt : i < n := by
        rcases Nat.lt_or_ge i n with h | h
        · exact h
        · have : i = n := by omega
          subst this
          simp at hh
      simp only [hh, decide_False, Bool.false_eq_true, if_false]
      have hu : uadd i 1 = i + 1 := by
        unfold uadd
        exact Nat.mod_eq_of_lt (by omega)
      rw [hu]
      exact ih (i + 1) (by omega) (by omega) (by omega)

/-- A square reduced modulo `2 ^ 32` is never one of the four largest `unsigned` values. -/
theorem umul_self_le (j : Nat) : umul j j ≤ 4294967291 := by
  unfold umul UINT_MOD
  have h16 : (j * j) % 16 = ((j % 16) * (j % 16)) % 16 := Nat.mul_mod j j 16
  have hlt : j % 16 < 16 := Nat.mod_lt _ (by omega)
  have hsq : (j * j) % 16 = 0 ∨ (j * j) % 16 = 1 ∨ (j * j) % 16 = 4 ∨ (j * j) % 16 = 9 := by
    rw [h16]
    generalize j % 16 = m at hlt
    interval_cases m <;> simp
  omega

/-- What `no_odd_divisor` checks. -/
theorem no_odd_divisor_spec (n : Nat) : ∀ k, no_odd_divisor n k = true →
    ∀ j, 3 ≤ j → j ≤ 2 * k + 1 → j % 2 = 1 → n % j ≠ 0 := by
  intro k
  induction k with
  | zero => intro _ j h1 h2 _; omega
  | succ k ih =>
    intro h j h1 h2 h3
    simp only [no_odd_divisor] at h
    split_ifs at h with h0
    by_cases hj : j = 2 * k + 3
    · subst hj; exact h0
    · exact ih h j h1 (by omega) h3

/-- No odd number from 3 to 65535 divides `4294967291`. -/
theorem no_odd_divisor_4294967291 : no_odd_divisor 4294967291 32767 = true := by decide!

/-- The number `4294967291`, which is `2 ^ 32 - 5`, is prime. -/
theorem prime_4294967291 : Nat.Prime 4294967291 := by
  rw [Nat.prime_def_le_sqrt]
  refine ⟨by omega, fun m h2 hm hdvd => ?_⟩
  have hsq := Nat.le_sqrt.mp hm
  have hm65 : m ≤ 65535 := by
    by_contra hcon
    have : 65536 * 65536 ≤ m * m := Nat.mul_le_mul (by omega) (by omega)
    omega
  have hmod := Nat.mod_eq_zero_of_dvd hdvd
  rcases Nat.mod_two_eq_zero_or_one m with he | ho
  · have h2d : 2 ∣ 4294967291 := Nat.dvd_trans (Nat.dvd_of_mod_eq_zero he) hdvd
    omega
  · exact no_odd_divisor_spec 4294967291 32767 no_odd_divisor_4294967291 m (by omega)
      (by omega) ho hmod

/-- C19: the bake-off never reports a failure.  For every `unsigned` value `v` up to
`2 ^ 31 - 1` (the values 1 to 999 and the results of `rand()` that the bake-off checks),
`check_number(v)` returns 0: all of `IsPrime1`, `IsPrime2`, `IsPrime3`, `isprime1`, `isprime2`,
`isprime3`, `isprime4` and `isprime5` return, and return the same result, namely 1 when `v` is
prime and 0 when it is not (32-bit unsigned arithmetic, exact integer square root). -/
theorem check_number_never_fails (v : Nat) (hv : v ≤ 2 ^ 31 - 1) :
    check_number v = some 0 ∧
    IsPrime1 v = some (prime_flag v) ∧ IsPrime2 v = some (prime_flag v) ∧
    IsPrime3 v = some (prime_flag v) ∧ isprime1 v = some (prime_flag v) ∧
    isprime2 v = some (prime_flag v) ∧ isprime3 v = some (prime_flag v) ∧
    isprime4 v = some (prime_flag v) ∧ isprime5 v = some (prime_flag v) := by
  have hn : v < 2 ^ 31 := by omega
  refine ⟨?_, IsPrime1_correct v hn, IsPrime2_correct v hn, IsPrime3_correct v hn,
    isprime1_correct v hn, isprime2_correct v hn, isprime3_correct v hn, isprime4_correct v hn,
    isprime5_correct v hn⟩
  unfold check_number
  rw [IsPrime1_correct v hn, IsPrime2_correct v hn, IsPrime3_correct v hn,
    isprime1_correct v hn, isprime2_correct v hn, isprime3_correct v hn, isprime4_correct v hn,
    isprime5_correct v hn]
  simp

/-- A concrete instance of the theorem for C19. -/
theorem check_number_never_fails_witness :
    2147483647 ≤ 2 ^ 31 - 1 ∧ check_number 2147483647 = some 0 ∧
    IsPrime1 2147483647 = isprime5 2147483647 :=
  ⟨by decide, (check_number_never_fails 2147483647 (by decide)).1,
    (check_number_never_fails 2147483647 (by decide)).2.1.trans
      (check_number_never_fails 2147483647 (by decide)).2.2.2.2.2.2.2.2.symm⟩

/-- C20 (the code at the failing input): `IsPrime1(4294967291)` returns 0 although
`4294967291` is prime.  From `i = 65536` on the product `i * i` wraps modulo `2 ^ 32`; no
wrapped square exceeds `4294967291`, so the loop runs on until `i` is the number itself, which
divides it. -/
theorem IsPrime1_wraps : IsPrime1 4294967291 = some 0 ∧ Nat.Prime 4294967291 := by
  refine ⟨?_, prime_4294967291⟩
  unfold IsPrime1
  rw [if_neg (by omega)]
  exact trial_loop_wrapped _ 4294967291 (by unfold UINT_MOD; omega)
    (fun j => by simpa using umul_self_le j) FUEL 2 (by omega) (by omega)
    (by unfold FUEL; omega)

/-- The trial loop returns `1` at once when its test fails on the first counter value. -/
theorem trial_loop_stop (cond hit : Nat → Bool) (step fuel i : Nat) (hf : 0 < fuel)
    (hc : cond i = false) : trial_loop cond hit step fuel i = some 1 := by
  cases fuel with
  | zero => omega
  | succ fuel => simp [trial_loop, hc]

/-- The function `IsPrime0` on an `unsigned` number: it returns, with `0` exactly when some
`i` with `2 <= i < n` divides `n`. -/
theorem IsPrime0_spec (n : Nat) (hn : n < 2 ^ 32) :
    ∃ r, IsPrime0 n = some r ∧ (r = 0 ∨ r = 1) ∧
      (r = 0 ↔ ∃ i, 2 ≤ i ∧ i < n ∧ i ∣ n) := by
  unfold IsPrime0
  by_cases h2 : n < 2
  · refine ⟨1, trial_loop_stop _ _ 1 FUEL 2 (by unfold FUEL; omega) (by simp; omega),
      Or.inr rfl, ?_⟩
    constructor
    · intro h
      cases h
    · rintro ⟨i, hi1, hi2, _⟩
      omega
  · have hB : ∀ j, n - 1 < j → j ≤ n - 1 + 1 →
        (fun i => decide (i < n)) j = false := by
      intro j h1 h2
      simp only [decide_eq_false_iff_not]
      omega
    have hmono : ∀ j, 0 ≤ j → j + 1 ≤ n - 1 →
        (fun i => decide (i < n)) (j + 1) = true → (fun i => decide (i < n)) j = true := by
      intro j _ _ h
      simp only [decide_eq_true_eq] at h ⊢
      omega
    have hwrap : n - 1 + 1 < UINT_MOD := by
      unfold UINT_MOD
      omega
    obtain ⟨r, hr, h01, hiff⟩ := trial_loop_spec (fun i => decide (i < n))
      (fun i => decide (n % i = 0)) 1 (n - 1) 0 (by omega) hwrap hB hmono FUEL 2 (by omega)
      (by omega) (by unfold FUEL; omega)
    refine ⟨r, hr, h01, hiff.trans ⟨?_, ?_⟩⟩
    · rintro ⟨k, hk1, hk2, hk3⟩
      simp only [decide_eq_true_eq, Nat.mul_one] at hk2 hk3
      exact ⟨2 + k, by omega, hk2, Nat.dvd_of_mod_eq_zero hk3⟩
    · rintro ⟨i, hi1, hi2, hi3⟩
      refine ⟨i - 2, ?_, ?_, ?_⟩
      · simp only [Nat.mul_one]
        omega
      · simp only [decide_eq_true_eq, Nat.mul_one]
        omega
      · simp only [decide_eq_true_eq, Nat.mul_one]
        have e : 2 + (i - 2) = i := by omega
        rw [e]
        exact Nat.mod_eq_zero_of_dvd hi3

/-- C25: the original `IsPrime0` is a trial division with no guard for small inputs.  For every
`unsigned` number `n` it returns, `1` exactly when no `i` with `2 <= i < n` divides `n` and
`0` otherwise; hence it agrees with `IsPrime1` on every `n` with `2 <= n <= 2^31 - 1`, while
`IsPrime0(0) = IsPrime0(1) = 1` although `IsPrime1(0) = IsPrime1(1) = 0`. -/
theorem IsPrime0_trial_division (n : Nat) (hn : n < 2 ^ 32) :
    (∃ r, IsPrime0 n = some r ∧ (r = 0 ∨ r = 1) ∧
      (r = 1 ↔ ∀ i, 2 ≤ i → i < n → ¬ i ∣ n)) ∧
    (2 ≤ n → n ≤ 2 ^ 31 - 1 → IsPrime0 n = IsPrime1 n) ∧
    IsPrime0 0 = some 1 ∧ IsPrime0 1 = some 1 ∧ IsPrime1 0 = some 0 ∧ IsPrime1 1 = some 0 := by
  obtain ⟨r, hr, h01, hiff⟩ := IsPrime0_spec n hn
  refine ⟨⟨r, hr, h01, ?_⟩, ?_, ?_, ?_, rfl, rfl⟩
  · constructor
    · intro h1 i hi1 hi2 hd
      have : r = 0 := hiff.2 ⟨i, hi1, hi2, hd⟩
      omega
    · intro h
      rcases h01 with h0 | h1
      · obtain ⟨i, hi1, hi2, hd⟩ := hiff.1 h0
        exact absurd hd (h i hi1 hi2)
      · exact h1
  · intro h2 h31
    rw [hr, IsPrime1_correct n (by omega)]
    refine congrArg some (eq_prime_flag n r h01 ?_)
    rw [hiff, Nat.prime_def_lt']
    constructor
    · rintro ⟨i, hi1, hi2, hd⟩ ⟨_, hp⟩
      exact hp i hi1 hi2 hd
    · intro hnp
      by_contra hne
      refine hnp ⟨h2, fun m hm1 hm2 hd => hne ⟨m, hm1, hm2, hd⟩⟩
  · exact trial_loop_stop _ _ 1 FUEL 2 (by unfold FUEL; omega) (by simp)
  · exact trial_loop_stop _ _ 1 FUEL 2 (by unfold FUEL; omega) (by simp)

/-- A concrete instance of the theorem for C25. -/
theorem IsPrime0_trial_division_witness :
    7 < 2 ^ 32 ∧ (∃ r, IsPrime0 7 = some r ∧ (r = 0 ∨ r = 1) ∧
      (r = 1 ↔ ∀ i, 2 ≤ i → i < 7 → ¬ i ∣ 7)) ∧
    (2 ≤ 7 → 7 ≤ 2 ^ 31 - 1 → IsPrime0 7 = IsPrime1 7) :=
  ⟨by decide, (IsPrime0_trial_division 7 (by decide)).1,
    (IsPrime0_trial_division 7 (by decide)).2.1⟩

end Primes
